import Mathlib

/-!
# Field selectors (`meta/fields`, `meta/selection`)

A shallow embedding of the field-selector package: the record model
(`fields.go`), requirements (`requirement.go`), the operator vocabulary
(`selection/operator.go`) and the selector algebra with its parser and
renderer (`selector.go`).

Modelling conventions.

* A Go `string` is a sequence of bytes: `GoString := List Nat`, every element
  standing for one byte.  `utf8` turns a Lean string literal into its UTF-8
  bytes so that statements stay readable.
* `for i, c := range s` decodes UTF-8: it yields the byte offset `i` of every
  rune start and the rune `c`, an ill-formed byte giving `U+FFFD` and a width
  of one byte.  `decodeRune` and `range` embed that behaviour, `encodeRune` is
  what `WriteRune` and `string([]rune{...})` append.
* Slice expressions `s[a:b]` are `slice s a b`; all slice bounds computed by the
  package are within range, the byte lookup `term[i+1]` of `splitTerm` is not
  and its run-time failure is the `panic` outcome.
* A function returning `(T, error)` returns `Except GoError T`; where a
  run-time panic is possible the result type is `Res T`.
* `[]Selector(nil)` and the empty slice are both the empty list: the methods
  of the package do not tell them apart.
* `Selector` holds the selectors that the constructors and the parser build:
  they are not nil and have no nil child.  `DeepCopy` can return the nil
  interface value and store it as a child of a copy, so its results are
  `SelectorValue`s; a method called on nil panics, which is the result `none`.
-/

namespace FieldSelector

/-! ## Strings -/

/-- A Go string, as its sequence of bytes. -/
abbrev GoString := List Nat

/-- The rune `U+FFFD` produced when decoding ill-formed UTF-8. -/
def RuneError : Nat := 0xFFFD

/-- The function `utf8.AppendRune`: the UTF-8 encoding of a rune, surrogates and
values above `U+10FFFF` being encoded as `U+FFFD`. -/
def encodeRune (r : Nat) : GoString :=
  if r < 0x80 then [r]
  else if r < 0x800 then [0xC0 + r / 64, 0x80 + r % 64]
  else if 0x10FFFF < r ∨ (0xD800 ≤ r ∧ r ≤ 0xDFFF) then [0xEF, 0xBF, 0xBD]
  else if r < 0x10000 then [0xE0 + r / 4096, 0x80 + r / 64 % 64, 0x80 + r % 64]
  else [0xF0 + r / 262144, 0x80 + r / 4096 % 64, 0x80 + r / 64 % 64, 0x80 + r % 64]

/-- The UTF-8 bytes of a sequence of Unicode scalar values. -/
def utf8Chars (cs : List Char) : GoString :=
  cs.flatMap (fun c => encodeRune c.toNat)

/-- The UTF-8 bytes of a text: the well-formed Go strings are the values of `utf8`. -/
def utf8 (s : String) : GoString := utf8Chars s.toList

/-- A continuation byte `10xxxxxx`. -/
def isCont (b : Nat) : Bool := decide (0x80 ≤ b) && decide (b ≤ 0xBF)

/-- The function `utf8.DecodeRuneInString` as used by `range`: the rune at the
head of the string and its width in bytes.  Ill-formed input (a stray
continuation byte, an overlong form, a surrogate, a truncated sequence, a value
above `U+10FFFF`) decodes to `(RuneError, 1)`. -/
def decodeRune : GoString → Nat × Nat
  | [] => (RuneError, 0)
  | b0 :: rest =>
    if b0 < 0x80 then (b0, 1)
    else if 0xC2 ≤ b0 ∧ b0 ≤ 0xDF then
      match rest with
      | b1 :: _ =>
        if isCont b1 then (b0 % 32 * 64 + b1 % 64, 2) else (RuneError, 1)
      | [] => (RuneError, 1)
    else if 0xE0 ≤ b0 ∧ b0 ≤ 0xEF then
      match rest with
      | b1 :: b2 :: _ =>
        if (if b0 = 0xE0 then 0xA0 else 0x80) ≤ b1
            ∧ b1 ≤ (if b0 = 0xED then 0x9F else 0xBF) ∧ isCont b2 then
          (b0 % 16 * 4096 + b1 % 64 * 64 + b2 % 64, 3)
        else (RuneError, 1)
      | _ => (RuneError, 1)
    else if 0xF0 ≤ b0 ∧ b0 ≤ 0xF4 then
      match rest with
      | b1 :: b2 :: b3 :: _ =>
        if (if b0 = 0xF0 then 0x90 else 0x80) ≤ b1
            ∧ b1 ≤ (if b0 = 0xF4 then 0x8F else 0xBF) ∧ isCont b2 ∧ isCont b3 then
          (b0 % 8 * 262144 + b1 % 64 * 4096 + b2 % 64 * 64 + b3 % 64, 4)
        else (RuneError, 1)
      | _ => (RuneError, 1)
    else (RuneError, 1)

/-- The pairs `(i, c)` of `for i, c := range s`, for the part of the string
that starts at byte offset `i`, the first `skip` bytes of which belong to the
rune decoded last. -/
def rangeFrom : Nat → Nat → GoString → List (Nat × Nat)
  | _, _, [] => []
  | i, 0, b :: rest => (i, (decodeRune (b :: rest)).1)
      :: rangeFrom (i + 1) ((decodeRune (b :: rest)).2 - 1) rest
  | i, skip + 1, _ :: rest => rangeFrom (i + 1) skip rest

/-- The iteration `for i, c := range s`: byte offset and rune of every rune of `s`. -/
def range (s : GoString) : List (Nat × Nat) := rangeFrom 0 0 s

/-- The iteration `for _, c := range s`: the runes of `s`. -/
def runes (s : GoString) : List Nat := (range s).map Prod.snd

/-- The slice expression `s[lo:hi]`. -/
def slice (s : GoString) (lo hi : Nat) : GoString := (s.drop lo).take (hi - lo)

/-- The function `strings.HasPrefix`. -/
def hasPrefix : GoString → GoString → Bool
  | _, [] => true
  | [], _ :: _ => false
  | a :: s, b :: p => decide (a = b) && hasPrefix s p

/-- The comparison `a < b` of two Go strings: lexicographic on bytes. -/
def strLess : GoString → GoString → Bool
  | [], [] => false
  | [], _ :: _ => true
  | _ :: _, [] => false
  | a :: s, b :: t => if a < b then true else if b < a then false else strLess s t

/-- The comparison `a <= b` of two Go strings. -/
def strLe (a b : GoString) : Bool := !strLess b a

/-- The call `sort.StringSlice(parts).Sort()`: the strings in ascending order.
Equal strings are indistinguishable, so the ascending arrangement is unique and
does not depend on the sorting algorithm. -/
def sortStrings (parts : List GoString) : List GoString :=
  parts.insertionSort (fun a b => strLe a b = true)

/-- The function `strings.Join`. -/
def join (sep : GoString) : List GoString → GoString
  | [] => []
  | [a] => a
  | a :: b :: rest => a ++ sep ++ join sep (b :: rest)

/-! ## Operators, records, requirements -/

/-- The operator vocabulary of `selection/operator.go`. -/
inductive Operator where
  | In | NotIn | Exists | DoesNotExist | Equals | DoubleEquals | NotEquals
  | LessThan | GreaterThan
deriving DecidableEq, Repr

/-- The string value of an operator constant. -/
def Operator.toGoString : Operator → GoString
  | .In => utf8 "in"
  | .NotIn => utf8 "notin"
  | .Exists => utf8 "exists"
  | .DoesNotExist => utf8 "!"
  | .Equals => utf8 "="
  | .DoubleEquals => utf8 "=="
  | .NotEquals => utf8 "!="
  | .LessThan => utf8 "lt"
  | .GreaterThan => utf8 "gt"

/-- The struct `Requirement`. -/
structure Requirement where
  Operator : Operator
  Field : GoString
  Value : GoString
deriving DecidableEq, Repr

/-- The type `Requirements`. -/
abbrev Requirements := List Requirement

/-- The interface `Fields`: what a selector is matched against. -/
structure Fields where
  Has : GoString → Bool
  Get : GoString → GoString

/-- The type `Set`, a `map[string]string`, as the list of its entries in
iteration order. -/
abbrev Set := List (GoString × GoString)

/-- The index expression `ls[field]` of a map: the value stored under the key,
the empty string when the key is absent. -/
def Set.Get : Set → GoString → GoString
  | [], _ => []
  | (k, v) :: rest, field => if k = field then v else Set.Get rest field

/-- The method `Set.Has`. -/
def Set.Has : Set → GoString → Bool
  | [], _ => false
  | (k, _) :: rest, field => if k = field then true else Set.Has rest field

/-- A `Set` used as a `Fields` value. -/
def Set.asFields (ls : Set) : Fields := ⟨ls.Has, ls.Get⟩

/-! ## Errors and results -/

/-- The error values of the package. -/
inductive GoError where
  /-- The type `InvalidEscapeSequence`. -/
  | invalidEscapeSequence (sequence : GoString)
  /-- The type `UnescapedRune`. -/
  | unescapedRune (r : Nat)
  /-- An error built by `fmt.Errorf`, with its message. -/
  | errorf (msg : GoString)
  /-- Any other error, as a user-supplied `TransformFunc` may return. -/
  | other (msg : GoString)
deriving DecidableEq, Repr

/-- Outcome of a call that returns `(T, error)` and may also panic. -/
inductive Res (α : Type) where
  | ok (val : α)
  | err (e : GoError)
  | panic
deriving DecidableEq, Repr

/-- The type `TransformFunc`. -/
abbrev TransformFunc := GoString → GoString → Except GoError (GoString × GoString)


/-! ## The selector algebra -/

/-- The implementations of the interface `Selector`: `nothingSelector`,
`*hasTerm`, `*notHasTerm` and `andTerm`. -/
inductive Selector where
  | nothing : Selector
  | hasTerm (field value : GoString) : Selector
  | notHasTerm (field value : GoString) : Selector
  | andTerm (children : List Selector) : Selector
deriving Repr

/-- The constructor `Nothing`. -/
def Nothing : Selector := .nothing

/-- The constructor `Everything`. -/
def Everything : Selector := .andTerm []

/-- The constructor `OneTermEqualSelector`. -/
def OneTermEqualSelector (f v : GoString) : Selector := .hasTerm f v

/-- The constructor `OneTermNotEqualSelector`. -/
def OneTermNotEqualSelector (f v : GoString) : Selector := .notHasTerm f v

/-- The constructor `AndTerm`. -/
def AndTerm (selectors : List Selector) : Selector := .andTerm selectors

/-- The function `escapeValue`: the replacer maps each of the bytes `\`, `,`
and `=` to a backslash followed by that byte and copies every other byte. -/
def escapeValue (rStr : GoString) : GoString :=
  rStr.flatMap (fun b => if b = 0x5C ∨ b = 0x2C ∨ b = 0x3D then [0x5C, b] else [b])

mutual
/-- The method `Matches`. -/
def Selector.Matches : Selector → Fields → Bool
  | .nothing, _ => false
  | .hasTerm field value, ls => decide (ls.Get field = value)
  | .notHasTerm field value, ls => decide (ls.Get field ≠ value)
  | .andTerm children, ls => Selector.matchesAll children ls
/-- The loop of `andTerm.Matches`. -/
def Selector.matchesAll : List Selector → Fields → Bool
  | [], _ => true
  | s :: rest, ls => if !s.Matches ls then false else Selector.matchesAll rest ls
end

mutual
/-- The method `Empty`. -/
def Selector.Empty : Selector → Bool
  | .nothing => false
  | .hasTerm _ _ => false
  | .notHasTerm _ _ => false
  | .andTerm children => Selector.emptyAll children
/-- The loop of `andTerm.Empty`; the two early returns for a nil or empty
slice give the value this loop gives on the empty list. -/
def Selector.emptyAll : List Selector → Bool
  | [] => true
  | s :: rest => if !s.Empty then false else Selector.emptyAll rest
end

mutual
/-- The method `RequiresExactMatch`: the pair `(value, found)`. -/
def Selector.RequiresExactMatch : Selector → GoString → GoString × Bool
  | .nothing, _ => ([], false)
  | .hasTerm f value, field => if f = field then (value, true) else ([], false)
  | .notHasTerm _ _, _ => ([], false)
  | .andTerm children, field =>
    if Selector.emptyAll children || decide (children.length = 0) then ([], false)
    else Selector.exactMatchFirst children field
/-- The loop of `andTerm.RequiresExactMatch`. -/
def Selector.exactMatchFirst : List Selector → GoString → GoString × Bool
  | [], _ => ([], false)
  | s :: rest, field =>
    if (s.RequiresExactMatch field).2 then s.RequiresExactMatch field
    else Selector.exactMatchFirst rest field
end

mutual
/-- The method `Transform`. -/
def Selector.Transform : Selector → TransformFunc → Except GoError Selector
  | .nothing, _ => .ok .nothing
  | .hasTerm field value, f =>
    match f field value with
    | .error err => .error err
    | .ok (field', value') =>
      if field'.length = 0 ∧ value'.length = 0 then .ok Everything
      else .ok (.hasTerm field' value')
  | .notHasTerm field value, f =>
    match f field value with
    | .error err => .error err
    | .ok (field', value') =>
      if field'.length = 0 ∧ value'.length = 0 then .ok Everything
      else .ok (.notHasTerm field' value')
  | .andTerm children, fn =>
    match Selector.transformAll children fn [] with
    | .error err => .error err
    | .ok new => .ok (.andTerm new)
/-- The loop of `andTerm.Transform`, `new` being the slice built so far. -/
def Selector.transformAll : List Selector → TransformFunc → List Selector →
    Except GoError (List Selector)
  | [], _, new => .ok new
  | s :: rest, fn, new =>
    match s.Transform fn with
    | .error err => .error err
    | .ok newS =>
      if !newS.Empty then Selector.transformAll rest fn (new ++ [newS])
      else Selector.transformAll rest fn new
end

mutual
/-- The method `Requirements`. -/
def Selector.Requirements : Selector → Requirements
  | .nothing => []
  | .hasTerm field value => [⟨.Equals, field, value⟩]
  | .notHasTerm field value => [⟨.NotEquals, field, value⟩]
  | .andTerm children => Selector.requirementsAll children
/-- The loop of `andTerm.Requirements`. -/
def Selector.requirementsAll : List Selector → Requirements
  | [] => []
  | s :: rest => s.Requirements ++ Selector.requirementsAll rest
end

mutual
/-- The method `String`. -/
def Selector.String : Selector → GoString
  | .nothing => []
  | .hasTerm field value => field ++ utf8 "=" ++ escapeValue value
  | .notHasTerm field value => field ++ utf8 "!=" ++ escapeValue value
  | .andTerm children => join (utf8 ",") (Selector.stringAll children)
/-- The loop of `andTerm.String`: the renderings of the children. -/
def Selector.stringAll : List Selector → List GoString
  | [] => []
  | s :: rest => s.String :: Selector.stringAll rest
end

/-! ## The parser -/

/-- The constant `notEqualOp`. -/
def notEqualOp : GoString := utf8 "!="
/-- The constant `equalOp`. -/
def equalOp : GoString := utf8 "="
/-- The constant `doubleEqualOp`. -/
def doubleEqualOp : GoString := utf8 "=="

/-- The variable `termOperators`. -/
def termOperators : List GoString := [notEqualOp, equalOp, doubleEqualOp]

/-- One iteration of the loop of `splitTerms` on the state
`(terms, startIdx, inSlash)`. -/
def splitTermsStep (fieldSelector : GoString) (st : List GoString × Nat × Bool)
    (ic : Nat × Nat) : List GoString × Nat × Bool :=
  if st.2.2 then (st.1, st.2.1, false)
  else if ic.2 = 0x5C then (st.1, st.2.1, true)
  else if ic.2 = 0x2C then (st.1 ++ [slice fieldSelector st.2.1 ic.1], ic.1 + 1, false)
  else st

/-- The function `splitTerms`. -/
def splitTerms (fieldSelector : GoString) : List GoString :=
  if fieldSelector.length = 0 then []
  else
    let st := (range fieldSelector).foldl (splitTermsStep fieldSelector) ([], 0, false)
    st.1 ++ [fieldSelector.drop st.2.1]

/-- Outcome of `splitTerm`: the results `(lhs, op, rhs, true)`, the results
`("", "", "", false)`, or the run-time panic of an index out of range. -/
inductive SplitTermResult where
  | found (lhs op rhs : GoString)
  | notFound
  | panic
deriving DecidableEq, Repr

/-- The inner loop of `splitTerm` at offset `i`, over the operators still to be
tried; `none` when no operator is a prefix of `term[i:]`. -/
def splitTermOps (term : GoString) (i : Nat) : List GoString → Option SplitTermResult
  | [] => none
  | op :: ops =>
    if hasPrefix (term.drop i) op then
      if op = equalOp then
        match term.get? (i + 1) with
        | none => some .panic
        | some b =>
          if b = 0x3D then
            some (.found (term.take i) doubleEqualOp (term.drop (i + doubleEqualOp.length)))
          else some (.found (term.take i) op (term.drop (i + op.length)))
      else some (.found (term.take i) op (term.drop (i + op.length)))
    else splitTermOps term i ops

/-- The outer loop of `splitTerm`, over the rune offsets still to be visited. -/
def splitTermLoop (term : GoString) : List (Nat × Nat) → SplitTermResult
  | [] => .notFound
  | ic :: rest =>
    match splitTermOps term ic.1 termOperators with
    | some r => r
    | none => splitTermLoop term rest

/-- The function `splitTerm`. -/
def splitTerm (term : GoString) : SplitTermResult :=
  splitTermLoop term (range term)

/-- The call `strings.ContainsAny(str, "\\,=")`. -/
def containsSpecial (str : GoString) : Bool :=
  str.any (fun b => decide (b = 0x5C) || decide (b = 0x2C) || decide (b = 0x3D))

/-- The loop of `unescapeValue` over the runes of the string, `buf` being the
bytes written so far. -/
def unescapeLoop : List Nat → Bool → GoString → Except GoError GoString
  | [], isSlash, buf =>
    if isSlash then .error (.invalidEscapeSequence (utf8 "\\")) else .ok buf
  | c :: rest, isSlash, buf =>
    if isSlash then
      if c = 0x5C ∨ c = 0x2C ∨ c = 0x3D then
        unescapeLoop rest false (buf ++ encodeRune c)
      else .error (.invalidEscapeSequence (encodeRune 0x5C ++ encodeRune c))
    else if c = 0x5C then unescapeLoop rest true buf
    else if c = 0x2C ∨ c = 0x3D then .error (.unescapedRune c)
    else unescapeLoop rest false (buf ++ encodeRune c)

/-- The function `unescapeValue`. -/
def unescapeValue (str : GoString) : Except GoError GoString :=
  if !containsSpecial str then .ok str
  else unescapeLoop (runes str) false []

/-- The loop of `parseSelector` over the sorted parts, `items` being the slice
built so far. -/
def parseItems (selector : GoString) : List GoString → List Selector → Res (List Selector)
  | [], items => .ok items
  | p :: parts, items =>
    if p = [] then parseItems selector parts items
    else
      match splitTerm p with
      | .panic => .panic
      | .notFound =>
        .err (.errorf (utf8 "invalid selector: '" ++ selector
          ++ utf8 "'; can't split term: '" ++ p ++ utf8 "'"))
      | .found lhs op rhs =>
        match unescapeValue rhs with
        | .error err => .err err
        | .ok unescapedRHS =>
          if op = notEqualOp then
            parseItems selector parts (items ++ [.notHasTerm lhs unescapedRHS])
          else if op = doubleEqualOp then
            parseItems selector parts (items ++ [.hasTerm lhs unescapedRHS])
          else if op = equalOp then
            parseItems selector parts (items ++ [.hasTerm lhs unescapedRHS])
          else
            .err (.errorf (utf8 "invalid selector: '" ++ selector
              ++ utf8 "'; can't understand value: '" ++ p ++ utf8 "'"))

/-- A result `(Selector, error)` as an outcome. -/
def Res.ofExcept {α : Type} : Except GoError α → Res α
  | .ok a => .ok a
  | .error e => .err e

/-- The function `parseSelector`. -/
def parseSelector (selector : GoString) (fn : TransformFunc) : Res Selector :=
  match parseItems selector (sortStrings (splitTerms selector)) [] with
  | .panic => .panic
  | .err e => .err e
  | .ok items =>
    match items with
    | [item] => Res.ofExcept (item.Transform fn)
    | _ => Res.ofExcept ((Selector.andTerm items).Transform fn)

/-- The function `ParseSelector`. -/
def ParseSelector (selector : GoString) : Res Selector :=
  parseSelector selector (fun field value => .ok (field, value))

/-- The function `ParseAndTransformSelector`. -/
def ParseAndTransformSelector (selector : GoString) (fn : TransformFunc) : Res Selector :=
  parseSelector selector fn

/-! ## Byte-level descriptions used in the proofs -/

/-- The bytes that `range` skips after a rune start: `skip` bytes, none of them ASCII. -/
def SkipOK (skip : Nat) (rest : GoString) : Prop :=
  skip ≤ rest.length ∧ ∀ b ∈ rest.take skip, 0x80 ≤ b

/-- Puts the string `cur` in front of the first string of a list. -/
def appendHead (cur : GoString) : List GoString → List GoString
  | [] => [cur]
  | x :: xs => (cur ++ x) :: xs

/-- The terms of a text, read byte by byte: what `splitTerms` computes on a
non-empty text (`splitTerms_eq`), `inSlash` being the state of the scan. -/
def splitB : Bool → GoString → List GoString
  | _, [] => [[]]
  | true, b :: rest => appendHead [b] (splitB false rest)
  | false, b :: rest =>
    if b = 0x2C then [] :: splitB false rest
    else appendHead [b] (splitB (decide (b = 0x5C)) rest)

/-- What `splitTerm` computes, read byte by byte (`splitTerm_eq`), `pre` being the
bytes already passed. -/
def splitTermB : GoString → GoString → SplitTermResult
  | _, [] => .notFound
  | pre, b :: rest =>
    if b = 0x21 ∧ rest.head? = some 0x3D then .found pre notEqualOp (rest.drop 1)
    else if b = 0x3D then
      match rest with
      | [] => .panic
      | b1 :: rest1 =>
        if b1 = 0x3D then .found pre doubleEqualOp rest1 else .found pre equalOp rest
    else splitTermB (pre ++ [b]) rest

/-- The state of the scan of `splitTerms` after reading the bytes of a string. -/
def scanState : Bool → GoString → Bool
  | st, [] => st
  | true, _ :: rest => scanState false rest
  | false, b :: rest => scanState (decide (b = 0x5C)) rest

/-- The string holds no comma at which `splitTerms` would cut. -/
def noSplit : Bool → GoString → Bool
  | _, [] => true
  | true, _ :: rest => noSplit false rest
  | false, b :: rest => !decide (b = 0x2C) && noSplit (decide (b = 0x5C)) rest

/-- The runes of an escaped value: every rune of the value, a backslash before
each of the three special ones. -/
def escapeRunes (cs : List Nat) : List Nat :=
  cs.flatMap (fun c => if c = 0x5C ∨ c = 0x2C ∨ c = 0x3D then [0x5C, c] else [c])

/-- A well-formed Go string: the UTF-8 encoding of a sequence of Unicode scalar
values. -/
def Valid (s : GoString) : Prop := ∃ cs : List Char, s = utf8Chars cs

/-- The child that `parseSelector` builds for one non-empty term, when it builds
one. -/
def termItem (p : GoString) : Option Selector :=
  match splitTerm p with
  | .found lhs op rhs =>
    match unescapeValue rhs with
    | .ok v =>
      if op = notEqualOp then some (.notHasTerm lhs v)
      else if op = doubleEqualOp then some (.hasTerm lhs v)
      else if op = equalOp then some (.hasTerm lhs v)
      else none
    | .error _ => none
  | _ => none

/-- The children that `parseSelector` builds for a list of terms, when the loop
runs to its end. -/
def termItems : List GoString → Option (List Selector)
  | [] => some []
  | p :: parts =>
    if p = [] then termItems parts
    else
      match termItem p, termItems parts with
      | some it, some its => some (it :: its)
      | _, _ => none

/-- A term that `Transform` turns into `Everything` under the identity transform:
its field and its value are both empty. -/
def collapsed : Selector → Bool
  | .hasTerm field value => decide (field.length = 0 ∧ value.length = 0)
  | .notHasTerm field value => decide (field.length = 0 ∧ value.length = 0)
  | _ => false

/-- A primitive term, equality or inequality. -/
def isTerm : Selector → Bool
  | .hasTerm _ _ => true
  | .notHasTerm _ _ => true
  | _ => false

/-- The selectors whose renderings make up the rendering of a selector: the
children of a conjunction, the selector itself otherwise. -/
def Selector.children : Selector → List Selector
  | .andTerm cs => cs
  | s => [s]

/-- The terms of a sorted list that leave a child in the parsed selector: the
empty ones are skipped by the parser and the term `!=` collapses to `Everything`. -/
def keptTerm (p : GoString) : Bool := !decide (p = []) && !decide (p = [0x21, 0x3D])

/-- The rendering of the child that the parser builds for one term of a sorted
list, when the term leaves a child in the parsed selector. -/
def keptRendering (p : GoString) : Option GoString :=
  if p = [] then none
  else
    match termItem p with
    | some it => if collapsed it = true then none else some it.String
    | none => none

/-- One of the three characters backslash, comma and equals sign. -/
def isSpecial (c : Nat) : Bool := decide (c = 0x5C) || decide (c = 0x2C) || decide (c = 0x3D)

/-- A sequence of characters that is a concatenation of characters other than
backslash, comma and equals sign and of the two-character escapes
backslash-backslash, backslash-comma and backslash-equals. -/
def wellEscaped : List Nat → Bool
  | [] => true
  | [c] => !isSpecial c
  | c :: d :: rest =>
    if c = 0x5C then isSpecial d && wellEscaped rest
    else !isSpecial c && wellEscaped (d :: rest)

/-- The sequence of characters `rs` has a first offending position, after the
well-escaped characters `pre`, and `e` is the error that the claim on the failure
surface gives for it: a backslash followed by a character that is not special, a
lone backslash at the end, or a comma or equals sign that is not escaped. -/
def OffendingAt (rs pre : List Nat) (e : GoError) : Prop :=
  wellEscaped pre = true ∧
  ((∃ c rest, rs = pre ++ 0x5C :: c :: rest ∧ isSpecial c = false ∧
      e = .invalidEscapeSequence (encodeRune 0x5C ++ encodeRune c)) ∨
   (rs = pre ++ [0x5C] ∧ e = .invalidEscapeSequence (encodeRune 0x5C)) ∨
   (∃ c rest, rs = pre ++ c :: rest ∧ (c = 0x2C ∨ c = 0x3D) ∧ e = .unescapedRune c))

/-! ## Deep copies -/

/-- A value of the interface type `Selector` as `DeepCopy` returns it: it may be
the nil interface value, and the children of a conjunction may be nil. -/
inductive SelectorValue where
  | nil : SelectorValue
  | nothing : SelectorValue
  | hasTerm (field value : GoString) : SelectorValue
  | notHasTerm (field value : GoString) : SelectorValue
  | andTerm (children : List SelectorValue) : SelectorValue
deriving Repr

mutual
/-- The method `DeepCopy`. -/
def Selector.DeepCopy : Selector → SelectorValue
  | .nothing => .nothing
  | .hasTerm field value => .hasTerm field value
  | .notHasTerm field value => .notHasTerm field value
  | .andTerm children =>
    if Selector.emptyAll children then .nil
    else .andTerm (Selector.deepCopyAll children)
/-- The loop of `andTerm.DeepCopy`. -/
def Selector.deepCopyAll : List Selector → List SelectorValue
  | [] => []
  | s :: rest => s.DeepCopy :: Selector.deepCopyAll rest
end

mutual
/-- The method `Matches` called on a value that may be nil or hold nil children;
`none` is the run-time panic of a method call on the nil interface value. -/
def SelectorValue.Matches : SelectorValue → Fields → Option Bool
  | .nil, _ => none
  | .nothing, _ => some false
  | .hasTerm field value, ls => some (decide (ls.Get field = value))
  | .notHasTerm field value, ls => some (decide (ls.Get field ≠ value))
  | .andTerm children, ls => SelectorValue.matchesAll children ls
/-- The loop of `andTerm.Matches` on such values. -/
def SelectorValue.matchesAll : List SelectorValue → Fields → Option Bool
  | [], _ => some true
  | s :: rest, ls =>
    match s.Matches ls with
    | none => none
    | some false => some false
    | some true => SelectorValue.matchesAll rest ls
end

mutual
/-- The method `Requirements` called on a value that may be nil or hold nil
children; `none` is the run-time panic. -/
def SelectorValue.Requirements : SelectorValue → Option Requirements
  | .nil => none
  | .nothing => some []
  | .hasTerm field value => some [⟨.Equals, field, value⟩]
  | .notHasTerm field value => some [⟨.NotEquals, field, value⟩]
  | .andTerm children => SelectorValue.requirementsAll children
/-- The loop of `andTerm.Requirements` on such values. -/
def SelectorValue.requirementsAll : List SelectorValue → Option Requirements
  | [] => some []
  | s :: rest =>
    match s.Requirements with
    | none => none
    | some rs =>
      match SelectorValue.requirementsAll rest with
      | none => none
      | some reqs => some (rs ++ reqs)
end

mutual
/-- The method `String` called on a value that may be nil or hold nil children;
`none` is the run-time panic. -/
def SelectorValue.String : SelectorValue → Option GoString
  | .nil => none
  | .nothing => some []
  | .hasTerm field value => some (field ++ utf8 "=" ++ escapeValue value)
  | .notHasTerm field value => some (field ++ utf8 "!=" ++ escapeValue value)
  | .andTerm children =>
    match SelectorValue.stringAll children with
    | none => none
    | some terms => some (join (utf8 ",") terms)
/-- The loop of `andTerm.String` on such values. -/
def SelectorValue.stringAll : List SelectorValue → Option (List GoString)
  | [] => some []
  | s :: rest =>
    match s.String with
    | none => none
    | some str =>
      match SelectorValue.stringAll rest with
      | none => none
      | some terms => some (str :: terms)
end

mutual
/-- A selector built by the constructors of the package, as a value of the
interface type: it is not nil and holds no nil child. -/
def Selector.toValue : Selector → SelectorValue
  | .nothing => .nothing
  | .hasTerm field value => .hasTerm field value
  | .notHasTerm field value => .notHasTerm field value
  | .andTerm children => .andTerm (Selector.toValueAll children)
/-- The children of a conjunction as values of the interface type. -/
def Selector.toValueAll : List Selector → List SelectorValue
  | [] => []
  | s :: rest => s.toValue :: Selector.toValueAll rest
end

mutual
/-- No conjunction inside the selector, the selector included, is `Empty`. -/
def Selector.noEmptyInside : Selector → Bool
  | .nothing => true
  | .hasTerm _ _ => true
  | .notHasTerm _ _ => true
  | .andTerm children => !Selector.emptyAll children && Selector.noEmptyInsideAll children
/-- No conjunction inside the selectors of a list is `Empty`. -/
def Selector.noEmptyInsideAll : List Selector → Bool
  | [] => true
  | s :: rest => s.noEmptyInside && Selector.noEmptyInsideAll rest
end

/-! ## Records as selectors and as text -/

/-- The function `SelectorFromSet`, the entries of the map being listed in
iteration order; a nil map and an empty map both give no term, and
`Everything()` is the conjunction without children. -/
def SelectorFromSet (ls : Set) : Selector :=
  match ls.map (fun e => Selector.hasTerm e.1 e.2) with
  | [term] => term
  | terms => .andTerm terms

/-- The method `Set.AsSelector`. -/
def Set.AsSelector (ls : Set) : Selector := SelectorFromSet ls

/-- The method `Set.String`, the entries of the map being listed in iteration
order. -/
def Set.String (ls : Set) : GoString :=
  join (utf8 ",") (sortStrings (ls.map (fun e => e.1 ++ utf8 "=" ++ e.2)))

end FieldSelector

/-! ## The logger of package `log`

The package wraps the library `zap`. Of the library the model keeps what the
wrapper relies on: levels are ordered integers, an atomic level enables the
levels not below its own, and a logger writes an entry to its core when the core
is enabled for the level of the entry. The core is an observer, which keeps the
entries written to it; `F` is the type of a field. -/

namespace Log

/-- The type `Level`, which is `zapcore.Level`. -/
abbrev Level := Int

/-- The constant `DebugLevel`. -/
def DebugLevel : Level := -1
/-- The constant `InfoLevel`. -/
def InfoLevel : Level := 0
/-- The constant `WarnLevel`. -/
def WarnLevel : Level := 1
/-- The constant `ErrorLevel`. -/
def ErrorLevel : Level := 2
/-- The constant `PanicLevel`. -/
def PanicLevel : Level := 4
/-- The constant `FatalLevel`. -/
def FatalLevel : Level := 5

/-- What the observer keeps of an entry: its level, its message and its fields. -/
structure LoggedEntry (F : Type) where
  Level : Level
  Message : FieldSelector.GoString
  Context : List F

/-- A `zap.Logger` over an observer core: the level from which the core records
and the entries recorded so far. -/
structure Logger (F : Type) where
  enab : Level
  logs : List (LoggedEntry F)

/-- The method `zap.Logger.Info`. -/
def Logger.Info {F : Type} (log : Logger F) (msg : FieldSelector.GoString) (fields : List F) :
    Logger F :=
  if log.enab ≤ InfoLevel then
    { log with logs := log.logs ++ [⟨InfoLevel, msg, fields⟩] }
  else log

/-- The method `zap.AtomicLevel.Enabled`, for an atomic level holding `al`. -/
def AtomicLevel.Enabled (al l : Level) : Bool := decide (al ≤ l)

/-- The struct `zapLogger`; `al` is the level held by the atomic level. -/
structure zapLogger (F : Type) where
  l : Logger F
  al : Level

/-- The method `zapLogger.check`, returning the logger after the call. -/
def zapLogger.check {F : Type} (l : zapLogger F) (msg : FieldSelector.GoString)
    (fields : List F) : zapLogger F :=
  let msg := if msg.length > 1024 then msg.take 1024 else msg
  if AtomicLevel.Enabled l.al l.al then { l with l := l.l.Info msg fields } else l

/-- The method `zapLogger.Info`, returning the logger after the call. -/
def zapLogger.Info {F : Type} (l : zapLogger F) (msg : FieldSelector.GoString)
    (fields : List F) : zapLogger F :=
  l.check msg fields

end Log

namespace FieldSelector

/-! ## UTF-8 decoding and encoding -/

theorem encodeRune_ascii {r : Nat} (h : r < 0x80) : encodeRune r = [r] := by
  simp [encodeRune, h]

theorem encodeRune_high {r : Nat} (h : 0x80 ≤ r) : ∀ b ∈ encodeRune r, 0x80 ≤ b := by
  intro b hb
  simp only [encodeRune] at hb
  split_ifs at hb <;> simp at hb <;> omega

theorem encodeRune_length_pos (r : Nat) : 0 < (encodeRune r).length := by
  simp only [encodeRune]
  split_ifs <;> simp

theorem decodeRune_ascii {b : Nat} (rest : GoString) (h : b < 0x80) :
    decodeRune (b :: rest) = (b, 1) := by
  simp [decodeRune, h]

theorem skipOK_zero (rest : GoString) : SkipOK 0 rest := by
  simp [SkipOK]

theorem skipOK_succ {k b : Nat} {rest : GoString} (h : SkipOK (k + 1) (b :: rest)) :
    0x80 ≤ b ∧ SkipOK k rest := by
  obtain ⟨h1, h2⟩ := h
  refine ⟨h2 b (by simp), ?_, fun x hx => h2 x (by simp [hx])⟩
  simpa using h1

theorem decodeRune_high {b : Nat} (rest : GoString) (h : 0x80 ≤ b) :
    0x80 ≤ (decodeRune (b :: rest)).1 := by
  simp only [decodeRune, RuneError, isCont]
  split_ifs <;> (try split) <;> (try split_ifs) <;> simp only [] <;> omega

theorem decodeRune_skipOK (b : Nat) (rest : GoString) :
    SkipOK ((decodeRune (b :: rest)).2 - 1) rest := by
  simp only [decodeRune, RuneError, isCont]
  split_ifs <;> (try split) <;> (try split_ifs) <;>
    simp_all [SkipOK] <;> omega

theorem decodeRune_encodeRune {r : Nat} (rest : GoString)
    (h : r < 0xD800 ∨ (0xDFFF < r ∧ r < 0x110000)) :
    decodeRune (encodeRune r ++ rest) = (r, (encodeRune r).length) := by
  simp only [encodeRune]
  split_ifs with h1 h2 h3 h4
  · simp [decodeRune, h1]
  · have e1 : ¬ (0xC0 + r / 64 < 0x80) := by omega
    have e2 : 0xC2 ≤ 0xC0 + r / 64 ∧ 0xC0 + r / 64 ≤ 0xDF := by omega
    have e3 : isCont (0x80 + r % 64) = true := by simp [isCont]; omega
    simp only [List.cons_append, List.nil_append, decodeRune, e1, e2, e3, if_true, if_false,
      and_self, List.length_cons, List.length_nil, Prod.mk.injEq, and_true]
    omega
  · omega
  · have e1 : ¬ (0xE0 + r / 4096 < 0x80) := by omega
    have e2 : ¬ (0xC2 ≤ 0xE0 + r / 4096 ∧ 0xE0 + r / 4096 ≤ 0xDF) := by omega
    have e3 : 0xE0 ≤ 0xE0 + r / 4096 ∧ 0xE0 + r / 4096 ≤ 0xEF := by omega
    have e4 : isCont (0x80 + r % 64) = true := by simp [isCont]; omega
    have e5 : (if 0xE0 + r / 4096 = 0xE0 then 0xA0 else 0x80) ≤ 0x80 + r / 64 % 64 := by
      split_ifs <;> omega
    have e6 : 0x80 + r / 64 % 64 ≤ (if 0xE0 + r / 4096 = 0xED then 0x9F else 0xBF) := by
      split_ifs <;> omega
    simp only [List.cons_append, List.nil_append, decodeRune, e1, e2, e3, e4, e5, e6, if_true,
      if_false, and_self, List.length_cons, List.length_nil, Prod.mk.injEq, and_true]
    omega
  · have e1 : ¬ (0xF0 + r / 262144 < 0x80) := by omega
    have e2 : ¬ (0xC2 ≤ 0xF0 + r / 262144 ∧ 0xF0 + r / 262144 ≤ 0xDF) := by omega
    have e3 : ¬ (0xE0 ≤ 0xF0 + r / 262144 ∧ 0xF0 + r / 262144 ≤ 0xEF) := by omega
    have e3' : 0xF0 ≤ 0xF0 + r / 262144 ∧ 0xF0 + r / 262144 ≤ 0xF4 := by omega
    have e4 : isCont (0x80 + r % 64) = true := by simp [isCont]; omega
    have e4' : isCont (0x80 + r / 64 % 64) = true := by simp [isCont]; omega
    have e5 : (if 0xF0 + r / 262144 = 0xF0 then 0x90 else 0x80) ≤ 0x80 + r / 4096 % 64 := by
      split_ifs <;> omega
    have e6 : 0x80 + r / 4096 % 64 ≤ (if 0xF0 + r / 262144 = 0xF4 then 0x8F else 0xBF) := by
      split_ifs <;> omega
    simp only [List.cons_append, List.nil_append, decodeRune, e1, e2, e3, e3', e4, e4', e5, e6,
      if_true, if_false, and_self, List.length_cons, List.length_nil, Prod.mk.injEq, and_true]
    omega

/-! ## `range` -/

theorem rangeFrom_skip : ∀ (a rest : GoString) (i : Nat),
    rangeFrom i a.length (a ++ rest) = rangeFrom (i + a.length) 0 rest
  | [], rest, i => by simp
  | b :: a, rest, i => by
    simp only [List.length_cons, List.cons_append, rangeFrom, List.append_eq]
    rw [rangeFrom_skip a rest (i + 1)]
    congr 1
    omega

theorem rangeFrom_map_snd : ∀ (s : GoString) (i j skip : Nat),
    (rangeFrom i skip s).map Prod.snd = (rangeFrom j skip s).map Prod.snd
  | [], _, _, _ => by simp [rangeFrom]
  | b :: rest, i, j, 0 => by
    simp only [rangeFrom, List.map_cons]
    rw [rangeFrom_map_snd rest (i + 1) (j + 1)]
  | b :: rest, i, j, skip + 1 => by
    simp only [rangeFrom]
    exact rangeFrom_map_snd rest (i + 1) (j + 1) skip

theorem runes_nil : runes [] = [] := rfl

theorem runes_ascii {b : Nat} (rest : GoString) (h : b < 0x80) :
    runes (b :: rest) = b :: runes rest := by
  simp only [runes, range, rangeFrom, decodeRune_ascii rest h, List.map_cons]
  rw [rangeFrom_map_snd rest (0 + 1) 0]

theorem runes_encodeRune {r : Nat} (rest : GoString)
    (h : r < 0xD800 ∨ (0xDFFF < r ∧ r < 0x110000)) :
    runes (encodeRune r ++ rest) = r :: runes rest := by
  have hd := decodeRune_encodeRune rest h
  have hpos := encodeRune_length_pos r
  cases he : encodeRune r with
  | nil => simp [he] at hpos
  | cons b a =>
    rw [he] at hd
    simp only [List.cons_append] at hd
    simp only [runes, range, List.cons_append, rangeFrom, List.append_eq, hd, List.map_cons,
      List.length_cons, Nat.add_sub_cancel]
    rw [rangeFrom_skip a rest (0 + 1), rangeFrom_map_snd rest (0 + 1 + a.length) 0]

theorem char_valid (c : Char) :
    c.toNat < 0xD800 ∨ (0xDFFF < c.toNat ∧ c.toNat < 0x110000) := c.valid

theorem runes_utf8Chars (cs : List Char) (rest : GoString) :
    runes (utf8Chars cs ++ rest) = cs.map Char.toNat ++ runes rest := by
  induction cs with
  | nil => simp [utf8Chars]
  | cons c cs ih =>
    have : utf8Chars (c :: cs) = encodeRune c.toNat ++ utf8Chars cs := by
      simp [utf8Chars]
    rw [this, List.append_assoc, runes_encodeRune _ (char_valid c), ih]
    simp

/-! ## `splitTerms`, byte by byte -/

theorem splitB_ne_nil : ∀ (st : Bool) (s : GoString), splitB st s ≠ []
  | _, [] => by simp [splitB]
  | true, b :: rest => by
    simp only [splitB]
    cases h : splitB false rest <;> simp [appendHead]
  | false, b :: rest => by
    simp only [splitB]
    split_ifs
    · simp
    · cases h : splitB (decide (b = 0x5C)) rest <;> simp [appendHead]

theorem appendHead_nil {l : List GoString} (h : l ≠ []) : appendHead [] l = l := by
  cases l with
  | nil => exact absurd rfl h
  | cons x xs => simp [appendHead]

theorem appendHead_append (a b : GoString) (l : List GoString) :
    appendHead a (appendHead b l) = appendHead (a ++ b) l := by
  cases l <;> simp [appendHead]

theorem splitTerms_loop (fs : GoString) : ∀ (rest pre : GoString) (skip : Nat)
    (terms : List GoString) (startIdx : Nat) (inSlash : Bool),
    fs = pre ++ rest → startIdx ≤ pre.length → SkipOK skip rest →
    (0 < skip → inSlash = false) →
    ((rangeFrom pre.length skip rest).foldl (splitTermsStep fs) (terms, startIdx, inSlash)).1
      ++ [fs.drop ((rangeFrom pre.length skip rest).foldl (splitTermsStep fs)
          (terms, startIdx, inSlash)).2.1]
    = terms ++ appendHead (pre.drop startIdx) (splitB inSlash rest) := by
  intro rest
  induction rest with
  | nil =>
    intro pre skip terms startIdx inSlash hfs _ _ _
    simp [rangeFrom, splitB, appendHead, hfs]
  | cons b rest ih =>
    intro pre skip terms startIdx inSlash hfs hle hskip hslash
    have hfs' : fs = (pre ++ [b]) ++ rest := by simp [hfs]
    have hlen : (pre ++ [b]).length = pre.length + 1 := by simp
    have hdrop : (pre ++ [b]).drop startIdx = pre.drop startIdx ++ [b] := by
      rw [List.drop_append_of_le_length hle]
    cases skip with
    | succ k =>
      obtain ⟨hb, hk⟩ := skipOK_succ hskip
      have hs : inSlash = false := hslash (by omega)
      subst hs
      simp only [rangeFrom]
      have := ih (pre ++ [b]) k terms startIdx false hfs' (by omega) hk (fun _ => rfl)
      rw [hlen] at this
      rw [this, hdrop]
      have h1 : ¬ b = 0x2C := by omega
      have h2 : decide (b = 0x5C) = false := by simp; omega
      simp only [splitB, h1, h2, if_false, appendHead_append]
    | zero =>
      simp only [rangeFrom, List.foldl_cons]
      have hk := decodeRune_skipOK b rest
      by_cases hs : inSlash = true
      · subst hs
        have hstep : splitTermsStep fs (terms, startIdx, true)
            (pre.length, (decodeRune (b :: rest)).1) = (terms, startIdx, false) := by
          simp [splitTermsStep]
        rw [hstep]
        have := ih (pre ++ [b]) _ terms startIdx false hfs' (by omega) hk (fun _ => rfl)
        rw [hlen] at this
        rw [this, hdrop]
        simp only [splitB, appendHead_append]
      · have hs' : inSlash = false := by simpa using hs
        subst hs'
        by_cases hb : b < 0x80
        · rw [decodeRune_ascii rest hb]
          by_cases h5 : b = 0x5C
          · have hstep : splitTermsStep fs (terms, startIdx, false) (pre.length, b)
                = (terms, startIdx, true) := by
              simp [splitTermsStep, h5]
            rw [hstep]
            have := ih (pre ++ [b]) (1 - 1) terms startIdx true hfs' (by omega)
              (skipOK_zero rest) (by simp)
            rw [hlen] at this
            rw [this, hdrop]
            simp [splitB, h5, appendHead_append]
          · by_cases h2 : b = 0x2C
            · have hsl : slice fs startIdx pre.length = pre.drop startIdx := by
                simp only [slice, hfs]
                rw [List.drop_append_of_le_length hle, List.take_left']
                simp
              have hstep : splitTermsStep fs (terms, startIdx, false) (pre.length, b)
                  = (terms ++ [pre.drop startIdx], pre.length + 1, false) := by
                simp [splitTermsStep, h2, hsl]
              rw [hstep]
              have := ih (pre ++ [b]) (1 - 1) (terms ++ [pre.drop startIdx]) (pre.length + 1)
                false hfs' (by simp) (skipOK_zero rest) (by simp)
              rw [hlen] at this
              rw [this]
              have hd : (pre ++ [b]).drop (pre.length + 1) = [] := by simp
              rw [hd, appendHead_nil (splitB_ne_nil _ _)]
              simp [splitB, h2, appendHead]
            · have hstep : splitTermsStep fs (terms, startIdx, false) (pre.length, b)
                  = (terms, startIdx, false) := by
                simp [splitTermsStep, h5, h2]
              rw [hstep]
              have := ih (pre ++ [b]) (1 - 1) terms startIdx false hfs' (by omega)
                (skipOK_zero rest) (by simp)
              rw [hlen] at this
              rw [this, hdrop]
              simp [splitB, h5, h2, appendHead_append]
        · have hc := decodeRune_high rest (show 0x80 ≤ b by omega)
          have hstep : splitTermsStep fs (terms, startIdx, false)
              (pre.length, (decodeRune (b :: rest)).1) = (terms, startIdx, false) := by
            have h5 : ¬ (decodeRune (b :: rest)).1 = 0x5C := by omega
            have h2 : ¬ (decodeRune (b :: rest)).1 = 0x2C := by omega
            simp [splitTermsStep, h5, h2]
          rw [hstep]
          have := ih (pre ++ [b]) _ terms startIdx false hfs' (by omega) hk (fun _ => rfl)
          rw [hlen] at this
          rw [this, hdrop]
          have h1 : ¬ b = 0x2C := by omega
          have h2 : decide (b = 0x5C) = false := by simp; omega
          simp only [splitB, h1, h2, if_false, appendHead_append]

theorem splitTerms_eq (fs : GoString) :
    splitTerms fs = if fs = [] then [] else splitB false fs := by
  by_cases h : fs = []
  · simp [splitTerms, h]
  · have hl : ¬ fs.length = 0 := by simpa using h
    simp only [splitTerms, hl, if_false, h, range]
    have := splitTerms_loop fs fs [] 0 [] 0 false (by simp) (by simp) (skipOK_zero fs) (by simp)
    simp only [List.length_nil, List.nil_append, List.drop_nil] at this
    rw [this, appendHead_nil (splitB_ne_nil _ _)]

/-! ## `splitTerm`, byte by byte -/

theorem notEqualOp_eq : notEqualOp = [0x21, 0x3D] := rfl
theorem equalOp_eq : equalOp = [0x3D] := rfl
theorem doubleEqualOp_eq : doubleEqualOp = [0x3D, 0x3D] := rfl

theorem splitTermOps_at (pre : GoString) (b : Nat) (rest : GoString) :
    splitTermOps (pre ++ b :: rest) pre.length termOperators =
      if b = 0x21 ∧ rest.head? = some 0x3D then
        some (.found pre notEqualOp (rest.drop 1))
      else if b = 0x3D then
        match rest with
        | [] => some .panic
        | b1 :: rest1 =>
          if b1 = 0x3D then some (.found pre doubleEqualOp rest1)
          else some (.found pre equalOp rest)
      else none := by
  have hd : (pre ++ b :: rest).drop pre.length = b :: rest := by simp
  have ht : (pre ++ b :: rest).take pre.length = pre := by simp
  have hd1 : (pre ++ b :: rest).drop (pre.length + 1) = rest := by
    rw [← List.drop_drop, hd]; rfl
  have hd2 : (pre ++ b :: rest).drop (pre.length + 2) = rest.drop 1 := by
    rw [← List.drop_drop, hd]; rfl
  have hg : (pre ++ b :: rest).get? (pre.length + 1) = rest.head? := by
    rw [List.get?_eq_getElem?, List.getElem?_append_right (by omega)]
    cases rest <;> simp
  have hne : (notEqualOp = equalOp) = False := by simp [notEqualOp_eq, equalOp_eq]
  have hde : (doubleEqualOp = equalOp) = False := by simp [doubleEqualOp_eq, equalOp_eq]
  simp only [termOperators, splitTermOps, hd, ht, hg, hne, hde, if_false, if_true]
  simp only [notEqualOp_eq, equalOp_eq, doubleEqualOp_eq, List.length_cons, List.length_nil,
    hd1, hd2]
  cases rest with
  | nil =>
    by_cases h1 : b = 0x21
    · subst h1; simp [hasPrefix]
    · by_cases h2 : b = 0x3D
      · subst h2; simp [hasPrefix]
      · simp [hasPrefix, h1, h2]
  | cons b1 rest1 =>
    by_cases h1 : b = 0x21
    · subst h1
      by_cases h3 : b1 = 0x3D
      · subst h3; simp [hasPrefix]
      · simp [hasPrefix, h3]
    · by_cases h2 : b = 0x3D
      · subst h2
        by_cases h3 : b1 = 0x3D
        · subst h3; simp [hasPrefix]
        · simp [hasPrefix, h3]
      · simp [hasPrefix, h1, h2]

theorem splitTermLoop_eq : ∀ (rest pre : GoString) (skip : Nat), SkipOK skip rest →
    splitTermLoop (pre ++ rest) (rangeFrom pre.length skip rest) = splitTermB pre rest := by
  intro rest
  induction rest with
  | nil => intro pre skip _; simp [rangeFrom, splitTermLoop, splitTermB]
  | cons b rest ih =>
    intro pre skip hskip
    have hfs : pre ++ b :: rest = (pre ++ [b]) ++ rest := by simp
    have hlen : (pre ++ [b]).length = pre.length + 1 := by simp
    cases skip with
    | succ k =>
      obtain ⟨hb, hk⟩ := skipOK_succ hskip
      simp only [rangeFrom]
      have := ih (pre ++ [b]) k hk
      rw [hlen, ← hfs] at this
      rw [this]
      have h1 : ¬ b = 0x21 := by omega
      have h2 : ¬ b = 0x3D := by omega
      simp [splitTermB, h1, h2]
    | zero =>
      simp only [rangeFrom, splitTermLoop, splitTermOps_at]
      have := ih (pre ++ [b]) _ (decodeRune_skipOK b rest)
      rw [hlen, ← hfs] at this
      rw [this]
      simp only [splitTermB]
      split_ifs with h1 h2
      · rfl
      · cases rest with
        | nil => rfl
        | cons b1 rest1 => simp only []; split_ifs <;> rfl
      · rfl

theorem splitTerm_eq (term : GoString) : splitTerm term = splitTermB [] term := by
  have := splitTermLoop_eq term [] 0 (skipOK_zero term)
  simpa [splitTerm, range] using this

/-! ## Escaping and unescaping -/

theorem escapeValue_append (a b : GoString) :
    escapeValue (a ++ b) = escapeValue a ++ escapeValue b := by
  simp [escapeValue]

theorem escapeValue_cons (b : Nat) (s : GoString) :
    escapeValue (b :: s) =
      (if b = 0x5C ∨ b = 0x2C ∨ b = 0x3D then [0x5C, b] else [b]) ++ escapeValue s := by
  simp [escapeValue]

theorem escapeValue_of_not_special : ∀ s : GoString, containsSpecial s = false →
    escapeValue s = s
  | [], _ => rfl
  | b :: s, h => by
    simp only [containsSpecial, List.any_cons, Bool.or_eq_false_iff, decide_eq_false_iff_not]
      at h
    have hb : ¬ (b = 0x5C ∨ b = 0x2C ∨ b = 0x3D) := by tauto
    rw [escapeValue_cons, if_neg hb, escapeValue_of_not_special s h.2]
    rfl

theorem containsSpecial_of_high {s : GoString} (h : ∀ b ∈ s, 0x80 ≤ b) :
    containsSpecial s = false := by
  simp only [containsSpecial, List.any_eq_false, Bool.or_eq_true, decide_eq_true_eq, not_or]
  intro b hb
  have := h b hb
  omega

theorem containsSpecial_escapeValue : ∀ s : GoString,
    containsSpecial (escapeValue s) = containsSpecial s
  | [] => rfl
  | b :: s => by
    have ih := containsSpecial_escapeValue s
    simp only [containsSpecial] at ih
    rw [escapeValue_cons]
    simp only [containsSpecial, List.any_append, List.any_cons, ih]
    by_cases hb : b = 0x5C ∨ b = 0x2C ∨ b = 0x3D
    · rcases hb with h | h | h <;> simp [h]
    · simp only [if_neg hb, List.any_cons, List.any_nil, Bool.or_false]

theorem runes_escapeValue_utf8Chars (cs : List Char) (rest : GoString) :
    runes (escapeValue (utf8Chars cs) ++ rest) = escapeRunes (cs.map Char.toNat) ++ runes rest := by
  induction cs with
  | nil => simp [utf8Chars, escapeValue, escapeRunes]
  | cons c cs ih =>
    have hu : utf8Chars (c :: cs) = encodeRune c.toNat ++ utf8Chars cs := by
      simp [utf8Chars]
    have he : escapeRunes ((c :: cs).map Char.toNat) =
        (if c.toNat = 0x5C ∨ c.toNat = 0x2C ∨ c.toNat = 0x3D then [0x5C, c.toNat]
          else [c.toNat]) ++ escapeRunes (cs.map Char.toNat) := by
      simp [escapeRunes]
    rw [hu, escapeValue_append, List.append_assoc, he]
    by_cases hc : c.toNat < 0x80
    · rw [encodeRune_ascii hc, escapeValue_cons]
      have hn : escapeValue [] = [] := rfl
      by_cases hs : c.toNat = 0x5C ∨ c.toNat = 0x2C ∨ c.toNat = 0x3D
      · simp only [if_pos hs, hn, List.append_nil, List.cons_append, List.nil_append]
        rw [runes_ascii _ (by omega), runes_ascii _ hc, ih]
      · simp only [if_neg hs, hn, List.append_nil, List.cons_append, List.nil_append]
        rw [runes_ascii _ hc, ih]
    · have hh := encodeRune_high (show 0x80 ≤ c.toNat by omega)
      rw [escapeValue_of_not_special _ (containsSpecial_of_high hh),
        runes_encodeRune _ (char_valid c), ih]
      have hs : ¬ (c.toNat = 0x5C ∨ c.toNat = 0x2C ∨ c.toNat = 0x3D) := by omega
      simp [if_neg hs]

theorem unescapeLoop_escapeRunes (cs : List Char) (buf : GoString) :
    unescapeLoop (escapeRunes (cs.map Char.toNat)) false buf = .ok (buf ++ utf8Chars cs) := by
  induction cs generalizing buf with
  | nil => simp [escapeRunes, unescapeLoop, utf8Chars]
  | cons c cs ih =>
    have hu : utf8Chars (c :: cs) = encodeRune c.toNat ++ utf8Chars cs := by
      simp [utf8Chars]
    have he : escapeRunes ((c :: cs).map Char.toNat) =
        (if c.toNat = 0x5C ∨ c.toNat = 0x2C ∨ c.toNat = 0x3D then [0x5C, c.toNat]
          else [c.toNat]) ++ escapeRunes (cs.map Char.toNat) := by
      simp [escapeRunes]
    rw [he, hu]
    by_cases hs : c.toNat = 0x5C ∨ c.toNat = 0x2C ∨ c.toNat = 0x3D
    · simp only [if_pos hs, List.cons_append, List.nil_append, unescapeLoop, if_true,
        Bool.false_eq_true, if_false, List.append_eq]
      rw [ih, List.append_assoc]
    · have h5 : ¬ c.toNat = 0x5C := by tauto
      have h23 : ¬ (c.toNat = 0x2C ∨ c.toNat = 0x3D) := by tauto
      simp only [if_neg hs, List.cons_append, List.nil_append, unescapeLoop, h5, h23,
        Bool.false_eq_true, if_false, List.append_eq]
      rw [ih, List.append_assoc]

/-- Unescaping the escaped form of a well-formed value gives the value back. -/
theorem unescapeValue_escapeValue (cs : List Char) :
    unescapeValue (escapeValue (utf8Chars cs)) = .ok (utf8Chars cs) := by
  simp only [unescapeValue]
  by_cases h : containsSpecial (escapeValue (utf8Chars cs)) = true
  · simp only [h, Bool.not_true, Bool.false_eq_true, if_false]
    have := runes_escapeValue_utf8Chars cs []
    simp only [List.append_nil, runes_nil] at this
    rw [this, unescapeLoop_escapeRunes]
    simp
  · have h' : containsSpecial (escapeValue (utf8Chars cs)) = false := by simpa using h
    simp only [h', Bool.not_false, if_true]
    rw [containsSpecial_escapeValue] at h'
    rw [escapeValue_of_not_special _ h']

/-! ## Texts of a single term -/

theorem splitB_append : ∀ (a rest : GoString) (st : Bool), noSplit st a = true →
    splitB st (a ++ rest) = appendHead a (splitB (scanState st a) rest)
  | [], rest, st, _ => by
    simp [scanState, appendHead_nil (splitB_ne_nil _ _)]
  | b :: a, rest, true, h => by
    simp only [noSplit] at h
    simp only [List.cons_append, splitB, scanState, List.append_eq,
      splitB_append a rest false h, appendHead_append, List.singleton_append,
      List.cons_append, List.nil_append]
  | b :: a, rest, false, h => by
    simp only [noSplit, Bool.and_eq_true, Bool.not_eq_true', decide_eq_false_iff_not] at h
    simp only [List.cons_append, splitB, scanState, if_neg h.1, List.append_eq,
      splitB_append a rest _ h.2, appendHead_append, List.singleton_append,
      List.cons_append, List.nil_append]

theorem scanState_append : ∀ (a b : GoString) (st : Bool),
    scanState st (a ++ b) = scanState (scanState st a) b
  | [], _, _ => by simp [scanState]
  | _ :: a, b, true => by simp [scanState, scanState_append a b]
  | _ :: a, b, false => by simp [scanState, scanState_append a b]

theorem noSplit_append : ∀ (a b : GoString) (st : Bool),
    noSplit st (a ++ b) = (noSplit st a && noSplit (scanState st a) b)
  | [], _, _ => by simp [noSplit, scanState]
  | _ :: a, b, true => by simp [noSplit, scanState, noSplit_append a b]
  | _ :: a, b, false => by simp [noSplit, scanState, noSplit_append a b, Bool.and_assoc]

theorem noSplit_of_no_comma : ∀ (a : GoString) (st : Bool), 0x2C ∉ a → noSplit st a = true
  | [], st, _ => by cases st <;> rfl
  | b :: a, true, h => by
    simp only [noSplit]
    exact noSplit_of_no_comma a false (fun hm => h (List.mem_cons_of_mem _ hm))
  | b :: a, false, h => by
    simp only [noSplit, Bool.and_eq_true, Bool.not_eq_true', decide_eq_false_iff_not]
    refine ⟨fun hb => h (by simp [hb]), ?_⟩
    exact noSplit_of_no_comma a _ (fun hm => h (List.mem_cons_of_mem _ hm))

theorem scan_escapeValue : ∀ v : GoString,
    noSplit false (escapeValue v) = true ∧ scanState false (escapeValue v) = false
  | [] => ⟨rfl, rfl⟩
  | b :: v => by
    obtain ⟨h1, h2⟩ := scan_escapeValue v
    rw [escapeValue_cons]
    by_cases hb : b = 0x5C ∨ b = 0x2C ∨ b = 0x3D
    · rw [if_pos hb]
      simp [noSplit, scanState, h1, h2]
    · have h5 : ¬ b = 0x5C := by tauto
      have h2c : ¬ b = 0x2C := by tauto
      rw [if_neg hb]
      simp [noSplit, scanState, h1, h2, h5, h2c]

theorem scanState_two (st : Bool) (x y : Nat) (hx : x ≠ 0x5C) (hy : y ≠ 0x5C) :
    scanState st [x, y] = false := by
  cases st <;> simp [scanState, hx, hy]

theorem splitTerms_single {x : GoString} (hx : x ≠ []) (h : noSplit false x = true) :
    splitTerms x = [x] := by
  rw [splitTerms_eq, if_neg hx]
  have := splitB_append x [] false h
  simpa [splitB, appendHead] using this

theorem splitTermB_notEqual : ∀ (f pre e : GoString), 0x3D ∉ f →
    splitTermB pre (f ++ 0x21 :: 0x3D :: e) = .found (pre ++ f) notEqualOp e
  | [], pre, e, _ => by simp [splitTermB]
  | b :: f, pre, e, h => by
    have hb : ¬ b = 0x3D := fun hb => h (by simp [hb])
    have hf : 0x3D ∉ f := fun hm => h (List.mem_cons_of_mem _ hm)
    have hh : ¬ (b = 0x21 ∧ (f ++ 0x21 :: 0x3D :: e).head? = some 0x3D) := by
      rintro ⟨_, h2⟩
      cases f with
      | nil => simp at h2
      | cons c f => simp at h2; exact hf (by simp [h2])
    simp only [List.cons_append, splitTermB, List.append_eq, hh, hb, if_false]
    rw [splitTermB_notEqual f (pre ++ [b]) e hf]
    simp

theorem sortStrings_singleton (x : GoString) : sortStrings [x] = [x] := rfl

/-! ## Ordering and sorting of strings -/

theorem strLess_asymm : ∀ a b : GoString, strLess a b = true → strLess b a = false
  | [], [], h => by simp [strLess] at h
  | [], _ :: _, _ => by simp [strLess]
  | _ :: _, [], h => by simp [strLess] at h
  | a :: s, b :: t, h => by
    simp only [strLess] at h ⊢
    split_ifs at h ⊢
    all_goals first | omega | rfl | skip
    exact strLess_asymm s t h

theorem strLess_connex : ∀ a b : GoString, strLess a b = false → strLess b a = false → a = b
  | [], [], _, _ => rfl
  | [], _ :: _, h, _ => by simp [strLess] at h
  | _ :: _, [], _, h => by simp [strLess] at h
  | a :: s, b :: t, h1, h2 => by
    simp only [strLess] at h1 h2
    split_ifs at h1 h2 with h3 h4
    have hab : a = b := by omega
    rw [hab, strLess_connex s t h1 h2]

theorem strLess_cotrans : ∀ a b c : GoString, strLess a c = true →
    strLess a b = true ∨ strLess b c = true
  | [], [], _, h => Or.inr h
  | [], _ :: _, _, _ => Or.inl (by simp [strLess])
  | _ :: _, _, [], h => by simp [strLess] at h
  | _ :: _, [], _ :: _, _ => Or.inr (by simp [strLess])
  | a :: s, b :: t, c :: u, h => by
    simp only [strLess] at h ⊢
    by_cases hab : a < b
    · simp [hab]
    · by_cases hbc : b < c
      · simp [hbc]
      · by_cases hba : b < a
        · split_ifs at h <;> omega
        · by_cases hcb : c < b
          · split_ifs at h <;> omega
          · have e1 : a = b := by omega
            have e2 : b = c := by omega
            subst e1 e2
            simp only [lt_self_iff_false, if_false] at h ⊢
            exact strLess_cotrans s t u h

theorem strLe_total : IsTotal GoString (fun a b => strLe a b = true) where
  total a b := by
    simp only [strLe, Bool.not_eq_true', ← Bool.not_eq_true]
    by_cases h : strLess b a = true
    · exact Or.inr (by simpa using strLess_asymm b a h)
    · exact Or.inl h

theorem strLe_trans : IsTrans GoString (fun a b => strLe a b = true) where
  trans a b c := by
    simp only [strLe, Bool.not_eq_true']
    intro h1 h2
    by_contra h
    rcases strLess_cotrans c b a (by simpa using h) with h3 | h3
    · rw [h3] at h2; cases h2
    · rw [h3] at h1; cases h1

theorem strLe_antisymm : IsAntisymm GoString (fun a b => strLe a b = true) where
  antisymm a b := by
    simp only [strLe, Bool.not_eq_true']
    intro h1 h2
    exact strLess_connex a b h2 h1

theorem sortStrings_sorted (l : List GoString) :
    (sortStrings l).Sorted (fun a b => strLe a b = true) :=
  haveI := strLe_total
  haveI := strLe_trans
  List.sorted_insertionSort _ l

theorem sortStrings_perm (l : List GoString) : (sortStrings l).Perm l :=
  List.perm_insertionSort _ l

theorem sortStrings_eq_of_perm {l1 l2 : List GoString} (h : l1.Perm l2) :
    sortStrings l1 = sortStrings l2 :=
  haveI := strLe_antisymm
  List.eq_of_perm_of_sorted
    (((sortStrings_perm l1).trans h).trans (sortStrings_perm l2).symm)
    (sortStrings_sorted l1) (sortStrings_sorted l2)

theorem sortStrings_of_sorted {l : List GoString}
    (h : l.Sorted (fun a b => strLe a b = true)) : sortStrings l = l :=
  List.Sorted.insertionSort_eq h

/-! ## The parser does not depend on the order of the terms -/

theorem parseItems_ok_iff (sel1 sel2 : GoString) (parts : List GoString) :
    ∀ items r, parseItems sel1 parts items = .ok r ↔ parseItems sel2 parts items = .ok r := by
  induction parts with
  | nil => intro items r; simp [parseItems]
  | cons p parts ih =>
    intro items r
    simp only [parseItems]
    split_ifs with hp
    · exact ih items r
    · generalize splitTerm p = sp
      cases sp with
      | panic => simp
      | notFound => simp
      | found lhs op rhs =>
        simp only
        generalize unescapeValue rhs = u
        cases u with
        | error e => simp
        | ok v =>
          simp only
          split_ifs
          · exact ih _ r
          · exact ih _ r
          · exact ih _ r
          · simp

theorem parseSelector_ok_iff (t1 t2 : GoString) (fn : TransformFunc)
    (h : (splitTerms t1).Perm (splitTerms t2)) (S : Selector) :
    parseSelector t1 fn = .ok S ↔ parseSelector t2 fn = .ok S := by
  have hs := sortStrings_eq_of_perm h
  have hi := parseItems_ok_iff t1 t2 (sortStrings (splitTerms t2)) []
  simp only [parseSelector, hs]
  cases h1 : parseItems t1 (sortStrings (splitTerms t2)) [] with
  | ok r =>
    rw [(hi r).1 h1]
  | err e =>
    cases h2 : parseItems t2 (sortStrings (splitTerms t2)) [] with
    | ok r => rw [(hi r).2 h2] at h1; cases h1
    | err e2 => simp
    | panic => simp
  | panic =>
    cases h2 : parseItems t2 (sortStrings (splitTerms t2)) [] with
    | ok r => rw [(hi r).2 h2] at h1; cases h1
    | err e2 => simp
    | panic => simp

/-! ## The terms of a text -/

theorem join_cons_of_ne_nil (sep a : GoString) {l : List GoString} (h : l ≠ []) :
    join sep (a :: l) = a ++ sep ++ join sep l := by
  cases l with
  | nil => exact absurd rfl h
  | cons b rest => rfl

theorem join_appendHead (sep a : GoString) {l : List GoString} (h : l ≠ []) :
    join sep (appendHead a l) = a ++ join sep l := by
  cases l with
  | nil => exact absurd rfl h
  | cons x xs =>
    cases xs with
    | nil => simp [appendHead, join]
    | cons y ys => simp [appendHead, join]

/-- Joining the terms of a text with commas gives the text back. -/
theorem join_splitB : ∀ (s : GoString) (st : Bool), join [0x2C] (splitB st s) = s
  | [], st => by cases st <;> rfl
  | b :: rest, true => by
    simp only [splitB]
    rw [join_appendHead _ _ (splitB_ne_nil _ _), join_splitB rest false]
    rfl
  | b :: rest, false => by
    simp only [splitB]
    split_ifs with h
    · rw [join_cons_of_ne_nil _ _ (splitB_ne_nil _ _), join_splitB rest false, h]
      rfl
    · rw [join_appendHead _ _ (splitB_ne_nil _ _), join_splitB rest _]
      rfl

theorem infix_join_of_mem (sep : GoString) : ∀ (l : List GoString) (p : GoString),
    p ∈ l → p <:+: join sep l
  | [a], p, h => by
    simp only [List.mem_singleton] at h
    subst h
    exact List.infix_refl _
  | a :: b :: rest, p, h => by
    simp only [join]
    rcases List.mem_cons.1 h with h | h
    · subst h
      rw [List.append_assoc]
      exact (List.prefix_append _ _).isInfix
    · exact (infix_join_of_mem sep (b :: rest) p h).trans (List.suffix_append _ _).isInfix

/-- No term of a text holds a comma at which it would be cut again. -/
theorem noSplit_of_mem_splitB : ∀ (s : GoString) (st : Bool),
    (∀ x, (splitB st s).head? = some x → noSplit st x = true) ∧
    (∀ p ∈ (splitB st s).tail, noSplit false p = true)
  | [], st => by cases st <;> simp [splitB, noSplit]
  | b :: rest, true => by
    obtain ⟨h1, h2⟩ := noSplit_of_mem_splitB rest false
    simp only [splitB]
    cases hl : splitB false rest with
    | nil => exact absurd hl (splitB_ne_nil _ _)
    | cons x xs =>
      rw [hl] at h1 h2
      simp only [appendHead, List.head?_cons, Option.some.injEq, List.tail_cons]
      refine ⟨?_, by simpa using h2⟩
      rintro _ rfl
      simpa [noSplit] using h1 x rfl
  | b :: rest, false => by
    simp only [splitB]
    split_ifs with hb
    · obtain ⟨h1, h2⟩ := noSplit_of_mem_splitB rest false
      refine ⟨by simp [noSplit], ?_⟩
      intro p hp
      simp only [List.tail_cons] at hp
      cases hl : splitB false rest with
      | nil => exact absurd hl (splitB_ne_nil _ _)
      | cons x xs =>
        rw [hl] at h1 h2 hp
        rcases List.mem_cons.1 hp with h | h
        · subst h; exact h1 _ rfl
        · exact h2 p (by simpa using h)
    · obtain ⟨h1, h2⟩ := noSplit_of_mem_splitB rest (decide (b = 0x5C))
      cases hl : splitB (decide (b = 0x5C)) rest with
      | nil => exact absurd hl (splitB_ne_nil _ _)
      | cons x xs =>
        rw [hl] at h1 h2
        simp only [appendHead, List.head?_cons, Option.some.injEq, List.tail_cons]
        refine ⟨?_, by simpa using h2⟩
        rintro _ rfl
        simpa [noSplit, hb] using h1 x rfl

theorem noSplit_of_mem_splitTerms {t p : GoString} (h : p ∈ splitTerms t) :
    noSplit false p = true := by
  rw [splitTerms_eq] at h
  split_ifs at h with ht
  · simp at h
  · obtain ⟨h1, h2⟩ := noSplit_of_mem_splitB t false
    cases hl : splitB false t with
    | nil => exact absurd hl (splitB_ne_nil _ _)
    | cons x xs =>
      rw [hl] at h h1 h2
      rcases List.mem_cons.1 h with h | h
      · subst h; exact h1 _ rfl
      · exact h2 p (by simpa using h)

theorem infix_of_mem_splitTerms {t p : GoString} (h : p ∈ splitTerms t) : p <:+: t := by
  rw [splitTerms_eq] at h
  split_ifs at h with ht
  · simp at h
  · have := infix_join_of_mem [0x2C] _ p h
    rwa [join_splitB] at this

theorem delimited_of_mem_join (sep : GoString) : ∀ (l : List GoString) (p : GoString),
    p ∈ l → ∃ a b, join sep l = a ++ p ++ b ∧ (a = [] ∨ ∃ a', a = a' ++ sep) ∧
      (b = [] ∨ ∃ b', b = sep ++ b')
  | [a], p, h => by
    simp only [List.mem_singleton] at h
    subst h
    exact ⟨[], [], by simp [join], Or.inl rfl, Or.inl rfl⟩
  | a :: b :: rest, p, h => by
    simp only [join]
    rcases List.mem_cons.1 h with h | h
    · subst h
      exact ⟨[], sep ++ join sep (b :: rest), by simp, Or.inl rfl, Or.inr ⟨_, rfl⟩⟩
    · obtain ⟨A, B, hj, hA, hB⟩ := delimited_of_mem_join sep (b :: rest) p h
      refine ⟨a ++ sep ++ A, B, by simp [hj], Or.inr ?_, hB⟩
      rcases hA with hA | ⟨A', hA⟩
      · exact ⟨a, by simp [hA]⟩
      · exact ⟨a ++ sep ++ A', by simp [hA]⟩

/-! ## Well-formed strings -/

theorem utf8Chars_cons (c : Char) (cs : List Char) :
    utf8Chars (c :: cs) = encodeRune c.toNat ++ utf8Chars cs := by
  simp [utf8Chars]

theorem valid_nil : Valid [] := ⟨[], rfl⟩

theorem valid_utf8 (s : String) : Valid (utf8 s) := ⟨s.toList, rfl⟩

theorem valid_encode_append (c : Char) {s : GoString} (h : Valid s) :
    Valid (encodeRune c.toNat ++ s) := by
  obtain ⟨cs, rfl⟩ := h
  exact ⟨c :: cs, (utf8Chars_cons c cs).symm⟩

/-- A well-formed string cut at an ASCII byte gives two well-formed strings. -/
theorem valid_split {x : Nat} (hx : x < 0x80) : ∀ (cs : List Char) (a b : GoString),
    utf8Chars cs = a ++ x :: b → Valid a ∧ Valid b
  | [], a, b, h => by simp [utf8Chars] at h
  | c :: cs, a, b, h => by
    rw [utf8Chars_cons] at h
    rcases List.append_eq_append_iff.1 h with ⟨a', ha, hu⟩ | ⟨c', he, hxb⟩
    · obtain ⟨h1, h2⟩ := valid_split hx cs a' b hu
      exact ⟨ha ▸ valid_encode_append c h1, h2⟩
    · cases c' with
      | nil =>
        simp only [List.append_nil, List.nil_append] at he hxb
        obtain ⟨h1, h2⟩ := valid_split hx cs [] b (by simpa using hxb.symm)
        refine ⟨?_, h2⟩
        rw [← he]
        simpa using valid_encode_append c valid_nil
      | cons y c'' =>
        simp only [List.cons_append, List.cons.injEq] at hxb
        have hmem : x ∈ encodeRune c.toNat := by
          rw [he, hxb.1]; simp
        by_cases hc : c.toNat < 0x80
        · rw [encodeRune_ascii hc] at he
          have ha : a = [] := by
            cases a with
            | nil => rfl
            | cons z a => simp at he
          subst ha
          simp only [List.nil_append, List.cons.injEq] at he
          obtain ⟨_, hc''⟩ := he
          subst hc''
          simp only [List.nil_append] at hxb
          exact ⟨valid_nil, ⟨cs, hxb.2⟩⟩
        · have := encodeRune_high (show 0x80 ≤ c.toNat by omega) x hmem
          omega

theorem valid_of_mem_splitTerms {t p : GoString} (ht : Valid t) (h : p ∈ splitTerms t) :
    Valid p := by
  rw [splitTerms_eq] at h
  split_ifs at h with hne
  · simp at h
  · obtain ⟨a, b, hj, ha, hb⟩ := delimited_of_mem_join [0x2C] _ p h
    rw [join_splitB] at hj
    have hpb : Valid (p ++ b) := by
      rcases ha with ha | ⟨a', ha⟩
      · subst ha; simpa [hj] using ht
      · obtain ⟨cs, hcs⟩ := ht
        subst ha
        exact (valid_split (show 0x2C < 0x80 by decide) cs a' (p ++ b)
          (by simp [← hcs, hj])).2
    rcases hb with hb | ⟨b', hb⟩
    · subst hb; simpa using hpb
    · obtain ⟨cs, hcs⟩ := hpb
      subst hb
      exact (valid_split (show 0x2C < 0x80 by decide) cs p b' (by simp [← hcs])).1
/-! ## The parts of a term -/

theorem splitTermB_found : ∀ (s pre lhs op rhs : GoString),
    splitTermB pre s = .found lhs op rhs →
    ∃ mid, lhs = pre ++ mid ∧ 0x3D ∉ mid ∧
      ((op = notEqualOp ∧ s = mid ++ 0x21 :: 0x3D :: rhs) ∨
       (op = doubleEqualOp ∧ s = mid ++ 0x3D :: 0x3D :: rhs) ∨
       (op = equalOp ∧ s = mid ++ 0x3D :: rhs ∧ rhs ≠ [] ∧ rhs.head? ≠ some 0x3D))
  | [], pre, lhs, op, rhs, h => by simp [splitTermB] at h
  | b :: rest, pre, lhs, op, rhs, h => by
    simp only [splitTermB] at h
    split_ifs at h with h1 h2
    · simp only [SplitTermResult.found.injEq] at h
      obtain ⟨rfl, rfl, rfl⟩ := h
      refine ⟨[], by simp, by simp, Or.inl ⟨rfl, ?_⟩⟩
      obtain ⟨hb, hr⟩ := h1
      subst hb
      cases rest with
      | nil => simp at hr
      | cons c rest => simp at hr; subst hr; simp
    · subst h2
      cases rest with
      | nil => simp at h
      | cons b1 rest1 =>
        simp only at h
        split_ifs at h with h3
        · simp only [SplitTermResult.found.injEq] at h
          obtain ⟨rfl, rfl, rfl⟩ := h
          exact ⟨[], by simp, by simp, Or.inr (Or.inl ⟨rfl, by simp [h3]⟩)⟩
        · simp only [SplitTermResult.found.injEq] at h
          obtain ⟨rfl, rfl, rfl⟩ := h
          exact ⟨[], by simp, by simp, Or.inr (Or.inr ⟨rfl, by simp, by simp, by simpa using h3⟩)⟩
    · obtain ⟨mid, hl, hm, hs⟩ := splitTermB_found rest (pre ++ [b]) lhs op rhs h
      refine ⟨b :: mid, by simp [hl], ?_, ?_⟩
      · simp only [List.mem_cons, not_or]
        exact ⟨fun hb => h2 hb.symm, hm⟩
      · rcases hs with ⟨ho, hs⟩ | ⟨ho, hs⟩ | ⟨ho, hs, hr⟩
        · exact Or.inl ⟨ho, by simp [hs]⟩
        · exact Or.inr (Or.inl ⟨ho, by simp [hs]⟩)
        · exact Or.inr (Or.inr ⟨ho, by simp [hs], hr⟩)

/-! ## Escaping what was unescaped -/

theorem unescapeLoop_inv : ∀ (cs : List Char) (isSlash : Bool) (buf v : GoString),
    unescapeLoop (cs.map Char.toNat) isSlash buf = .ok v →
    ∃ w, v = buf ++ w ∧ escapeValue w = (if isSlash then [0x5C] else []) ++ utf8Chars cs
  | [], isSlash, buf, v, h => by
    cases isSlash with
    | true => simp [unescapeLoop] at h
    | false =>
      simp only [List.map_nil, unescapeLoop, Bool.false_eq_true, if_false,
        Except.ok.injEq] at h
      exact ⟨[], by simp [h], rfl⟩
  | c :: cs, true, buf, v, h => by
    simp only [List.map_cons, unescapeLoop, if_true] at h
    split_ifs at h with hs
    obtain ⟨w, hv, hw⟩ := unescapeLoop_inv cs false _ v h
    have hc : c.toNat < 0x80 := by omega
    rw [encodeRune_ascii hc] at hv
    refine ⟨c.toNat :: w, by simp [hv], ?_⟩
    rw [escapeValue_cons, if_pos hs, hw, utf8Chars_cons, encodeRune_ascii hc]
    simp
  | c :: cs, false, buf, v, h => by
    simp only [List.map_cons, unescapeLoop, Bool.false_eq_true, if_false] at h
    split_ifs at h with h5 h23
    · obtain ⟨w, hv, hw⟩ := unescapeLoop_inv cs true _ v h
      refine ⟨w, hv, ?_⟩
      rw [hw, utf8Chars_cons, encodeRune_ascii (by omega), h5]
      simp
    · obtain ⟨w, hv, hw⟩ := unescapeLoop_inv cs false _ v h
      refine ⟨encodeRune c.toNat ++ w, by simp [hv], ?_⟩
      rw [escapeValue_append, hw, utf8Chars_cons]
      have hns : containsSpecial (encodeRune c.toNat) = false := by
        by_cases hc : c.toNat < 0x80
        · rw [encodeRune_ascii hc]
          simp only [containsSpecial, List.any_cons, List.any_nil, Bool.or_false,
            Bool.or_eq_false_iff, decide_eq_false_iff_not]
          tauto
        · exact containsSpecial_of_high (encodeRune_high (by omega))
      rw [escapeValue_of_not_special _ hns]
      simp

/-- Escaping the result of unescaping a well-formed string gives the string back. -/
theorem escapeValue_unescapeValue {rhs v : GoString} (hv : Valid rhs)
    (h : unescapeValue rhs = .ok v) : escapeValue v = rhs := by
  simp only [unescapeValue] at h
  by_cases hc : containsSpecial rhs = true
  · simp only [hc, Bool.not_true, Bool.false_eq_true, if_false] at h
    obtain ⟨cs, rfl⟩ := hv
    have hr := runes_utf8Chars cs []
    simp only [List.append_nil, runes_nil] at hr
    rw [hr] at h
    obtain ⟨w, hw, he⟩ := unescapeLoop_inv cs false [] v h
    simp only [List.nil_append] at hw
    subst hw
    simpa using he
  · have hc' : containsSpecial rhs = false := by simpa using hc
    simp only [hc', Bool.not_false, if_true, Except.ok.injEq] at h
    subst h
    exact escapeValue_of_not_special _ hc'
/-! ## The child built for a term and its rendering -/

theorem scanState_one (st : Bool) (x : Nat) (hx : x ≠ 0x5C) : scanState st [x] = false := by
  cases st <;> simp [scanState, hx]

theorem valid_tail {x : Nat} (hx : x < 0x80) {a b : GoString} (h : Valid (a ++ x :: b)) :
    Valid b := by
  obtain ⟨cs, hcs⟩ := h
  exact (valid_split hx cs a b hcs.symm).2

theorem termItem_render {p : GoString} {it : Selector} (hv : Valid p)
    (hd : ¬ [0x3D, 0x3D] <:+: p) (h : termItem p = some it) :
    isTerm it = true ∧ scanState false p = false ∧ p ≠ [] ∧
    ((collapsed it = true ∧ p = [0x21, 0x3D]) ∨ (collapsed it = false ∧ it.String = p)) := by
  simp only [termItem, splitTerm_eq] at h
  cases hsp : splitTermB [] p with
  | notFound => simp [hsp] at h
  | panic => simp [hsp] at h
  | found lhs op rhs =>
    simp only [hsp] at h
    obtain ⟨mid, hl, _, hs⟩ := splitTermB_found p [] lhs op rhs hsp
    simp only [List.nil_append] at hl
    subst hl
    cases hu : unescapeValue rhs with
    | error e => simp [hu] at h
    | ok v =>
      simp only [hu] at h
      rcases hs with ⟨ho, hp⟩ | ⟨ho, hp⟩ | ⟨ho, hp, hr, _⟩
      · subst ho
        simp only [if_true, Option.some.injEq] at h
        subst h
        have hvr : Valid rhs := by
          have h1 : Valid (0x3D :: rhs) := valid_tail (show 0x21 < 0x80 by decide) (hp ▸ hv)
          exact valid_tail (show 0x3D < 0x80 by decide) (a := []) h1
        have he := escapeValue_unescapeValue hvr hu
        have hsc : scanState false p = false := by
          have : p = lhs ++ ([0x21, 0x3D] ++ escapeValue v) := by simp [hp, he]
          rw [this, scanState_append, scanState_append,
            scanState_two _ _ _ (by decide) (by decide), (scan_escapeValue v).2]
        refine ⟨rfl, hsc, by simp [hp], ?_⟩
        by_cases hc : lhs.length = 0 ∧ v.length = 0
        · left
          refine ⟨by simp [collapsed, hc], ?_⟩
          have h1 : lhs = [] := List.length_eq_zero.1 hc.1
          have h2 : v = [] := List.length_eq_zero.1 hc.2
          subst h1 h2
          have : rhs = [] := by rw [← he]; rfl
          simp [hp, this]
        · right
          refine ⟨by simpa [collapsed, List.length_eq_zero] using hc, ?_⟩
          have hop : utf8 "!=" = [0x21, 0x3D] := rfl
          simp [Selector.String, hop, he, hp]
      · exfalso
        apply hd
        rw [hp]
        exact ⟨lhs, rhs, by simp⟩
      · subst ho
        have h1 : (equalOp = notEqualOp) = False := by simp [equalOp_eq, notEqualOp_eq]
        have h2 : (equalOp = doubleEqualOp) = False := by simp [equalOp_eq, doubleEqualOp_eq]
        simp only [h1, h2, if_false, if_true, Option.some.injEq] at h
        subst h
        have hvr : Valid rhs := valid_tail (show 0x3D < 0x80 by decide) (hp ▸ hv)
        have he := escapeValue_unescapeValue hvr hu
        have hsc : scanState false p = false := by
          have : p = lhs ++ ([0x3D] ++ escapeValue v) := by simp [hp, he]
          rw [this, scanState_append, scanState_append,
            scanState_one _ _ (by decide), (scan_escapeValue v).2]
        have hvne : ¬ v.length = 0 := by
          intro h0
          have : v = [] := List.length_eq_zero.1 h0
          subst this
          exact hr (by rw [← he]; rfl)
        refine ⟨rfl, hsc, by simp [hp], Or.inr ⟨by simp [collapsed, hvne], ?_⟩⟩
        have hop : utf8 "=" = [0x3D] := rfl
        simp [Selector.String, hop, he, hp]
/-! ## The loop of the parser -/

theorem parseItems_ok (sel : GoString) : ∀ (parts : List GoString) (items r : List Selector),
    parseItems sel parts items = .ok r → ∃ its, termItems parts = some its ∧ r = items ++ its
  | [], items, r, h => by
    simp only [parseItems, Res.ok.injEq] at h
    exact ⟨[], rfl, by simp [h]⟩
  | p :: parts, items, r, h => by
    simp only [parseItems] at h
    simp only [termItems, termItem]
    split_ifs at h ⊢ with hp
    · exact parseItems_ok sel parts items r h
    · generalize splitTerm p = sp at h ⊢
      cases sp with
      | panic => simp at h
      | notFound => simp at h
      | found lhs op rhs =>
        simp only at h ⊢
        generalize unescapeValue rhs = u at h ⊢
        cases u with
        | error e => simp at h
        | ok v =>
          simp only at h ⊢
          split_ifs at h ⊢
          all_goals
            obtain ⟨its, h1, h2⟩ := parseItems_ok sel parts _ r h
            rw [h1]
            exact ⟨_, rfl, by simp [h2]⟩

theorem parseItems_of_termItems (sel : GoString) : ∀ (parts : List GoString)
    (items its : List Selector), termItems parts = some its →
    parseItems sel parts items = .ok (items ++ its)
  | [], items, its, h => by
    simp only [termItems, Option.some.injEq] at h
    simp [parseItems, ← h]
  | p :: parts, items, its, h => by
    simp only [termItems, termItem] at h
    simp only [parseItems]
    split_ifs at h ⊢ with hp
    · exact parseItems_of_termItems sel parts items its h
    · generalize splitTerm p = sp at h ⊢
      cases sp with
      | panic => simp at h
      | notFound => simp at h
      | found lhs op rhs =>
        simp only at h ⊢
        generalize unescapeValue rhs = u at h ⊢
        cases u with
        | error e => simp at h
        | ok v =>
          simp only at h ⊢
          cases ht : termItems parts with
          | none => rw [ht] at h; split_ifs at h
          | some its' =>
            rw [ht] at h
            split_ifs at h ⊢
            all_goals
              simp only [Option.some.injEq] at h
              rw [parseItems_of_termItems sel parts _ its' ht, ← h]
              simp

/-! ## The identity transform on the parsed children -/

theorem transform_term {it : Selector} (h : isTerm it = true) :
    it.Transform (fun field value => .ok (field, value))
      = .ok (if collapsed it = true then Everything else it) := by
  cases it with
  | nothing => simp [isTerm] at h
  | andTerm cs => simp [isTerm] at h
  | hasTerm f v =>
    simp only [Selector.Transform, collapsed, decide_eq_true_eq]
    split_ifs <;> rfl
  | notHasTerm f v =>
    simp only [Selector.Transform, collapsed, decide_eq_true_eq]
    split_ifs <;> rfl

theorem empty_of_isTerm {it : Selector} (h : isTerm it = true) : it.Empty = false := by
  cases it <;> simp [isTerm] at h <;> rfl

theorem transformAll_terms : ∀ (items new : List Selector),
    (∀ it ∈ items, isTerm it = true) →
    Selector.transformAll items (fun field value => .ok (field, value)) new
      = .ok (new ++ items.filter (fun it => !collapsed it))
  | [], new, _ => by simp [Selector.transformAll]
  | it :: items, new, h => by
    have hit := h it (by simp)
    have hrest : ∀ x ∈ items, isTerm x = true := fun x hx => h x (by simp [hx])
    simp only [Selector.transformAll, transform_term hit]
    by_cases hc : collapsed it = true
    · have he : Everything.Empty = true := rfl
      simp only [hc, if_true, he, Bool.not_true, Bool.false_eq_true, if_false]
      rw [transformAll_terms items new hrest]
      simp [List.filter_cons, hc]
    · have he : it.Empty = false := empty_of_isTerm hit
      rw [if_neg hc]
      simp only [he, Bool.not_false, if_true]
      rw [transformAll_terms items _ hrest]
      simp [List.filter_cons, hc]

theorem stringAll_eq_map (cs : List Selector) :
    Selector.stringAll cs = cs.map Selector.String := by
  induction cs with
  | nil => rfl
  | cons c cs ih => simp [Selector.stringAll, ih]

theorem string_eq_join_children (S : Selector) :
    S.String = join (utf8 ",") (S.children.map Selector.String) := by
  cases S with
  | andTerm cs => simp [Selector.String, Selector.children, stringAll_eq_map]
  | nothing => rfl
  | hasTerm f v => rfl
  | notHasTerm f v => rfl

theorem parseSelector_of_items {t : GoString} {items : List Selector}
    (h : parseItems t (sortStrings (splitTerms t)) [] = .ok items)
    (hterm : ∀ it ∈ items, isTerm it = true) :
    ∃ S, ParseSelector t = .ok S ∧ S.children = items.filter (fun it => !collapsed it) := by
  simp only [ParseSelector, parseSelector, h]
  have hand : Res.ofExcept ((Selector.andTerm items).Transform
      (fun field value => .ok (field, value)))
      = .ok (.andTerm (items.filter (fun it => !collapsed it))) := by
    simp [Selector.Transform, transformAll_terms items [] hterm, Res.ofExcept]
  cases items with
  | nil => exact ⟨_, hand, rfl⟩
  | cons it rest =>
    cases rest with
    | cons it2 rest2 => exact ⟨_, hand, rfl⟩
    | nil =>
      have hit := hterm it (by simp)
      simp only [transform_term hit, Res.ofExcept]
      by_cases hc : collapsed it = true
      · exact ⟨_, by simp only [hc, if_true]; rfl, by simp [Everything, Selector.children, hc]⟩
      · refine ⟨it, by simp [hc], ?_⟩
        have : it.children = [it] := by
          cases it <;> simp [isTerm] at hit <;> rfl
        simp [this, hc]
/-! ## Parsing a rendering again -/

theorem splitB_join : ∀ qs : List GoString, qs ≠ [] →
    (∀ q ∈ qs, noSplit false q = true ∧ scanState false q = false) →
    splitB false (join [0x2C] qs) = qs
  | [], h, _ => absurd rfl h
  | [q], _, hq => by
    have := splitB_append q [] false (hq q (by simp)).1
    simpa [join, splitB, appendHead] using this
  | q :: q2 :: rest, _, hq => by
    obtain ⟨h1, h2⟩ := hq q (by simp)
    have ih := splitB_join (q2 :: rest) (by simp) (fun x hx => hq x (by simp [hx]))
    simp only [join, List.append_assoc, List.singleton_append]
    rw [splitB_append q _ false h1, h2]
    simp only [splitB, if_true]
    rw [ih]
    simp [appendHead]

theorem join_ne_nil (sep : GoString) : ∀ qs : List GoString, qs ≠ [] →
    (∀ q ∈ qs, q ≠ []) → join sep qs ≠ []
  | [], h, _ => absurd rfl h
  | [q], _, hq => by simpa [join] using hq q (by simp)
  | q :: q2 :: rest, _, hq => by
    have := hq q (by simp)
    simp [join, this]

theorem splitTerms_join (qs : List GoString)
    (h : ∀ q ∈ qs, q ≠ [] ∧ noSplit false q = true ∧ scanState false q = false) :
    splitTerms (join (utf8 ",") qs) = qs := by
  have hc : utf8 "," = [0x2C] := rfl
  rw [hc, splitTerms_eq]
  by_cases hq : qs = []
  · subst hq; rfl
  · rw [if_neg (join_ne_nil _ qs hq (fun q hm => (h q hm).1))]
    exact splitB_join qs hq (fun q hm => (h q hm).2)

theorem termItem_notEqualOp : termItem [0x21, 0x3D] = some (.notHasTerm [] []) := rfl

theorem termItems_kept : ∀ (parts : List GoString) (its : List Selector),
    (∀ p ∈ parts, Valid p ∧ ¬ [0x3D, 0x3D] <:+: p) → termItems parts = some its →
    (∀ it ∈ its, isTerm it = true) ∧
    (its.filter (fun it => !collapsed it)).map Selector.String = parts.filter keptTerm ∧
    termItems (parts.filter keptTerm) = some (its.filter (fun it => !collapsed it)) ∧
    (∀ q ∈ parts.filter keptTerm, q ≠ [] ∧ scanState false q = false)
  | [], its, _, h => by
    simp only [termItems, Option.some.injEq] at h
    subst h
    simp [termItems]
  | p :: parts, its, hp, h => by
    have hrest : ∀ x ∈ parts, Valid x ∧ ¬ [0x3D, 0x3D] <:+: x :=
      fun x hx => hp x (by simp [hx])
    simp only [termItems] at h
    split_ifs at h with hnil
    · obtain ⟨h1, h2, h3, h4⟩ := termItems_kept parts its hrest h
      have hk : keptTerm p = false := by simp [keptTerm, hnil]
      simp only [List.filter_cons, hk, Bool.false_eq_true, if_false]
      exact ⟨h1, h2, h3, h4⟩
    · cases hti : termItem p with
      | none => simp [hti] at h
      | some it =>
        cases hts : termItems parts with
        | none => simp [hti, hts] at h
        | some its' =>
          simp only [hti, hts, Option.some.injEq] at h
          subst h
          obtain ⟨h1, h2, h3, h4⟩ := termItems_kept parts its' hrest hts
          obtain ⟨hv, hd⟩ := hp p (by simp)
          obtain ⟨ht, hsc, _, hcase⟩ := termItem_render hv hd hti
          have hall : ∀ x ∈ it :: its', isTerm x = true := by
            intro x hx
            rcases List.mem_cons.1 hx with hx | hx
            · exact hx ▸ ht
            · exact h1 x hx
          rcases hcase with ⟨hc, hpe⟩ | ⟨hc, hs⟩
          · have hk : keptTerm p = false := by simp [keptTerm, hpe]
            simp only [List.filter_cons, hk, hc, Bool.false_eq_true, if_false, Bool.not_true]
            exact ⟨hall, h2, h3, h4⟩
          · have hpne : p ≠ [0x21, 0x3D] := by
              intro hpe
              rw [hpe, termItem_notEqualOp] at hti
              simp only [Option.some.injEq] at hti
              rw [← hti] at hc
              simp [collapsed] at hc
            have hk : keptTerm p = true := by simp [keptTerm, hnil, hpne]
            simp only [List.filter_cons, hk, hc, if_true, Bool.not_false, List.map_cons, hs,
              h2, termItems, hnil, if_false, hti, h3]
            refine ⟨hall, trivial, trivial, ?_⟩
            intro q hq
            rcases List.mem_cons.1 hq with hq | hq
            · subst hq; exact ⟨hnil, hsc⟩
            · exact h4 q hq

/-- The canonical form of a parsed selector: for a well-formed text without two
consecutive equals signs, the renderings of the children of the parsed selector
are the terms of the text that leave a child, in ascending order, and each child
is what the parser builds for its own rendering. -/
theorem parse_canonical (T : String) (S : Selector) (hd : ¬ [0x3D, 0x3D] <:+: utf8 T)
    (h : ParseSelector (utf8 T) = .ok S) :
    ∃ qs : List GoString, qs.Sorted (fun a b => strLe a b = true) ∧
      S.children.map Selector.String = qs ∧ termItems qs = some S.children ∧
      (∀ q ∈ qs, q ≠ [] ∧ noSplit false q = true ∧ scanState false q = false) ∧
      (∀ it ∈ S.children, isTerm it = true ∧ collapsed it = false) := by
  cases hpi : parseItems (utf8 T) (sortStrings (splitTerms (utf8 T))) [] with
  | err e => simp [ParseSelector, parseSelector, hpi] at h
  | panic => simp [ParseSelector, parseSelector, hpi] at h
  | ok items =>
    obtain ⟨its, hti, hits⟩ := parseItems_ok _ _ _ _ hpi
    simp only [List.nil_append] at hits
    subst hits
    have hmem : ∀ p ∈ sortStrings (splitTerms (utf8 T)), p ∈ splitTerms (utf8 T) :=
      fun p hp => (sortStrings_perm _).mem_iff.1 hp
    have hparts : ∀ p ∈ sortStrings (splitTerms (utf8 T)),
        Valid p ∧ ¬ [0x3D, 0x3D] <:+: p := by
      intro p hp
      have hp' := hmem p hp
      exact ⟨valid_of_mem_splitTerms (valid_utf8 T) hp',
        fun hin => hd (hin.trans (infix_of_mem_splitTerms hp'))⟩
    obtain ⟨h1, h2, h3, h4⟩ := termItems_kept _ _ hparts hti
    obtain ⟨S0, hS0, hch⟩ := parseSelector_of_items hpi h1
    rw [h] at hS0
    cases hS0
    refine ⟨(sortStrings (splitTerms (utf8 T))).filter keptTerm, ?_, ?_, ?_, ?_, ?_⟩
    · exact List.Pairwise.filter _ (sortStrings_sorted _)
    · rw [hch, h2]
    · rw [hch, h3]
    · intro q hq
      have hq' := hmem q (List.mem_of_mem_filter hq)
      exact ⟨(h4 q hq).1, noSplit_of_mem_splitTerms hq', (h4 q hq).2⟩
    · intro it hit
      rw [hch] at hit
      obtain ⟨hm, hc⟩ := List.mem_filter.1 hit
      exact ⟨h1 it hm, by simpa using hc⟩

/-! ## Matching -/

theorem matchesAll_iff (cs : List Selector) (ls : Fields) :
    Selector.matchesAll cs ls = true ↔ ∀ c ∈ cs, c.Matches ls = true := by
  induction cs with
  | nil => simp [Selector.matchesAll]
  | cons c rest ih =>
    cases hc : c.Matches ls <;> simp [Selector.matchesAll, hc, ih]

/-- C6. A one-term equality selector matches a record exactly when the record's
value for the field equals the term's value, a one-term inequality selector
exactly when it differs, and the value a record gives for an absent field is the
empty string. -/
theorem primitive_terms_matching (f v : GoString) (R : Set) :
    ((OneTermEqualSelector f v).Matches R.asFields = true ↔ R.Get f = v) ∧
    ((OneTermNotEqualSelector f v).Matches R.asFields = true ↔ R.Get f ≠ v) ∧
    (R.Has f = false → R.Get f = []) := by
  refine ⟨?_, ?_, ?_⟩
  · simp [OneTermEqualSelector, Selector.Matches, Set.asFields]
  · simp [OneTermNotEqualSelector, Selector.Matches, Set.asFields]
  · induction R with
    | nil => intro _; rfl
    | cons e rest ih =>
      obtain ⟨k, w⟩ := e
      by_cases hk : k = f
      · simp [Set.Has, hk]
      · simp only [Set.Has, Set.Get, hk, if_false]
        exact ih

theorem primitive_terms_matching_witness :
    (((OneTermEqualSelector (utf8 "a") (utf8 "")).Matches
        (Set.asFields [(utf8 "b", utf8 "1")]) = true ↔
      Set.Get [(utf8 "b", utf8 "1")] (utf8 "a") = utf8 "") ∧
    ((OneTermNotEqualSelector (utf8 "a") (utf8 "")).Matches
        (Set.asFields [(utf8 "b", utf8 "1")]) = true ↔
      Set.Get [(utf8 "b", utf8 "1")] (utf8 "a") ≠ utf8 "") ∧
    (Set.Has [(utf8 "b", utf8 "1")] (utf8 "a") = false →
      Set.Get [(utf8 "b", utf8 "1")] (utf8 "a") = [])) ∧
    Set.Has [(utf8 "b", utf8 "1")] (utf8 "a") = false :=
  ⟨primitive_terms_matching (utf8 "a") (utf8 "") [(utf8 "b", utf8 "1")], by decide⟩

/-- C7. A conjunction matches a record exactly when every child matches it; the
empty conjunction, which is what `Everything` returns, matches every record. -/
theorem conjunction_matching (cs : List Selector) (R : Fields) :
    ((AndTerm cs).Matches R = true ↔ ∀ c ∈ cs, c.Matches R = true) ∧
    Everything = AndTerm [] ∧ (AndTerm []).Matches R = true := by
  refine ⟨?_, rfl, rfl⟩
  simp only [AndTerm, Selector.Matches]
  exact matchesAll_iff cs R

/-- C8. The text `status=active,tier!=free` parses to a selector that matches a
record exactly when its `status` is `active` and its `tier` is not `free`, whose
requirements are `(status, =, active)` then `(tier, !=, free)` and whose
rendering is the text itself. -/
theorem parse_status_tier :
    ∃ S, ParseSelector (utf8 "status=active,tier!=free") = .ok S ∧
      (∀ R : Fields, S.Matches R = true ↔
        (R.Get (utf8 "status") = utf8 "active" ∧ R.Get (utf8 "tier") ≠ utf8 "free")) ∧
      S.Matches (Set.asFields
        [(utf8 "status", utf8 "active"), (utf8 "tier", utf8 "pro")]) = true ∧
      S.Matches (Set.asFields
        [(utf8 "status", utf8 "active"), (utf8 "tier", utf8 "free")]) = false ∧
      S.Requirements = [⟨.Equals, utf8 "status", utf8 "active"⟩,
        ⟨.NotEquals, utf8 "tier", utf8 "free"⟩] ∧
      S.String = utf8 "status=active,tier!=free" := by
  refine ⟨.andTerm [.hasTerm (utf8 "status") (utf8 "active"),
    .notHasTerm (utf8 "tier") (utf8 "free")], rfl, ?_, rfl, rfl, rfl, rfl⟩
  intro R
  cases h1 : decide (R.Get (utf8 "status") = utf8 "active") <;>
    cases h2 : decide (R.Get (utf8 "tier") ≠ utf8 "free") <;>
    simp only [Selector.Matches, Selector.matchesAll, h1, h2] <;>
    simp only [decide_eq_true_eq, decide_eq_false_iff_not] at h1 h2 <;>
    simp [h1, h2]

/-! ## The empty value after a single equals sign -/

/-- C2. Parsing `a=` does not return: the byte lookup `term[i+1]` of `splitTerm`
is out of range and the call panics. -/
theorem parse_trailing_equals_panics :
    ParseSelector (utf8 "a=") = .panic ∧ splitTerm (utf8 "a=") = .panic := ⟨rfl, rfl⟩

/-- C5. For the empty value the text `f=` followed by the escaped value is `f=`,
and parsing it panics instead of returning an equality on `f`.  (For the
ill-formed value `FF 2C` an equality is returned, but its value is
`EF BF BD 2C`.) -/
theorem parse_escaped_value_failures :
    escapeValue [] = [] ∧ ParseSelector (utf8 "f=" ++ escapeValue []) = .panic ∧
    ParseSelector (utf8 "f=" ++ escapeValue [0xFF, 0x2C])
      = .ok (.hasTerm (utf8 "f") [0xEF, 0xBF, 0xBD, 0x2C]) ∧
    (Selector.hasTerm (utf8 "f") [0xEF, 0xBF, 0xBD, 0x2C]).RequiresExactMatch (utf8 "f")
      = ([0xEF, 0xBF, 0xBD, 0x2C], true) := ⟨rfl, rfl, rfl, rfl⟩

/-! ## Escaped comma in a field name -/

/-- C10, as stated, fails: the selector parsed from `a\,b=1` has no exact match
for the field `a,b`. -/
theorem escaped_comma_field_counterexample :
    ¬ ∃ S, ParseSelector (utf8 "a\\,b=1") = .ok S ∧
      S.RequiresExactMatch (utf8 "a,b") = (utf8 "1", true) := by
  rintro ⟨S, hS, hm⟩
  have h : ParseSelector (utf8 "a\\,b=1") = .ok (.hasTerm (utf8 "a\\,b") (utf8 "1")) := rfl
  rw [h] at hS
  cases hS
  revert hm
  decide

/-- C10, amended. The text `a\,b=1` is one term: it parses to the equality whose
field is the four bytes `a\,b`, backslash included, and whose value is `1`. -/
theorem escaped_comma_field :
    splitTerms (utf8 "a\\,b=1") = [utf8 "a\\,b=1"] ∧
    ParseSelector (utf8 "a\\,b=1") = .ok (OneTermEqualSelector (utf8 "a\\,b") (utf8 "1")) ∧
    (utf8 "a\\,b").length = 4 ∧
    (OneTermEqualSelector (utf8 "a\\,b") (utf8 "1")).RequiresExactMatch (utf8 "a\\,b")
      = (utf8 "1", true) := ⟨rfl, rfl, rfl, rfl⟩

/-! ## The operator `!=` -/

/-- C9, as stated, fails. With an empty field and an empty value the text is `!=` and
the parsed selector is `Everything`, which matches the empty record although its
value for the field equals the value; and an ill-formed value is not preserved,
the selector parsed for `f`, `!=` and the escaped bytes `FF 2C` matches the record
whose value for `f` is `FF 2C`. -/
theorem parse_not_equal_counterexample :
    (ParseSelector (utf8 "" ++ utf8 "!=" ++ escapeValue (utf8 "")) = .ok Everything ∧
      Everything.Matches (Set.asFields []) = true ∧
      Set.Get [] (utf8 "") = utf8 "") ∧
    (ParseSelector (utf8 "f" ++ utf8 "!=" ++ escapeValue [0xFF, 0x2C])
        = .ok (.notHasTerm (utf8 "f") [0xEF, 0xBF, 0xBD, 0x2C]) ∧
      (Selector.notHasTerm (utf8 "f") [0xEF, 0xBF, 0xBD, 0x2C]).Matches
        (Set.asFields [(utf8 "f", [0xFF, 0x2C])]) = true ∧
      Set.Get [(utf8 "f", [0xFF, 0x2C])] (utf8 "f") = [0xFF, 0x2C]) :=
  ⟨⟨rfl, rfl, rfl⟩, ⟨rfl, rfl, rfl⟩⟩

/-- C9, amended. For every field name `f` without comma and equals sign and every
well-formed value `v`, not both empty, the text `f`, `!=`, escaped `v` parses to
the inequality `(f, v)`, which matches a record exactly when its value for `f`
differs from `v`. -/
theorem parse_not_equal (f : GoString) (v : String)
    (hf : 0x2C ∉ f ∧ 0x3D ∉ f) (hne : ¬ (f = [] ∧ utf8 v = [])) :
    ParseSelector (f ++ utf8 "!=" ++ escapeValue (utf8 v))
      = .ok (OneTermNotEqualSelector f (utf8 v)) ∧
    ∀ R : Fields, (OneTermNotEqualSelector f (utf8 v)).Matches R = true ↔ R.Get f ≠ utf8 v := by
  refine ⟨?_, fun R => by simp [OneTermNotEqualSelector, Selector.Matches]⟩
  have hop : utf8 "!=" = [0x21, 0x3D] := rfl
  have hx : f ++ utf8 "!=" ++ escapeValue (utf8 v) ≠ [] := by simp [hop]
  have hns : noSplit false (f ++ utf8 "!=" ++ escapeValue (utf8 v)) = true := by
    rw [noSplit_append, noSplit_append, scanState_append, hop,
      scanState_two _ _ _ (by decide) (by decide), noSplit_of_no_comma f _ hf.1,
      noSplit_of_no_comma _ _ (by decide), (scan_escapeValue _).1]
    rfl
  have hst : splitTerm (f ++ utf8 "!=" ++ escapeValue (utf8 v))
      = .found f notEqualOp (escapeValue (utf8 v)) := by
    rw [splitTerm_eq, hop, List.append_assoc]
    simpa using splitTermB_notEqual f [] (escapeValue (utf8 v)) hf.2
  have hun : unescapeValue (escapeValue (utf8 v)) = .ok (utf8 v) :=
    unescapeValue_escapeValue v.toList
  have hlen : ¬ (f.length = 0 ∧ (utf8 v).length = 0) := by
    simpa [List.length_eq_zero] using hne
  simp only [ParseSelector, parseSelector, splitTerms_single hx hns, sortStrings_singleton,
    parseItems, if_neg hx, hst, hun, if_true, List.nil_append, Selector.Transform, hlen,
    if_false, Res.ofExcept, OneTermNotEqualSelector]

theorem parse_not_equal_witness :
    (0x2C ∉ utf8 "tier" ∧ 0x3D ∉ utf8 "tier") ∧ ¬ (utf8 "tier" = [] ∧ utf8 "a,b" = []) ∧
    (ParseSelector (utf8 "tier" ++ utf8 "!=" ++ escapeValue (utf8 "a,b"))
      = .ok (OneTermNotEqualSelector (utf8 "tier") (utf8 "a,b")) ∧
    ∀ R : Fields, (OneTermNotEqualSelector (utf8 "tier") (utf8 "a,b")).Matches R = true ↔
      R.Get (utf8 "tier") ≠ utf8 "a,b") :=
  ⟨by decide, by decide, parse_not_equal (utf8 "tier") "a,b" (by decide) (by decide)⟩

/-! ## Canonical ordering -/

/-- C3. Two selector texts whose lists of terms are permutations of each other are
both parsed to a selector or neither is, and the selectors returned have the same
rendering and the same requirements. -/
theorem canonical_ordering (t1 t2 : GoString)
    (h : (splitTerms t1).Perm (splitTerms t2)) :
    ((∃ S, ParseSelector t1 = .ok S) ↔ (∃ S, ParseSelector t2 = .ok S)) ∧
    ∀ S1 S2, ParseSelector t1 = .ok S1 → ParseSelector t2 = .ok S2 →
      S1.String = S2.String ∧ S1.Requirements = S2.Requirements := by
  have key := parseSelector_ok_iff t1 t2 (fun field value => .ok (field, value)) h
  refine ⟨⟨fun ⟨S, hS⟩ => ⟨S, (key S).1 hS⟩, fun ⟨S, hS⟩ => ⟨S, (key S).2 hS⟩⟩, ?_⟩
  intro S1 S2 h1 h2
  have h3 : ParseSelector t2 = .ok S1 := (key S1).1 h1
  rw [h2] at h3
  cases h3
  exact ⟨rfl, rfl⟩

theorem canonical_ordering_witness :
    (splitTerms (utf8 "a=1,b=2")).Perm (splitTerms (utf8 "b=2,a=1")) ∧
    (((∃ S, ParseSelector (utf8 "a=1,b=2") = .ok S) ↔
        (∃ S, ParseSelector (utf8 "b=2,a=1") = .ok S)) ∧
      ∀ S1 S2, ParseSelector (utf8 "a=1,b=2") = .ok S1 →
        ParseSelector (utf8 "b=2,a=1") = .ok S2 →
        S1.String = S2.String ∧ S1.Requirements = S2.Requirements) ∧
    ParseSelector (utf8 "a=1,b=2") = ParseSelector (utf8 "b=2,a=1") :=
  ⟨List.Perm.swap _ _ _,
    canonical_ordering (utf8 "a=1,b=2") (utf8 "b=2,a=1") (List.Perm.swap _ _ _), rfl⟩

/-! ## Exact match on a conjunction -/

theorem requiresExactMatch_of_empty {S : Selector} (field : GoString) (h : S.Empty = true) :
    S.RequiresExactMatch field = ([], false) := by
  cases S with
  | nothing => rfl
  | hasTerm f v => simp [Selector.Empty] at h
  | notHasTerm f v => rfl
  | andTerm cs =>
    simp only [Selector.Empty] at h
    simp [Selector.RequiresExactMatch, h]

theorem exactMatchFirst_of_emptyAll (field : GoString) : ∀ cs : List Selector,
    Selector.emptyAll cs = true → Selector.exactMatchFirst cs field = ([], false)
  | [], _ => rfl
  | c :: cs, h => by
    simp only [Selector.emptyAll] at h
    split_ifs at h with hc
    have hc' : c.Empty = true := by simpa using hc
    simp only [Selector.exactMatchFirst, requiresExactMatch_of_empty field hc',
      Bool.false_eq_true, if_false]
    exact exactMatchFirst_of_emptyAll field cs h

theorem exactMatchFirst_eq_find (field : GoString) : ∀ cs : List Selector,
    Selector.exactMatchFirst cs field =
      ((cs.map (fun c => c.RequiresExactMatch field)).find? (fun a => a.2)).getD ([], false)
  | [] => rfl
  | c :: cs => by
    simp only [Selector.exactMatchFirst, List.map_cons, List.find?_cons]
    cases h : (c.RequiresExactMatch field).2
    · simp only [Bool.false_eq_true, if_false]
      exact exactMatchFirst_eq_find field cs
    · simp

/-- C16. On a conjunction `RequiresExactMatch` returns the answer of the first
child, in child order, that reports `found = true`, and `("", false)` when no
child does; the early return for an empty conjunction gives what the loop over
the children would give. -/
theorem conjunction_exact_match (cs : List Selector) (field : GoString) :
    (AndTerm cs).RequiresExactMatch field =
      ((cs.map (fun c => c.RequiresExactMatch field)).find? (fun a => a.2)).getD ([], false) ∧
    (AndTerm cs).RequiresExactMatch field = Selector.exactMatchFirst cs field := by
  have key : (AndTerm cs).RequiresExactMatch field = Selector.exactMatchFirst cs field := by
    simp only [AndTerm, Selector.RequiresExactMatch]
    split_ifs with h
    · simp only [Bool.or_eq_true, decide_eq_true_eq] at h
      rcases h with h | h
      · exact (exactMatchFirst_of_emptyAll field cs h).symm
      · have : cs = [] := List.length_eq_zero.1 h
        subst this
        rfl
    · rfl
  exact ⟨key.trans (exactMatchFirst_eq_find field cs), key⟩

/-! ## Empty selectors -/

mutual
theorem matches_of_empty : ∀ (S : Selector) (R : Fields), S.Empty = true → S.Matches R = true
  | .nothing, _, h => by simp [Selector.Empty] at h
  | .hasTerm _ _, _, h => by simp [Selector.Empty] at h
  | .notHasTerm _ _, _, h => by simp [Selector.Empty] at h
  | .andTerm cs, R, h => by
    simp only [Selector.Empty] at h
    simp only [Selector.Matches]
    exact matchesAll_of_emptyAll cs R h
theorem matchesAll_of_emptyAll : ∀ (cs : List Selector) (R : Fields),
    Selector.emptyAll cs = true → Selector.matchesAll cs R = true
  | [], _, _ => rfl
  | c :: cs, R, h => by
    simp only [Selector.emptyAll] at h
    split_ifs at h with hc
    have hc' : c.Empty = true := by simpa using hc
    simp only [Selector.matchesAll, matches_of_empty c R hc', Bool.not_true,
      Bool.false_eq_true, if_false]
    exact matchesAll_of_emptyAll cs R h
end

/-- C17. A selector that is `Empty` matches every record; equalities,
inequalities and `Nothing` are never `Empty`. -/
theorem empty_is_unconditional (S : Selector) (R : Fields) :
    (S.Empty = true → S.Matches R = true) ∧
    (∀ f v, (OneTermEqualSelector f v).Empty = false ∧
      (OneTermNotEqualSelector f v).Empty = false) ∧
    Nothing.Empty = false ∧ Everything.Empty = true :=
  ⟨matches_of_empty S R, fun _ _ => ⟨rfl, rfl⟩, rfl, rfl⟩

theorem empty_is_unconditional_witness :
    (Selector.andTerm [Everything, .andTerm [Everything]]).Empty = true ∧
    (Selector.andTerm [Everything, .andTerm [Everything]]).Matches (Set.asFields []) = true :=
  ⟨rfl, (empty_is_unconditional (.andTerm [Everything, .andTerm [Everything]])
    (Set.asFields [])).1 rfl⟩

/-! ## Transform -/

/-- C18. `Transform` on a one-term selector returns the error of the transform
function when it fails, `Everything` when it returns two empty strings, and
otherwise the term of the same kind built from the returned pair. -/
theorem transform_primitive (f v : GoString) (fn : TransformFunc) :
    (∀ e, fn f v = .error e →
      (OneTermEqualSelector f v).Transform fn = .error e ∧
      (OneTermNotEqualSelector f v).Transform fn = .error e) ∧
    (fn f v = .ok ([], []) →
      (OneTermEqualSelector f v).Transform fn = .ok Everything ∧
      (OneTermNotEqualSelector f v).Transform fn = .ok Everything) ∧
    (∀ f' v', fn f v = .ok (f', v') → ¬ (f' = [] ∧ v' = []) →
      (OneTermEqualSelector f v).Transform fn = .ok (OneTermEqualSelector f' v') ∧
      (OneTermNotEqualSelector f v).Transform fn = .ok (OneTermNotEqualSelector f' v')) := by
  refine ⟨?_, ?_, ?_⟩
  · intro e h
    simp [OneTermEqualSelector, OneTermNotEqualSelector, Selector.Transform, h]
  · intro h
    simp [OneTermEqualSelector, OneTermNotEqualSelector, Selector.Transform, h]
  · intro f' v' h hne
    have hl : ¬ (f'.length = 0 ∧ v'.length = 0) := by
      simpa [List.length_eq_zero] using hne
    simp only [OneTermEqualSelector, OneTermNotEqualSelector, Selector.Transform, h, hl,
      if_false, and_self]

theorem transform_primitive_witness :
    ((fun (field value : GoString) =>
        (Except.ok (value, field) : Except GoError (GoString × GoString)))
        (utf8 "a") (utf8 "1") = .ok (utf8 "1", utf8 "a")) ∧
    ¬ (utf8 "1" = [] ∧ utf8 "a" = []) ∧
    (OneTermEqualSelector (utf8 "a") (utf8 "1")).Transform
        (fun field value => .ok (value, field))
      = .ok (OneTermEqualSelector (utf8 "1") (utf8 "a")) ∧
    (OneTermNotEqualSelector (utf8 "a") (utf8 "1")).Transform
        (fun field value => .ok (value, field))
      = .ok (OneTermNotEqualSelector (utf8 "1") (utf8 "a")) :=
  ⟨rfl, by decide,
    (transform_primitive (utf8 "a") (utf8 "1") (fun field value => .ok (value, field))).2.2
      (utf8 "1") (utf8 "a") rfl (by decide)⟩

theorem transformAll_ok (fn : TransformFunc) : ∀ (cs ts new : List Selector),
    List.Forall₂ (fun c t => c.Transform fn = .ok t) cs ts →
    Selector.transformAll cs fn new = .ok (new ++ ts.filter (fun t => !t.Empty))
  | [], _, new, h => by
    cases h
    simp [Selector.transformAll]
  | c :: cs, _, new, h => by
    cases h with
    | cons hc hrest =>
      rename_i t ts
      simp only [Selector.transformAll, hc]
      cases he : t.Empty
      · simp only [Bool.not_false, if_true]
        rw [transformAll_ok fn cs ts _ hrest]
        simp [List.filter_cons, he]
      · simp only [Bool.not_true, Bool.false_eq_true, if_false]
        rw [transformAll_ok fn cs ts _ hrest]
        simp [List.filter_cons, he]

theorem transformAll_error (fn : TransformFunc) : ∀ (pre : List Selector) (c : Selector)
    (post new : List Selector) (e : GoError),
    (∀ p ∈ pre, ∃ t, p.Transform fn = .ok t) → c.Transform fn = .error e →
    Selector.transformAll (pre ++ c :: post) fn new = .error e
  | [], c, post, new, e, _, hc => by
    simp [Selector.transformAll, hc]
  | p :: pre, c, post, new, e, hp, hc => by
    obtain ⟨t, ht⟩ := hp p (by simp)
    have hrest : ∀ q ∈ pre, ∃ t, q.Transform fn = .ok t := fun q hq => hp q (by simp [hq])
    simp only [List.cons_append, Selector.transformAll, ht]
    split_ifs
    · exact transformAll_error fn pre c post _ e hrest hc
    · exact transformAll_error fn pre c post _ e hrest hc

/-- C19. `Transform` on a conjunction: when the transform of every child succeeds
the result is the conjunction of the transformed children that are not `Empty`,
in child order; when the transform of a child fails, the result is the error of
the first child that fails. -/
theorem transform_conjunction (cs : List Selector) (fn : TransformFunc) :
    (∀ ts, List.Forall₂ (fun c t => c.Transform fn = .ok t) cs ts →
      (AndTerm cs).Transform fn = .ok (AndTerm (ts.filter (fun t => !t.Empty)))) ∧
    (∀ pre c post e, cs = pre ++ c :: post →
      (∀ p ∈ pre, ∃ t, p.Transform fn = .ok t) → c.Transform fn = .error e →
      (AndTerm cs).Transform fn = .error e) := by
  refine ⟨?_, ?_⟩
  · intro ts h
    simp [AndTerm, Selector.Transform, transformAll_ok fn cs ts [] h]
  · intro pre c post e hcs hpre hc
    subst hcs
    simp [AndTerm, Selector.Transform, transformAll_error fn pre c post [] e hpre hc]

theorem transform_conjunction_witness :
    List.Forall₂ (fun c t => Selector.Transform c (fun field value => .ok (field, value)) = .ok t)
      [OneTermEqualSelector (utf8 "a") (utf8 "1"), OneTermNotEqualSelector [] []]
      [OneTermEqualSelector (utf8 "a") (utf8 "1"), Everything] ∧
    (AndTerm [OneTermEqualSelector (utf8 "a") (utf8 "1"),
        OneTermNotEqualSelector [] []]).Transform (fun field value => .ok (field, value))
      = .ok (AndTerm ([OneTermEqualSelector (utf8 "a") (utf8 "1"), Everything].filter
          (fun t => !t.Empty))) ∧
    [OneTermEqualSelector (utf8 "a") (utf8 "1"), Everything].filter (fun t => !t.Empty)
      = [OneTermEqualSelector (utf8 "a") (utf8 "1")] :=
  ⟨.cons rfl (.cons rfl .nil),
    (transform_conjunction [OneTermEqualSelector (utf8 "a") (utf8 "1"),
      OneTermNotEqualSelector [] []] (fun field value => .ok (field, value))).1 _
      (.cons rfl (.cons rfl .nil)), rfl⟩


/-! ## Terms with `=`, `==` or no operator -/

theorem splitTermB_notFound : ∀ (s pre : GoString), 0x3D ∉ s → splitTermB pre s = .notFound
  | [], _, _ => rfl
  | b :: rest, pre, h => by
    have hb : ¬ b = 0x3D := fun hb => h (by simp [hb])
    have hr : 0x3D ∉ rest := fun hm => h (List.mem_cons_of_mem _ hm)
    have hh : ¬ (b = 0x21 ∧ rest.head? = some 0x3D) := by
      rintro ⟨_, h2⟩
      exact hr (List.mem_of_mem_head? h2)
    simp only [splitTermB, hh, hb, if_false]
    exact splitTermB_notFound rest _ hr

theorem splitTermB_equal : ∀ (f pre e : GoString), 0x3D ∉ f → f.getLast? ≠ some 0x21 →
    e ≠ [] → e.head? ≠ some 0x3D →
    splitTermB pre (f ++ 0x3D :: e) = .found (pre ++ f) equalOp e
  | [], pre, e, _, _, he, hh => by
    cases e with
    | nil => exact absurd rfl he
    | cons b1 rest1 =>
      have h1 : ¬ b1 = 0x3D := by simpa using hh
      simp [splitTermB, h1]
  | b :: f, pre, e, h, hl, he, hh => by
    have hb : ¬ b = 0x3D := fun hb => h (by simp [hb])
    have hf : 0x3D ∉ f := fun hm => h (List.mem_cons_of_mem _ hm)
    have hc : ¬ (b = 0x21 ∧ (f ++ 0x3D :: e).head? = some 0x3D) := by
      rintro ⟨h1, h2⟩
      cases f with
      | nil => simp [h1] at hl
      | cons c f => simp at h2; exact hf (by simp [h2])
    have hl' : f.getLast? ≠ some 0x21 := by
      cases f with
      | nil => simp
      | cons c f => simpa [List.getLast?_cons_cons] using hl
    simp only [List.cons_append, splitTermB, List.append_eq, hc, hb, if_false]
    rw [splitTermB_equal f (pre ++ [b]) e hf hl' he hh]
    simp

theorem splitTermB_doubleEqual : ∀ (f pre e : GoString), 0x3D ∉ f →
    f.getLast? ≠ some 0x21 →
    splitTermB pre (f ++ 0x3D :: 0x3D :: e) = .found (pre ++ f) doubleEqualOp e
  | [], pre, e, _, _ => by simp [splitTermB]
  | b :: f, pre, e, h, hl => by
    have hb : ¬ b = 0x3D := fun hb => h (by simp [hb])
    have hf : 0x3D ∉ f := fun hm => h (List.mem_cons_of_mem _ hm)
    have hc : ¬ (b = 0x21 ∧ (f ++ 0x3D :: 0x3D :: e).head? = some 0x3D) := by
      rintro ⟨h1, h2⟩
      cases f with
      | nil => simp [h1] at hl
      | cons c f => simp at h2; exact hf (by simp [h2])
    have hl' : f.getLast? ≠ some 0x21 := by
      cases f with
      | nil => simp
      | cons c f => simpa [List.getLast?_cons_cons] using hl
    simp only [List.cons_append, splitTermB, List.append_eq, hc, hb, if_false]
    rw [splitTermB_doubleEqual f (pre ++ [b]) e hf hl']
    simp

theorem escapeValue_head {v : GoString} (hv : v ≠ []) :
    escapeValue v ≠ [] ∧ (escapeValue v).head? ≠ some 0x3D := by
  cases v with
  | nil => exact absurd rfl hv
  | cons b v =>
    rw [escapeValue_cons]
    by_cases hb : b = 0x5C ∨ b = 0x2C ∨ b = 0x3D
    · rw [if_pos hb]
      simp
    · have h3 : ¬ b = 0x3D := by tauto
      rw [if_neg hb]
      simp [h3]

/-- A text made of a field name, `=` or `==` and the escaped form of a non-empty
well-formed value parses to the equality of the field and the value. -/
theorem parseSelector_equal (f : GoString) (v : String) (hc : 0x2C ∉ f) (he : 0x3D ∉ f)
    (hb : f.getLast? ≠ some 0x21) (hv : utf8 v ≠ []) :
    ParseSelector (f ++ utf8 "=" ++ escapeValue (utf8 v)) = .ok (.hasTerm f (utf8 v)) ∧
    ParseSelector (f ++ utf8 "==" ++ escapeValue (utf8 v)) = .ok (.hasTerm f (utf8 v)) := by
  have hop1 : utf8 "=" = [0x3D] := rfl
  have hop2 : utf8 "==" = [0x3D, 0x3D] := rfl
  obtain ⟨hen, heh⟩ := escapeValue_head hv
  have hun : unescapeValue (escapeValue (utf8 v)) = .ok (utf8 v) :=
    unescapeValue_escapeValue v.toList
  have hlen : ¬ (f.length = 0 ∧ (utf8 v).length = 0) := by
    simp [List.length_eq_zero, hv]
  have h1 : (equalOp = notEqualOp) = False := by simp [equalOp_eq, notEqualOp_eq]
  have h2 : (equalOp = doubleEqualOp) = False := by simp [equalOp_eq, doubleEqualOp_eq]
  have h3 : (doubleEqualOp = notEqualOp) = False := by
    simp [doubleEqualOp_eq, notEqualOp_eq]
  constructor
  · have hx : f ++ utf8 "=" ++ escapeValue (utf8 v) ≠ [] := by simp [hop1]
    have hns : noSplit false (f ++ utf8 "=" ++ escapeValue (utf8 v)) = true := by
      rw [noSplit_append, noSplit_append, scanState_append, hop1,
        scanState_one _ _ (by decide), noSplit_of_no_comma f _ hc,
        noSplit_of_no_comma _ _ (by decide), (scan_escapeValue _).1]
      rfl
    have hst : splitTerm (f ++ utf8 "=" ++ escapeValue (utf8 v))
        = .found f equalOp (escapeValue (utf8 v)) := by
      rw [splitTerm_eq, hop1, List.append_assoc]
      simpa using splitTermB_equal f [] (escapeValue (utf8 v)) he hb hen heh
    simp only [ParseSelector, parseSelector, splitTerms_single hx hns, sortStrings_singleton,
      parseItems, if_neg hx, hst, hun, h1, h2, if_true, if_false, List.nil_append,
      Selector.Transform, hlen, Res.ofExcept]
  · have hx : f ++ utf8 "==" ++ escapeValue (utf8 v) ≠ [] := by simp [hop2]
    have hns : noSplit false (f ++ utf8 "==" ++ escapeValue (utf8 v)) = true := by
      rw [noSplit_append, noSplit_append, scanState_append, hop2,
        scanState_two _ _ _ (by decide) (by decide), noSplit_of_no_comma f _ hc,
        noSplit_of_no_comma _ _ (by decide), (scan_escapeValue _).1]
      rfl
    have hst : splitTerm (f ++ utf8 "==" ++ escapeValue (utf8 v))
        = .found f doubleEqualOp (escapeValue (utf8 v)) := by
      rw [splitTerm_eq, hop2, List.append_assoc]
      simpa using splitTermB_doubleEqual f [] (escapeValue (utf8 v)) he hb
    simp only [ParseSelector, parseSelector, splitTerms_single hx hns, sortStrings_singleton,
      parseItems, if_neg hx, hst, hun, h3, if_true, if_false, List.nil_append,
      Selector.Transform, hlen, Res.ofExcept]

/-- C13. A non-empty text without equals sign, comma and backslash is rejected with
the error `invalid selector: 'p'; can't split term: 'p'`. -/
theorem malformed_term_rejected (p : GoString) (hne : p ≠ [])
    (hp : 0x3D ∉ p ∧ 0x2C ∉ p ∧ 0x5C ∉ p) :
    ParseSelector p = .err (.errorf (utf8 "invalid selector: '" ++ p
      ++ utf8 "'; can't split term: '" ++ p ++ utf8 "'")) := by
  have hst : splitTerm p = .notFound := by
    rw [splitTerm_eq]
    exact splitTermB_notFound p [] hp.1
  simp only [ParseSelector, parseSelector,
    splitTerms_single hne (noSplit_of_no_comma p _ hp.2.1), sortStrings_singleton,
    parseItems, if_neg hne, hst]

theorem malformed_term_rejected_witness :
    utf8 "bogus" ≠ [] ∧
    (0x3D ∉ utf8 "bogus" ∧ 0x2C ∉ utf8 "bogus" ∧ 0x5C ∉ utf8 "bogus") ∧
    ParseSelector (utf8 "bogus") = .err (.errorf (utf8 "invalid selector: '" ++ utf8 "bogus"
      ++ utf8 "'; can't split term: '" ++ utf8 "bogus" ++ utf8 "'")) ∧
    utf8 "invalid selector: '" ++ utf8 "bogus" ++ utf8 "'; can't split term: '"
      ++ utf8 "bogus" ++ utf8 "'" = utf8 "invalid selector: 'bogus'; can't split term: 'bogus'" :=
  ⟨by decide, by decide, malformed_term_rejected (utf8 "bogus") (by decide) (by decide), rfl⟩

/-! ## Double equals, and an escaped value through parse and render -/

/-- C11, as stated, fails. For the field `a` and the ill-formed value `FF 2C` the
texts with `==` and with `=` parse to the equality whose value is `EF BF BD 2C`,
not the value itself, and its rendering is not `a=` followed by the escaped
value. -/
theorem double_equals_alias_counterexample :
    ParseSelector (utf8 "a" ++ utf8 "==" ++ escapeValue [0xFF, 0x2C])
      = .ok (OneTermEqualSelector (utf8 "a") [0xEF, 0xBF, 0xBD, 0x2C]) ∧
    ParseSelector (utf8 "a" ++ utf8 "=" ++ escapeValue [0xFF, 0x2C])
      = .ok (OneTermEqualSelector (utf8 "a") [0xEF, 0xBF, 0xBD, 0x2C]) ∧
    (OneTermEqualSelector (utf8 "a") [0xEF, 0xBF, 0xBD, 0x2C]).String
      = [0x61, 0x3D, 0xEF, 0xBF, 0xBD, 0x5C, 0x2C] ∧
    utf8 "a" ++ utf8 "=" ++ escapeValue [0xFF, 0x2C] = [0x61, 0x3D, 0xFF, 0x5C, 0x2C] :=
  ⟨rfl, rfl, rfl, rfl⟩

/-- C11, amended. For every field name without comma, equals sign and backslash
that does not end in `!` and every non-empty well-formed value, the texts with
`==` and with `=` parse to the same selector, the equality of the field and the
value, which is rendered with a single equals sign. -/
theorem double_equals_alias (f : GoString) (v : String)
    (hf : 0x2C ∉ f ∧ 0x3D ∉ f ∧ 0x5C ∉ f) (hb : f.getLast? ≠ some 0x21)
    (hv : utf8 v ≠ []) :
    ParseSelector (f ++ utf8 "==" ++ escapeValue (utf8 v))
      = .ok (OneTermEqualSelector f (utf8 v)) ∧
    ParseSelector (f ++ utf8 "=" ++ escapeValue (utf8 v))
      = .ok (OneTermEqualSelector f (utf8 v)) ∧
    (OneTermEqualSelector f (utf8 v)).String = f ++ utf8 "=" ++ escapeValue (utf8 v) := by
  obtain ⟨h1, h2⟩ := parseSelector_equal f v hf.1 hf.2.1 hb hv
  exact ⟨h2, h1, rfl⟩

theorem double_equals_alias_witness :
    (0x2C ∉ utf8 "a" ∧ 0x3D ∉ utf8 "a" ∧ 0x5C ∉ utf8 "a") ∧
    (utf8 "a").getLast? ≠ some 0x21 ∧ utf8 "1" ≠ [] ∧
    (ParseSelector (utf8 "a" ++ utf8 "==" ++ escapeValue (utf8 "1"))
      = .ok (OneTermEqualSelector (utf8 "a") (utf8 "1")) ∧
    ParseSelector (utf8 "a" ++ utf8 "=" ++ escapeValue (utf8 "1"))
      = .ok (OneTermEqualSelector (utf8 "a") (utf8 "1")) ∧
    (OneTermEqualSelector (utf8 "a") (utf8 "1")).String
      = utf8 "a" ++ utf8 "=" ++ escapeValue (utf8 "1")) ∧
    utf8 "a" ++ utf8 "==" ++ escapeValue (utf8 "1") = utf8 "a==1" ∧
    utf8 "a" ++ utf8 "=" ++ escapeValue (utf8 "1") = utf8 "a=1" :=
  ⟨by decide, by decide, by decide,
    double_equals_alias (utf8 "a") "1" (by decide) (by decide) (by decide), rfl, rfl⟩

/-- C12, as stated, fails. For the ill-formed value `FF 2C` the text `name=`
followed by the escaped value parses to the equality whose value is
`EF BF BD 2C`: it does not match the record holding `FF 2C` under `name` and its
rendering is not the text. -/
theorem escaped_value_parse_render_counterexample :
    ParseSelector (utf8 "name=" ++ escapeValue [0xFF, 0x2C])
      = .ok (OneTermEqualSelector (utf8 "name") [0xEF, 0xBF, 0xBD, 0x2C]) ∧
    (OneTermEqualSelector (utf8 "name") [0xEF, 0xBF, 0xBD, 0x2C]).Matches
      (Set.asFields [(utf8 "name", [0xFF, 0x2C])]) = false ∧
    (OneTermEqualSelector (utf8 "name") [0xEF, 0xBF, 0xBD, 0x2C]).String
      = utf8 "name=" ++ [0xEF, 0xBF, 0xBD, 0x5C, 0x2C] ∧
    utf8 "name=" ++ escapeValue [0xFF, 0x2C] = utf8 "name=" ++ [0xFF, 0x5C, 0x2C] :=
  ⟨rfl, rfl, rfl, rfl⟩

/-- C12, amended. For every non-empty well-formed value the text `name=` followed
by the escaped value parses to the equality of `name` and the value, which
matches the record holding the value under `name` and is rendered as the text
again. -/
theorem escaped_value_parse_render (v : String) (hv : utf8 v ≠ []) :
    ParseSelector (utf8 "name=" ++ escapeValue (utf8 v))
      = .ok (OneTermEqualSelector (utf8 "name") (utf8 v)) ∧
    (OneTermEqualSelector (utf8 "name") (utf8 v)).Matches
      (Set.asFields [(utf8 "name", utf8 v)]) = true ∧
    (OneTermEqualSelector (utf8 "name") (utf8 v)).String
      = utf8 "name=" ++ escapeValue (utf8 v) := by
  have h := (parseSelector_equal (utf8 "name") v (by decide) (by decide) (by decide) hv).1
  have hn : utf8 "name=" = utf8 "name" ++ utf8 "=" := rfl
  refine ⟨by rw [hn]; exact h, ?_, by rw [hn]; rfl⟩
  simp [OneTermEqualSelector, Selector.Matches, Set.asFields, Set.Get]

theorem escaped_value_parse_render_witness :
    utf8 "a,b" ≠ [] ∧
    (ParseSelector (utf8 "name=" ++ escapeValue (utf8 "a,b"))
      = .ok (OneTermEqualSelector (utf8 "name") (utf8 "a,b")) ∧
    (OneTermEqualSelector (utf8 "name") (utf8 "a,b")).Matches
      (Set.asFields [(utf8 "name", utf8 "a,b")]) = true ∧
    (OneTermEqualSelector (utf8 "name") (utf8 "a,b")).String
      = utf8 "name=" ++ escapeValue (utf8 "a,b")) ∧
    utf8 "name=" ++ escapeValue (utf8 "a,b") = utf8 "name=a\\,b" :=
  ⟨by decide, escaped_value_parse_render "a,b" (by decide), rfl⟩

/-! ## The failure surface of `unescapeValue` -/

theorem isSpecial_iff (c : Nat) : isSpecial c = true ↔ (c = 0x5C ∨ c = 0x2C ∨ c = 0x3D) := by
  simp [isSpecial, or_assoc]

theorem isSpecial_of_high {c : Nat} (h : 0x80 ≤ c) : isSpecial c = false := by
  simp only [isSpecial, Bool.or_eq_false_iff, decide_eq_false_iff_not]
  omega

theorem containsSpecial_eq_any (s : GoString) : containsSpecial s = s.any isSpecial := rfl

theorem any_special_rangeFrom : ∀ (rest : GoString) (i skip : Nat), SkipOK skip rest →
    ((rangeFrom i skip rest).map Prod.snd).any isSpecial = rest.any isSpecial
  | [], _, _, _ => by simp [rangeFrom]
  | b :: rest, i, skip + 1, h => by
    obtain ⟨hb, hk⟩ := skipOK_succ h
    simp only [rangeFrom, List.any_cons, isSpecial_of_high hb, Bool.false_or]
    exact any_special_rangeFrom rest (i + 1) skip hk
  | b :: rest, i, 0, _ => by
    simp only [rangeFrom, List.map_cons, List.any_cons]
    rw [any_special_rangeFrom rest (i + 1) _ (decodeRune_skipOK b rest)]
    congr 1
    by_cases hb : b < 0x80
    · rw [decodeRune_ascii rest hb]
    · rw [isSpecial_of_high (decodeRune_high rest (by omega)), isSpecial_of_high (by omega)]

theorem any_special_runes (s : GoString) : (runes s).any isSpecial = containsSpecial s := by
  rw [containsSpecial_eq_any]
  exact any_special_rangeFrom s 0 0 (skipOK_zero s)

theorem wellEscaped_backslash_nil : wellEscaped [0x5C] = false := rfl

theorem wellEscaped_backslash_cons (d : Nat) (r : List Nat) :
    wellEscaped (0x5C :: d :: r) = (isSpecial d && wellEscaped r) := by
  simp [wellEscaped]

theorem wellEscaped_plain {c : Nat} (rest : List Nat) (h : ¬ c = 0x5C) :
    wellEscaped (c :: rest) = (!isSpecial c && wellEscaped rest) := by
  cases rest with
  | nil => simp [wellEscaped]
  | cons d r => simp [wellEscaped, h]


theorem wellEscaped_of_no_special : ∀ rs : List Nat, rs.any isSpecial = false →
    wellEscaped rs = true
  | [], _ => rfl
  | c :: rest, h => by
    simp only [List.any_cons, Bool.or_eq_false_iff] at h
    have hc : ¬ c = 0x5C := fun hc => by simp [isSpecial, hc] at h
    simp [wellEscaped_plain rest hc, h.1, wellEscaped_of_no_special rest h.2]

theorem unescapeLoop_ok_iff : ∀ (rs : List Nat) (buf : GoString),
    ((∃ v, unescapeLoop rs false buf = .ok v) ↔ wellEscaped rs = true) ∧
    ((∃ v, unescapeLoop rs true buf = .ok v) ↔
      ∃ d r, rs = d :: r ∧ isSpecial d = true ∧ wellEscaped r = true)
  | [], buf => by simp [unescapeLoop, wellEscaped]
  | c :: rest, buf => by
    have ih := fun b => unescapeLoop_ok_iff rest b
    constructor
    · by_cases h5 : c = 0x5C
      · subst h5
        simp only [unescapeLoop, Bool.false_eq_true, if_false, if_true]
        rw [(ih buf).2]
        cases rest with
        | nil => simp [wellEscaped_backslash_nil]
        | cons d r =>
          simp only [wellEscaped_backslash_cons, Bool.and_eq_true, List.cons.injEq]
          constructor
          · rintro ⟨d', r', ⟨rfl, rfl⟩, h1, h2⟩; exact ⟨h1, h2⟩
          · rintro ⟨h1, h2⟩; exact ⟨d, r, ⟨rfl, rfl⟩, h1, h2⟩
      · by_cases hs : c = 0x2C ∨ c = 0x3D
        · have : isSpecial c = true := (isSpecial_iff c).2 (Or.inr hs)
          simp [unescapeLoop, h5, hs, wellEscaped_plain rest h5, this]
        · have : isSpecial c = false := by
            rw [← Bool.not_eq_true, isSpecial_iff]; tauto
          simp only [unescapeLoop, Bool.false_eq_true, if_false, h5, hs,
            wellEscaped_plain rest h5, this, Bool.not_false, Bool.true_and]
          exact (ih _).1
    · by_cases hs : c = 0x5C ∨ c = 0x2C ∨ c = 0x3D
      · have : isSpecial c = true := (isSpecial_iff c).2 hs
        simp only [unescapeLoop, if_true, hs]
        rw [(ih _).1]
        constructor
        · intro h; exact ⟨c, rest, rfl, this, h⟩
        · rintro ⟨d, r, hdr, _, h⟩
          simp only [List.cons.injEq] at hdr
          rw [hdr.2]; exact h
      · have : isSpecial c = false := by
          rw [← Bool.not_eq_true, isSpecial_iff]; exact hs
        simp only [unescapeLoop, if_true, hs, if_false]
        constructor
        · rintro ⟨v, hv⟩; cases hv
        · rintro ⟨d, r, hdr, hd, _⟩
          simp only [List.cons.injEq] at hdr
          rw [← hdr.1, this] at hd; cases hd

theorem unescapeLoop_wellEscaped_append : ∀ (pre : List Nat),
    (wellEscaped pre = true → ∀ buf, ∃ buf', ∀ tail,
      unescapeLoop (pre ++ tail) false buf = unescapeLoop tail false buf') ∧
    (∀ d r, pre = d :: r → isSpecial d = true → wellEscaped r = true → ∀ buf, ∃ buf', ∀ tail,
      unescapeLoop (pre ++ tail) true buf = unescapeLoop tail false buf')
  | [] => by
    refine ⟨fun _ buf => ⟨buf, fun tail => rfl⟩, ?_⟩
    intro d r h
    cases h
  | c :: rest => by
    obtain ⟨ih1, ih2⟩ := unescapeLoop_wellEscaped_append rest
    constructor
    · intro hw buf
      by_cases h5 : c = 0x5C
      · subst h5
        cases rest with
        | nil => simp [wellEscaped_backslash_nil] at hw
        | cons d r =>
          simp only [wellEscaped_backslash_cons, Bool.and_eq_true] at hw
          obtain ⟨buf', hb⟩ := ih2 d r rfl hw.1 hw.2 buf
          refine ⟨buf', fun tail => ?_⟩
          rw [← hb tail]
          simp [unescapeLoop]
      · simp only [wellEscaped_plain rest h5, Bool.and_eq_true, Bool.not_eq_true'] at hw
        have hs : ¬ (c = 0x2C ∨ c = 0x3D) := by
          intro hs
          have := (isSpecial_iff c).2 (Or.inr hs)
          rw [hw.1] at this; cases this
        obtain ⟨buf', hb⟩ := ih1 hw.2 (buf ++ encodeRune c)
        refine ⟨buf', fun tail => ?_⟩
        rw [← hb tail]
        simp [unescapeLoop, h5, hs]
    · intro d r h hd hr buf
      simp only [List.cons.injEq] at h
      obtain ⟨rfl, rfl⟩ := h
      have hs := (isSpecial_iff c).1 hd
      obtain ⟨buf', hb⟩ := ih1 hr (buf ++ encodeRune c)
      refine ⟨buf', fun tail => ?_⟩
      rw [← hb tail]
      simp [unescapeLoop, hs]

theorem unescapeLoop_offending {rs pre : List Nat} {e : GoError} (buf : GoString)
    (h : OffendingAt rs pre e) : unescapeLoop rs false buf = .error e := by
  obtain ⟨hw, hcase⟩ := h
  obtain ⟨buf', hb⟩ := (unescapeLoop_wellEscaped_append pre).1 hw buf
  rcases hcase with ⟨c, rest, hrs, hc, he⟩ | ⟨hrs, he⟩ | ⟨c, rest, hrs, hc, he⟩
  · have hs : ¬ (c = 0x5C ∨ c = 0x2C ∨ c = 0x3D) := by
      rw [← isSpecial_iff, hc]; simp
    rw [hrs, hb, he]
    simp [unescapeLoop, hs]
  · rw [hrs, hb, he]
    rfl
  · have h5 : ¬ c = 0x5C := by omega
    rw [hrs, hb, he]
    simp [unescapeLoop, h5, hc]

theorem wellEscaped_cons_plain {c : Nat} {pre : List Nat} (hc : isSpecial c = false)
    (hp : wellEscaped pre = true) : wellEscaped (c :: pre) = true := by
  have h5 : ¬ c = 0x5C := fun h => by simp [isSpecial, h] at hc
  simp [wellEscaped_plain pre h5, hc, hp]

theorem wellEscaped_cons_escape {d : Nat} {pre : List Nat} (hd : isSpecial d = true)
    (hp : wellEscaped pre = true) : wellEscaped (0x5C :: d :: pre) = true := by
  simp [wellEscaped_backslash_cons, hd, hp]

theorem offendingAt_cons_plain {c : Nat} {rs pre : List Nat} {e : GoError}
    (hc : isSpecial c = false) (h : OffendingAt rs pre e) :
    OffendingAt (c :: rs) (c :: pre) e := by
  obtain ⟨hw, hcase⟩ := h
  refine ⟨wellEscaped_cons_plain hc hw, ?_⟩
  rcases hcase with ⟨c', rest', hrs, hc', he⟩ | ⟨hrs, he⟩ | ⟨c', rest', hrs, hc', he⟩
  · exact Or.inl ⟨c', rest', by simp [hrs], hc', he⟩
  · exact Or.inr (Or.inl ⟨by simp [hrs], he⟩)
  · exact Or.inr (Or.inr ⟨c', rest', by simp [hrs], hc', he⟩)

theorem offendingAt_cons_escape {d : Nat} {rs pre : List Nat} {e : GoError}
    (hd : isSpecial d = true) (h : OffendingAt rs pre e) :
    OffendingAt (0x5C :: d :: rs) (0x5C :: d :: pre) e := by
  obtain ⟨hw, hcase⟩ := h
  refine ⟨wellEscaped_cons_escape hd hw, ?_⟩
  rcases hcase with ⟨c', rest', hrs, hc', he⟩ | ⟨hrs, he⟩ | ⟨c', rest', hrs, hc', he⟩
  · exact Or.inl ⟨c', rest', by simp [hrs], hc', he⟩
  · exact Or.inr (Or.inl ⟨by simp [hrs], he⟩)
  · exact Or.inr (Or.inr ⟨c', rest', by simp [hrs], hc', he⟩)

theorem offending_of_not_wellEscaped : ∀ rs : List Nat, wellEscaped rs = false →
    ∃ pre e, OffendingAt rs pre e
  | [], h => by simp [wellEscaped] at h
  | [c], h => by
    by_cases h5 : c = 0x5C
    · subst h5
      exact ⟨[], _, rfl, Or.inr (Or.inl ⟨rfl, rfl⟩)⟩
    · have hs : isSpecial c = true := by simpa [wellEscaped] using h
      have : c = 0x2C ∨ c = 0x3D := by
        rcases (isSpecial_iff c).1 hs with h | h
        · exact absurd h h5
        · exact h
      exact ⟨[], _, rfl, Or.inr (Or.inr ⟨c, [], rfl, this, rfl⟩)⟩
  | c :: d :: rest, h => by
    by_cases h5 : c = 0x5C
    · subst h5
      cases hd : isSpecial d with
      | false => exact ⟨[], _, rfl, Or.inl ⟨d, rest, rfl, hd, rfl⟩⟩
      | true =>
        have hr : wellEscaped rest = false := by
          simpa [wellEscaped_backslash_cons, hd] using h
        obtain ⟨pre, e, ho⟩ := offending_of_not_wellEscaped rest hr
        exact ⟨_, e, offendingAt_cons_escape hd ho⟩
    · cases hc : isSpecial c with
      | true =>
        have : c = 0x2C ∨ c = 0x3D := by
          rcases (isSpecial_iff c).1 hc with h | h
          · exact absurd h h5
          · exact h
        exact ⟨[], _, rfl, Or.inr (Or.inr ⟨c, d :: rest, rfl, this, rfl⟩)⟩
      | false =>
        have hr : wellEscaped (d :: rest) = false := by
          simpa [wellEscaped_plain _ h5, hc] using h
        obtain ⟨pre, e, ho⟩ := offending_of_not_wellEscaped (d :: rest) hr
        exact ⟨_, e, offendingAt_cons_plain hc ho⟩

theorem unescapeValue_offending {s : GoString} {pre : List Nat} {e : GoError}
    (h : OffendingAt (runes s) pre e) : unescapeValue s = .error e := by
  have hany : (runes s).any isSpecial = true := by
    obtain ⟨_, hcase⟩ := h
    rcases hcase with ⟨c, rest, hrs, _, _⟩ | ⟨hrs, _⟩ | ⟨c, rest, hrs, hc, _⟩
    · rw [hrs]; simp [isSpecial]
    · rw [hrs]; simp [isSpecial]
    · rw [hrs]
      have : isSpecial c = true := (isSpecial_iff c).2 (Or.inr hc)
      simp [this]
  rw [any_special_runes] at hany
  simp only [unescapeValue, hany, Bool.not_true, Bool.false_eq_true, if_false]
  exact unescapeLoop_offending [] h

/-- C14. With the characters of `s` as `range` yields them, `unescapeValue s`
succeeds exactly when they are a concatenation of characters other than backslash,
comma and equals sign and of the escapes backslash-backslash, backslash-comma and
backslash-equals.  Otherwise there is a first offending position, after a
well-escaped prefix, and the error is: `InvalidEscapeSequence` with the backslash
and the next character when a backslash is followed by another character,
`InvalidEscapeSequence` with a single backslash when the string ends in a lone
backslash, `UnescapedRune` with the character at an unescaped comma or equals
sign. -/
theorem unescape_failure_surface (s : GoString) :
    ((∃ v, unescapeValue s = .ok v) ↔ wellEscaped (runes s) = true) ∧
    (∀ pre c rest, wellEscaped pre = true → runes s = pre ++ 0x5C :: c :: rest →
      isSpecial c = false →
      unescapeValue s = .error (.invalidEscapeSequence (encodeRune 0x5C ++ encodeRune c))) ∧
    (∀ pre, wellEscaped pre = true → runes s = pre ++ [0x5C] →
      unescapeValue s = .error (.invalidEscapeSequence (utf8 "\\"))) ∧
    (∀ pre c rest, wellEscaped pre = true → runes s = pre ++ c :: rest →
      (c = 0x2C ∨ c = 0x3D) → unescapeValue s = .error (.unescapedRune c)) ∧
    (wellEscaped (runes s) = false → ∃ pre, wellEscaped pre = true ∧
      ((∃ c rest, runes s = pre ++ 0x5C :: c :: rest ∧ isSpecial c = false) ∨
       runes s = pre ++ [0x5C] ∨
       (∃ c rest, runes s = pre ++ c :: rest ∧ (c = 0x2C ∨ c = 0x3D)))) := by
  refine ⟨?_, ?_, ?_, ?_, ?_⟩
  · by_cases hc : containsSpecial s = true
    · simp only [unescapeValue, hc, Bool.not_true, Bool.false_eq_true, if_false]
      exact (unescapeLoop_ok_iff (runes s) []).1
    · have hc' : containsSpecial s = false := by simpa using hc
      have hw : wellEscaped (runes s) = true :=
        wellEscaped_of_no_special _ (by rw [any_special_runes, hc'])
      simp [unescapeValue, hc', hw]
  · intro pre c rest hw hrs hc
    exact unescapeValue_offending ⟨hw, Or.inl ⟨c, rest, hrs, hc, rfl⟩⟩
  · intro pre hw hrs
    exact unescapeValue_offending (e := .invalidEscapeSequence (utf8 "\\"))
      ⟨hw, Or.inr (Or.inl ⟨hrs, rfl⟩)⟩
  · intro pre c rest hw hrs hc
    exact unescapeValue_offending ⟨hw, Or.inr (Or.inr ⟨c, rest, hrs, hc, rfl⟩)⟩
  · intro hw
    obtain ⟨pre, e, hp, hcase⟩ := offending_of_not_wellEscaped _ hw
    refine ⟨pre, hp, ?_⟩
    rcases hcase with ⟨c, rest, hrs, hc, _⟩ | ⟨hrs, _⟩ | ⟨c, rest, hrs, hc, _⟩
    · exact Or.inl ⟨c, rest, hrs, hc⟩
    · exact Or.inr (Or.inl hrs)
    · exact Or.inr (Or.inr ⟨c, rest, hrs, hc⟩)

theorem unescape_failure_surface_witness :
    (wellEscaped (utf8 "a") = true ∧
      runes (utf8 "a\\b=c") = utf8 "a" ++ 0x5C :: 0x62 :: utf8 "=c" ∧ isSpecial 0x62 = false ∧
      unescapeValue (utf8 "a\\b=c") = .error (.invalidEscapeSequence (utf8 "\\b"))) ∧
    (wellEscaped (utf8 "a\\,") = true ∧ runes (utf8 "a\\,\\") = utf8 "a\\," ++ [0x5C] ∧
      unescapeValue (utf8 "a\\,\\") = .error (.invalidEscapeSequence (utf8 "\\"))) ∧
    (wellEscaped (utf8 "a\\\\") = true ∧
      runes (utf8 "a\\\\,b") = utf8 "a\\\\" ++ 0x2C :: utf8 "b" ∧
      unescapeValue (utf8 "a\\\\,b") = .error (.unescapedRune 0x2C)) ∧
    (wellEscaped (runes (utf8 "x\\=y\\\\")) = true ∧
      unescapeValue (utf8 "x\\=y\\\\") = .ok (utf8 "x=y\\")) :=
  ⟨⟨rfl, rfl, rfl,
      (unescape_failure_surface (utf8 "a\\b=c")).2.1 (utf8 "a") 0x62 (utf8 "=c") rfl rfl rfl⟩,
    ⟨rfl, rfl, (unescape_failure_surface (utf8 "a\\,\\")).2.2.1 (utf8 "a\\,") rfl rfl⟩,
    ⟨rfl, rfl, (unescape_failure_surface (utf8 "a\\\\,b")).2.2.2.1 (utf8 "a\\\\") 0x2C
      (utf8 "b") rfl rfl (Or.inl rfl)⟩,
    ⟨rfl, rfl⟩⟩


/-! ## Empty terms -/

theorem scanState_of_no_special : ∀ (s : GoString), containsSpecial s = false →
    scanState false s = false
  | [], _ => rfl
  | b :: s, h => by
    simp only [containsSpecial, List.any_cons, Bool.or_eq_false_iff,
      decide_eq_false_iff_not] at h
    have h5 : decide (b = 0x5C) = false := by simpa using h.1.1.1
    simp only [scanState, h5]
    exact scanState_of_no_special s h.2

theorem unescapeLoop_scanState : ∀ (rest : GoString) (i skip : Nat) (isSlash : Bool)
    (buf v : GoString), SkipOK skip rest → (0 < skip → isSlash = false) →
    unescapeLoop ((rangeFrom i skip rest).map Prod.snd) isSlash buf = .ok v →
    scanState isSlash rest = false
  | [], _, _, isSlash, _, _, _, _, h => by
    cases isSlash with
    | true => simp [rangeFrom, unescapeLoop] at h
    | false => rfl
  | b :: rest, i, skip + 1, isSlash, buf, v, hk, hs, h => by
    obtain ⟨hb, hk'⟩ := skipOK_succ hk
    have : isSlash = false := hs (by omega)
    subst this
    have h5 : decide (b = 0x5C) = false := by simp; omega
    simp only [rangeFrom] at h
    simp only [scanState, h5]
    exact unescapeLoop_scanState rest (i + 1) skip false buf v hk' (fun _ => rfl) h
  | b :: rest, i, 0, isSlash, buf, v, _, _, h => by
    simp only [rangeFrom, List.map_cons, unescapeLoop] at h
    by_cases hb : b < 0x80
    · rw [decodeRune_ascii rest hb] at h
      simp only [Nat.sub_self] at h
      cases isSlash with
      | true =>
        simp only [if_true] at h
        split_ifs at h
        simp only [scanState]
        exact unescapeLoop_scanState rest (i + 1) 0 false _ v (skipOK_zero rest) (by simp) h
      | false =>
        simp only [Bool.false_eq_true, if_false] at h
        split_ifs at h with h5 h23
        · simp only [scanState, h5, decide_True]
          exact unescapeLoop_scanState rest (i + 1) 0 true _ v (skipOK_zero rest) (by simp) h
        · have h5' : decide (b = 0x5C) = false := by simpa using h5
          simp only [scanState, h5']
          exact unescapeLoop_scanState rest (i + 1) 0 false _ v (skipOK_zero rest)
            (by simp) h
    · have hc := decodeRune_high rest (show 0x80 ≤ b by omega)
      have hn5 : ¬ (decodeRune (b :: rest)).1 = 0x5C := by omega
      have hn : ¬ ((decodeRune (b :: rest)).1 = 0x5C ∨ (decodeRune (b :: rest)).1 = 0x2C
          ∨ (decodeRune (b :: rest)).1 = 0x3D) := by omega
      have hn23 : ¬ ((decodeRune (b :: rest)).1 = 0x2C ∨ (decodeRune (b :: rest)).1 = 0x3D) := by
        omega
      cases isSlash with
      | true => simp [hn] at h
      | false =>
        simp only [Bool.false_eq_true, if_false, hn5, hn23] at h
        have h5 : decide (b = 0x5C) = false := by simp; omega
        simp only [scanState, h5]
        exact unescapeLoop_scanState rest (i + 1) _ false _ v (decodeRune_skipOK b rest)
          (fun _ => rfl) h

theorem unescapeValue_scanState {rhs v : GoString} (h : unescapeValue rhs = .ok v) :
    scanState false rhs = false := by
  simp only [unescapeValue] at h
  by_cases hc : containsSpecial rhs = true
  · simp only [hc, Bool.not_true, Bool.false_eq_true, if_false, runes, range] at h
    exact unescapeLoop_scanState rhs 0 0 false [] v (skipOK_zero rhs) (by simp) h
  · exact scanState_of_no_special rhs (by simpa using hc)

/-- The scan of `splitTerms` is outside an escape at the end of every term for
which the parser builds a child. -/
theorem termItem_scanState {p : GoString} {it : Selector} (h : termItem p = some it) :
    scanState false p = false ∧ isTerm it = true := by
  simp only [termItem, splitTerm_eq] at h
  cases hsp : splitTermB [] p with
  | notFound => simp [hsp] at h
  | panic => simp [hsp] at h
  | found lhs op rhs =>
    simp only [hsp] at h
    obtain ⟨mid, hl, _, hs⟩ := splitTermB_found p [] lhs op rhs hsp
    cases hu : unescapeValue rhs with
    | error e => simp [hu] at h
    | ok v =>
      simp only [hu] at h
      have hr := unescapeValue_scanState hu
      have hit : isTerm it = true := by
        split_ifs at h <;> simp only [Option.some.injEq] at h <;> subst h <;> rfl
      refine ⟨?_, hit⟩
      rcases hs with ⟨_, hp⟩ | ⟨_, hp⟩ | ⟨_, hp, _, _⟩
      · have : p = mid ++ ([0x21, 0x3D] ++ rhs) := by simp [hp]
        rw [this, scanState_append, scanState_append,
          scanState_two _ _ _ (by decide) (by decide), hr]
      · have : p = mid ++ ([0x3D, 0x3D] ++ rhs) := by simp [hp]
        rw [this, scanState_append, scanState_append,
          scanState_two _ _ _ (by decide) (by decide), hr]
      · have : p = mid ++ ([0x3D] ++ rhs) := by simp [hp]
        rw [this, scanState_append, scanState_append, scanState_one _ _ (by decide), hr]

theorem termItems_mem : ∀ (parts : List GoString) (its : List Selector),
    termItems parts = some its → ∀ p ∈ parts, p ≠ [] → ∃ it, termItem p = some it
  | [], _, _, p, hp, _ => by simp at hp
  | q :: parts, its, h, p, hp, hne => by
    simp only [termItems] at h
    split_ifs at h with hq
    · rcases List.mem_cons.1 hp with hp | hp
      · exact absurd (hp.trans hq) hne
      · exact termItems_mem parts its h p hp hne
    · cases hti : termItem q with
      | none => simp [hti] at h
      | some it =>
        cases hts : termItems parts with
        | none => simp [hti, hts] at h
        | some its' =>
          rcases List.mem_cons.1 hp with hp | hp
          · exact ⟨it, hp ▸ hti⟩
          · exact termItems_mem parts its' hts p hp hne

theorem termItems_total : ∀ (parts : List GoString),
    (∀ p ∈ parts, p ≠ [] → ∃ it, termItem p = some it) → ∃ its, termItems parts = some its
  | [], _ => ⟨[], rfl⟩
  | q :: parts, h => by
    obtain ⟨its, hits⟩ := termItems_total parts (fun p hp => h p (by simp [hp]))
    simp only [termItems]
    split_ifs with hq
    · exact ⟨its, hits⟩
    · obtain ⟨it, hit⟩ := h q (by simp) hq
      exact ⟨it :: its, by simp [hit, hits]⟩

theorem termItems_isTerm : ∀ (parts : List GoString) (its : List Selector),
    termItems parts = some its → ∀ it ∈ its, isTerm it = true
  | [], its, h, it, hit => by
    simp only [termItems, Option.some.injEq] at h
    subst h
    simp at hit
  | q :: parts, its, h, it, hit => by
    simp only [termItems] at h
    split_ifs at h with hq
    · exact termItems_isTerm parts its h it hit
    · cases hti : termItem q with
      | none => simp [hti] at h
      | some it0 =>
        cases hts : termItems parts with
        | none => simp [hti, hts] at h
        | some its' =>
          simp only [hti, hts, Option.some.injEq] at h
          subst h
          rcases List.mem_cons.1 hit with hit | hit
          · exact hit ▸ (termItem_scanState hti).2
          · exact termItems_isTerm parts its' hts it hit

theorem termItems_filter : ∀ (parts : List GoString),
    termItems (parts.filter (fun p => !decide (p = []))) = termItems parts
  | [] => rfl
  | q :: parts => by
    by_cases hq : q = []
    · simp [List.filter_cons, hq, termItems, termItems_filter parts]
    · simp [List.filter_cons, hq, termItems, termItems_filter parts]

theorem filter_sortStrings (q : GoString → Bool) (l : List GoString) :
    (sortStrings l).filter q = sortStrings (l.filter q) :=
  haveI := strLe_antisymm
  List.eq_of_perm_of_sorted
    (((sortStrings_perm l).filter q).trans (sortStrings_perm (l.filter q)).symm)
    (List.Pairwise.filter _ (sortStrings_sorted l)) (sortStrings_sorted _)

theorem splitB_append_comma : ∀ (a rest : GoString) (st : Bool), scanState st a = false →
    splitB st (a ++ 0x2C :: rest) = splitB st a ++ splitB false rest
  | [], rest, st, h => by
    simp only [scanState] at h
    subst h
    simp [splitB]
  | b :: a, rest, true, h => by
    simp only [scanState] at h
    have ih := splitB_append_comma a rest false h
    simp only [List.cons_append, splitB, List.append_eq, ih]
    cases hl : splitB false a with
    | nil => exact absurd hl (splitB_ne_nil _ _)
    | cons x xs => simp [appendHead]
  | b :: a, rest, false, h => by
    simp only [scanState] at h
    by_cases hb : b = 0x2C
    · subst hb
      have ih := splitB_append_comma a rest false (by simpa using h)
      simp [splitB, ih]
    · have ih := splitB_append_comma a rest _ h
      simp only [List.cons_append, splitB, List.append_eq, if_neg hb, ih]
      cases hl : splitB (decide (b = 0x5C)) a with
      | nil => exact absurd hl (splitB_ne_nil _ _)
      | cons x xs => simp [appendHead]

theorem scanState_of_terms : ∀ (s : GoString) (st : Bool),
    (∀ x, (splitB st s).head? = some x → scanState st x = false) →
    (∀ p ∈ (splitB st s).tail, scanState false p = false) → scanState st s = false
  | [], st, h1, _ => by
    have := h1 [] (by simp [splitB])
    simpa [scanState] using this
  | b :: rest, true, h1, h2 => by
    simp only [splitB] at h1 h2
    simp only [scanState]
    cases hl : splitB false rest with
    | nil => exact absurd hl (splitB_ne_nil _ _)
    | cons x xs =>
      rw [hl] at h1 h2
      simp only [appendHead, List.head?_cons, Option.some.injEq, List.tail_cons,
        List.singleton_append] at h1 h2
      apply scanState_of_terms rest false
      · intro y hy
        rw [hl] at hy
        simp only [List.head?_cons, Option.some.injEq] at hy
        subst hy
        simpa [scanState] using h1 _ rfl
      · intro p hp
        rw [hl] at hp
        exact h2 p (by simpa using hp)
  | b :: rest, false, h1, h2 => by
    simp only [splitB] at h1 h2
    simp only [scanState]
    by_cases hb : b = 0x2C
    · subst hb
      simp only [if_true, List.tail_cons] at h2
      have hd : decide ((0x2C : Nat) = 0x5C) = false := by decide
      rw [hd]
      cases hl : splitB false rest with
      | nil => exact absurd hl (splitB_ne_nil _ _)
      | cons x xs =>
        rw [hl] at h2
        apply scanState_of_terms rest false
        · intro y hy
          rw [hl] at hy
          simp only [List.head?_cons, Option.some.injEq] at hy
          subst hy
          exact h2 _ (by simp)
        · intro p hp
          rw [hl] at hp
          exact h2 p (by simp at hp; simp [hp])
    · simp only [if_neg hb] at h1 h2
      cases hl : splitB (decide (b = 0x5C)) rest with
      | nil => exact absurd hl (splitB_ne_nil _ _)
      | cons x xs =>
        rw [hl] at h1 h2
        simp only [appendHead, List.head?_cons, Option.some.injEq, List.tail_cons,
          List.singleton_append] at h1 h2
        apply scanState_of_terms rest _
        · intro y hy
          rw [hl] at hy
          simp only [List.head?_cons, Option.some.injEq] at hy
          subst hy
          simpa [scanState] using h1 _ rfl
        · intro p hp
          rw [hl] at hp
          exact h2 p (by simpa using hp)

theorem accepted_terms {t : GoString} (h : ∃ S, ParseSelector t = .ok S) :
    ∀ p ∈ splitB false t, p ≠ [] → ∃ it, termItem p = some it := by
  obtain ⟨S, hS⟩ := h
  intro p hp hne
  have ht : t ≠ [] := by
    rintro rfl
    simp only [splitB, List.mem_singleton] at hp
    exact hne hp
  cases hpi : parseItems t (sortStrings (splitTerms t)) [] with
  | err e => simp [ParseSelector, parseSelector, hpi] at hS
  | panic => simp [ParseSelector, parseSelector, hpi] at hS
  | ok items =>
    obtain ⟨its, hti, _⟩ := parseItems_ok _ _ _ _ hpi
    have hmem : p ∈ sortStrings (splitTerms t) := by
      rw [(sortStrings_perm _).mem_iff, splitTerms_eq, if_neg ht]
      exact hp
    exact termItems_mem _ its hti p hmem hne

theorem scanState_accepted {t : GoString} (h : ∃ S, ParseSelector t = .ok S) :
    scanState false t = false := by
  have hall : ∀ p ∈ splitB false t, scanState false p = false := by
    intro p hp
    by_cases hne : p = []
    · subst hne; rfl
    · obtain ⟨it, hit⟩ := accepted_terms h p hp hne
      exact (termItem_scanState hit).1
  apply scanState_of_terms t false
  · intro x hx
    exact hall x (List.mem_of_mem_head? hx)
  · intro p hp
    exact hall p (List.mem_of_mem_tail hp)

/-- C15. For two selector texts that `ParseSelector` accepts, the text with two
commas between them and the text with one comma between them are parsed to the
same selector. -/
theorem empty_terms_dropped (t1 t2 : GoString) (h1 : ∃ S, ParseSelector t1 = .ok S)
    (h2 : ∃ S, ParseSelector t2 = .ok S) :
    ∃ S, ParseSelector (t1 ++ utf8 ",," ++ t2) = .ok S ∧
      ParseSelector (t1 ++ utf8 "," ++ t2) = .ok S := by
  have hc1 : utf8 "," = [0x2C] := rfl
  have hc2 : utf8 ",," = [0x2C, 0x2C] := rfl
  have hs1 := scanState_accepted h1
  have hT : splitTerms (t1 ++ utf8 "," ++ t2) = splitB false t1 ++ splitB false t2 := by
    rw [splitTerms_eq, if_neg (by simp [hc1]), hc1, List.append_assoc]
    exact splitB_append_comma t1 t2 false hs1
  have hT' : splitTerms (t1 ++ utf8 ",," ++ t2)
      = splitB false t1 ++ [] :: splitB false t2 := by
    rw [splitTerms_eq, if_neg (by simp [hc2]), hc2, List.append_assoc]
    have := splitB_append_comma t1 (0x2C :: t2) false hs1
    simpa [splitB] using this
  have hacc : ∀ p ∈ sortStrings (splitB false t1 ++ splitB false t2), p ≠ [] →
      ∃ it, termItem p = some it := by
    intro p hp hne
    rw [(sortStrings_perm _).mem_iff, List.mem_append] at hp
    rcases hp with hp | hp
    · exact accepted_terms h1 p hp hne
    · exact accepted_terms h2 p hp hne
  obtain ⟨its, hits⟩ := termItems_total _ hacc
  have hits' : termItems (sortStrings (splitB false t1 ++ [] :: splitB false t2))
      = some its := by
    have e : ∀ l : List GoString, termItems (sortStrings l)
        = termItems (sortStrings (l.filter (fun p => !decide (p = [])))) := by
      intro l
      rw [← termItems_filter, filter_sortStrings]
    have e3 : (splitB false t1 ++ [] :: splitB false t2).filter (fun p => !decide (p = []))
        = (splitB false t1 ++ splitB false t2).filter (fun p => !decide (p = [])) := by
      simp [List.filter_append, List.filter_cons]
    rw [e, e3, ← e, hits]
  have hp := parseItems_of_termItems (t1 ++ utf8 "," ++ t2) _ [] its hits
  have hp' := parseItems_of_termItems (t1 ++ utf8 ",," ++ t2) _ [] its hits'
  rw [← hT] at hp
  rw [← hT'] at hp'
  simp only [List.nil_append] at hp hp'
  obtain ⟨S, hS, _⟩ := parseSelector_of_items hp (termItems_isTerm _ its hits)
  refine ⟨S, ?_, hS⟩
  rw [← hS]
  simp only [ParseSelector, parseSelector, hp, hp']

theorem empty_terms_dropped_witness :
    (∃ S, ParseSelector (utf8 "a=1") = .ok S) ∧ (∃ S, ParseSelector (utf8 "b=2") = .ok S) ∧
    (∃ S, ParseSelector (utf8 "a=1" ++ utf8 ",," ++ utf8 "b=2") = .ok S ∧
      ParseSelector (utf8 "a=1" ++ utf8 "," ++ utf8 "b=2") = .ok S) ∧
    ParseSelector (utf8 "a=1,,b=2")
      = .ok (AndTerm [OneTermEqualSelector (utf8 "a") (utf8 "1"),
          OneTermEqualSelector (utf8 "b") (utf8 "2")]) ∧
    (AndTerm [OneTermEqualSelector (utf8 "a") (utf8 "1"),
      OneTermEqualSelector (utf8 "b") (utf8 "2")]).String = utf8 "a=1,b=2" :=
  ⟨⟨_, rfl⟩, ⟨_, rfl⟩,
    empty_terms_dropped (utf8 "a=1") (utf8 "b=2") ⟨_, rfl⟩ ⟨_, rfl⟩, rfl, rfl⟩


/-! ## Deep copies -/

mutual
theorem toValue_matches : ∀ (S : Selector) (R : Fields),
    S.toValue.Matches R = some (S.Matches R)
  | .nothing, _ => rfl
  | .hasTerm _ _, _ => rfl
  | .notHasTerm _ _, _ => rfl
  | .andTerm cs, R => by
    simp only [Selector.toValue, SelectorValue.Matches, Selector.Matches]
    exact toValueAll_matches cs R
theorem toValueAll_matches : ∀ (cs : List Selector) (R : Fields),
    SelectorValue.matchesAll (Selector.toValueAll cs) R = some (Selector.matchesAll cs R)
  | [], _ => rfl
  | c :: cs, R => by
    simp only [Selector.toValueAll, SelectorValue.matchesAll, Selector.matchesAll,
      toValue_matches c R]
    cases c.Matches R
    · rfl
    · exact toValueAll_matches cs R
end

mutual
theorem toValue_requirements : ∀ (S : Selector),
    S.toValue.Requirements = some S.Requirements
  | .nothing => rfl
  | .hasTerm _ _ => rfl
  | .notHasTerm _ _ => rfl
  | .andTerm cs => by
    simp only [Selector.toValue, SelectorValue.Requirements, Selector.Requirements]
    exact toValueAll_requirements cs
theorem toValueAll_requirements : ∀ (cs : List Selector),
    SelectorValue.requirementsAll (Selector.toValueAll cs)
      = some (Selector.requirementsAll cs)
  | [] => rfl
  | c :: cs => by
    simp only [Selector.toValueAll, SelectorValue.requirementsAll, Selector.requirementsAll,
      toValue_requirements c, toValueAll_requirements cs]
end

mutual
theorem toValue_string : ∀ (S : Selector), S.toValue.String = some S.String
  | .nothing => rfl
  | .hasTerm _ _ => rfl
  | .notHasTerm _ _ => rfl
  | .andTerm cs => by
    simp only [Selector.toValue, SelectorValue.String, Selector.String,
      toValueAll_string cs]
theorem toValueAll_string : ∀ (cs : List Selector),
    SelectorValue.stringAll (Selector.toValueAll cs) = some (Selector.stringAll cs)
  | [] => rfl
  | c :: cs => by
    simp only [Selector.toValueAll, SelectorValue.stringAll, Selector.stringAll,
      toValue_string c, toValueAll_string cs]
end

mutual
theorem deepCopy_of_noEmptyInside : ∀ (S : Selector), S.noEmptyInside = true →
    S.DeepCopy = S.toValue
  | .nothing, _ => rfl
  | .hasTerm _ _, _ => rfl
  | .notHasTerm _ _, _ => rfl
  | .andTerm cs, h => by
    simp only [Selector.noEmptyInside, Bool.and_eq_true, Bool.not_eq_true'] at h
    simp only [Selector.DeepCopy, h.1, Bool.false_eq_true, if_false, Selector.toValue,
      deepCopyAll_of_noEmptyInside cs h.2]
theorem deepCopyAll_of_noEmptyInside : ∀ (cs : List Selector),
    Selector.noEmptyInsideAll cs = true → Selector.deepCopyAll cs = Selector.toValueAll cs
  | [], _ => rfl
  | c :: cs, h => by
    simp only [Selector.noEmptyInsideAll, Bool.and_eq_true] at h
    simp only [Selector.deepCopyAll, Selector.toValueAll, deepCopy_of_noEmptyInside c h.1,
      deepCopyAll_of_noEmptyInside cs h.2]
end

/-- C20. The copy of the conjunction of the equality `(a, 1)` and `Everything`,
which is not `Empty`, holds a nil child: `Matches` on a record with `a = 1`,
`String` and `Requirements` panic on the copy, while the original matches the
record, is rendered `a=1,` and has one requirement.  The copy behaves as the
original when no conjunction inside the selector is `Empty`. -/
theorem deep_copy_nested_empty :
    ((AndTerm [OneTermEqualSelector (utf8 "a") (utf8 "1"), Everything]).Empty = false ∧
      (AndTerm [OneTermEqualSelector (utf8 "a") (utf8 "1"), Everything]).DeepCopy
        = .andTerm [.hasTerm (utf8 "a") (utf8 "1"), .nil] ∧
      (AndTerm [OneTermEqualSelector (utf8 "a") (utf8 "1"), Everything]).Matches
        (Set.asFields [(utf8 "a", utf8 "1")]) = true ∧
      (AndTerm [OneTermEqualSelector (utf8 "a") (utf8 "1"), Everything]).DeepCopy.Matches
        (Set.asFields [(utf8 "a", utf8 "1")]) = none ∧
      (AndTerm [OneTermEqualSelector (utf8 "a") (utf8 "1"), Everything]).String
        = utf8 "a=1," ∧
      (AndTerm [OneTermEqualSelector (utf8 "a") (utf8 "1"), Everything]).DeepCopy.String
        = none ∧
      (AndTerm [OneTermEqualSelector (utf8 "a") (utf8 "1"), Everything]).Requirements
        = [⟨.Equals, utf8 "a", utf8 "1"⟩] ∧
      (AndTerm [OneTermEqualSelector (utf8 "a") (utf8 "1"), Everything]).DeepCopy.Requirements
        = none) ∧
    (∀ S : Selector, S.noEmptyInside = true →
      (∀ R : Fields, S.DeepCopy.Matches R = some (S.Matches R)) ∧
      S.DeepCopy.String = some S.String ∧
      S.DeepCopy.Requirements = some S.Requirements) := by
  refine ⟨⟨rfl, rfl, rfl, rfl, rfl, rfl, rfl, rfl⟩, ?_⟩
  intro S h
  rw [deepCopy_of_noEmptyInside S h]
  exact ⟨toValue_matches S, toValue_string S, toValue_requirements S⟩

theorem deep_copy_nested_empty_witness :
    (AndTerm [OneTermEqualSelector (utf8 "a") (utf8 "1"),
      AndTerm [OneTermNotEqualSelector (utf8 "b") (utf8 "2"), Nothing]]).noEmptyInside = true ∧
    (AndTerm [OneTermEqualSelector (utf8 "a") (utf8 "1"),
      AndTerm [OneTermNotEqualSelector (utf8 "b") (utf8 "2"), Nothing]]).DeepCopy.String
      = some (utf8 "a=1,b!=2,") :=
  ⟨rfl, (deep_copy_nested_empty.2 (AndTerm [OneTermEqualSelector (utf8 "a") (utf8 "1"),
    AndTerm [OneTermNotEqualSelector (utf8 "b") (utf8 "2"), Nothing]]) rfl).2.1⟩


/-! ## Requirements and rendering of terms -/

theorem requirementsAll_eq_flatMap (cs : List Selector) :
    Selector.requirementsAll cs = cs.flatMap Selector.Requirements := by
  induction cs with
  | nil => rfl
  | cons c cs ih => simp [Selector.requirementsAll, ih]

/-- C21. The requirements of a conjunction of primitive terms, each given by its
kind (`true` for an equality built by `OneTermEqualSelector`, `false` for an
inequality built by `OneTermNotEqualSelector`), field and value, are one entry
per term, in child order, with the term's field and value and the operator
`Equals` or `NotEquals`; nothing is dropped or merged. -/
theorem requirements_preserved (ts : List (Bool × GoString × GoString)) :
    (AndTerm (ts.map (fun t =>
        if t.1 then OneTermEqualSelector t.2.1 t.2.2
        else OneTermNotEqualSelector t.2.1 t.2.2))).Requirements
      = ts.map (fun t => ⟨if t.1 then .Equals else .NotEquals, t.2.1, t.2.2⟩) ∧
    (AndTerm (ts.map (fun t =>
        if t.1 then OneTermEqualSelector t.2.1 t.2.2
        else OneTermNotEqualSelector t.2.1 t.2.2))).Requirements.length = ts.length := by
  have key : (AndTerm (ts.map (fun t =>
        if t.1 then OneTermEqualSelector t.2.1 t.2.2
        else OneTermNotEqualSelector t.2.1 t.2.2))).Requirements
      = ts.map (fun t => ⟨if t.1 then .Equals else .NotEquals, t.2.1, t.2.2⟩) := by
    simp only [AndTerm, Selector.Requirements, OneTermEqualSelector, OneTermNotEqualSelector]
    induction ts with
    | nil => rfl
    | cons t ts ih =>
      obtain ⟨k, f, v⟩ := t
      cases k <;>
        simp [Selector.requirementsAll, OneTermEqualSelector, OneTermNotEqualSelector,
          Selector.Requirements, ih]
  exact ⟨key, by rw [key]; simp⟩

/-- C22. An equality is rendered as its field, `=` and the escaped value, an
inequality as its field, `!=` and the escaped value; escaping copies the value
byte by byte, writing one backslash before every backslash, comma and equals
sign. -/
theorem rendering_of_terms (f v : GoString) :
    (OneTermEqualSelector f v).String = f ++ utf8 "=" ++ escapeValue v ∧
    (OneTermNotEqualSelector f v).String = f ++ utf8 "!=" ++ escapeValue v ∧
    escapeValue [] = [] ∧
    (∀ b w, escapeValue (b :: w)
      = (if b = 0x5C ∨ b = 0x2C ∨ b = 0x3D then [0x5C, b] else [b]) ++ escapeValue w) ∧
    (∀ a b, escapeValue (a ++ b) = escapeValue a ++ escapeValue b) ∧
    (escapeValue v).length = v.length + v.countP isSpecial ∧
    escapeValue (utf8 "a\\b,c=d") = utf8 "a\\\\b\\,c\\=d" := by
  refine ⟨rfl, rfl, rfl, escapeValue_cons, escapeValue_append, ?_, rfl⟩
  induction v with
  | nil => rfl
  | cons b v ih =>
    rw [escapeValue_cons, List.length_append, ih, List.countP_cons]
    by_cases hb : b = 0x5C ∨ b = 0x2C ∨ b = 0x3D
    · have : isSpecial b = true := (isSpecial_iff b).2 hb
      simp [if_pos hb, this]; omega
    · have : isSpecial b = false := by rw [← Bool.not_eq_true, isSpecial_iff]; exact hb
      simp [if_neg hb, this]; omega

/-! ## Records as selectors and as text -/

/-- C23. The selector built from a record matches a record `R` exactly when `R`
gives, for every entry of the record, the value of the entry, whatever the order
in which the entries are iterated; the empty record gives `Everything`, which
matches every record, and a record with one entry gives the equality of that
entry. -/
theorem selector_from_set (S : Set) (R : Fields) :
    ((SelectorFromSet S).Matches R = true ↔ ∀ e ∈ S, R.Get e.1 = e.2) ∧
    (∀ S' : Set, S.Perm S' → (SelectorFromSet S').Matches R = (SelectorFromSet S).Matches R) ∧
    SelectorFromSet [] = Everything ∧ Everything.Matches R = true ∧
    (∀ k v, SelectorFromSet [(k, v)] = OneTermEqualSelector k v) ∧
    S.AsSelector = SelectorFromSet S := by
  have key : ∀ T : Set, (SelectorFromSet T).Matches R = true ↔ ∀ e ∈ T, R.Get e.1 = e.2 := by
    intro T
    have hall : Selector.matchesAll (T.map (fun e => Selector.hasTerm e.1 e.2)) R = true ↔
        ∀ e ∈ T, R.Get e.1 = e.2 := by
      rw [matchesAll_iff]
      constructor
      · intro h e he
        have := h (.hasTerm e.1 e.2) (List.mem_map.2 ⟨e, he, rfl⟩)
        simpa [Selector.Matches] using this
      · intro h c hc
        obtain ⟨e, he, rfl⟩ := List.mem_map.1 hc
        simpa [Selector.Matches] using h e he
    cases T with
    | nil => simp [SelectorFromSet, Selector.Matches, Selector.matchesAll]
    | cons e T =>
      cases T with
      | nil => simp [SelectorFromSet, Selector.Matches]
      | cons e2 T =>
        simpa [SelectorFromSet, Selector.Matches] using hall
  refine ⟨key S, ?_, rfl, rfl, fun _ _ => rfl, rfl⟩
  intro S' hp
  have h1 := key S
  have h2 := key S'
  have h3 : (∀ e ∈ S', R.Get e.1 = e.2) ↔ ∀ e ∈ S, R.Get e.1 = e.2 :=
    ⟨fun h e he => h e (hp.mem_iff.1 he), fun h e he => h e (hp.mem_iff.2 he)⟩
  cases ha : (SelectorFromSet S').Matches R <;> cases hb : (SelectorFromSet S).Matches R
  · rfl
  · exact absurd ((h2.2 (h3.2 (h1.1 hb))).symm.trans ha) (by simp)
  · exact absurd ((h1.2 (h3.1 (h2.1 ha))).symm.trans hb) (by simp)
  · rfl

theorem selector_from_set_witness :
    List.Perm [(utf8 "a", utf8 "1"), (utf8 "b", utf8 "2")]
      [(utf8 "b", utf8 "2"), (utf8 "a", utf8 "1")] ∧
    (SelectorFromSet [(utf8 "b", utf8 "2"), (utf8 "a", utf8 "1")]).Matches
        (Set.asFields [(utf8 "a", utf8 "1"), (utf8 "b", utf8 "2"), (utf8 "c", utf8 "3")])
      = (SelectorFromSet [(utf8 "a", utf8 "1"), (utf8 "b", utf8 "2")]).Matches
        (Set.asFields [(utf8 "a", utf8 "1"), (utf8 "b", utf8 "2"), (utf8 "c", utf8 "3")]) ∧
    (SelectorFromSet [(utf8 "a", utf8 "1"), (utf8 "b", utf8 "2")]).Matches
        (Set.asFields [(utf8 "a", utf8 "1"), (utf8 "b", utf8 "2"), (utf8 "c", utf8 "3")])
      = true :=
  ⟨List.Perm.swap _ _ _,
    (selector_from_set [(utf8 "a", utf8 "1"), (utf8 "b", utf8 "2")]
      (Set.asFields [(utf8 "a", utf8 "1"), (utf8 "b", utf8 "2"), (utf8 "c", utf8 "3")])).2.1
      _ (List.Perm.swap _ _ _), rfl⟩

/-- C24. The text of a record is the list of the strings `k=v` of its entries, in
ascending order and joined by commas, values written as they are; it does not
depend on the order in which the entries are iterated. -/
theorem set_string (S : Set) :
    (∃ L : List GoString, L.Perm (S.map (fun e => e.1 ++ utf8 "=" ++ e.2)) ∧
      L.Sorted (fun a b => strLe a b = true) ∧ Set.String S = join (utf8 ",") L) ∧
    (∀ S' : Set, S.Perm S' → Set.String S' = Set.String S) ∧
    Set.String [(utf8 "b", utf8 "1,2"), (utf8 "a", utf8 "x=y")] = utf8 "a=x=y,b=1,2" := by
  refine ⟨⟨_, sortStrings_perm _, sortStrings_sorted _, rfl⟩, ?_, rfl⟩
  intro S' hp
  simp only [Set.String]
  rw [sortStrings_eq_of_perm (hp.map _).symm]

theorem set_string_witness :
    List.Perm [(utf8 "a", utf8 "1"), (utf8 "b", utf8 "2")]
      [(utf8 "b", utf8 "2"), (utf8 "a", utf8 "1")] ∧
    Set.String [(utf8 "b", utf8 "2"), (utf8 "a", utf8 "1")]
      = Set.String [(utf8 "a", utf8 "1"), (utf8 "b", utf8 "2")] ∧
    Set.String [(utf8 "a", utf8 "1"), (utf8 "b", utf8 "2")] = utf8 "a=1,b=2" :=
  ⟨List.Perm.swap _ _ _,
    (set_string [(utf8 "a", utf8 "1"), (utf8 "b", utf8 "2")]).2.1 _ (List.Perm.swap _ _ _),
    rfl⟩


/-! ## The lookahead of `splitTerm` -/

theorem splitTermB_panic : ∀ (f pre : GoString), 0x3D ∉ f → f.getLast? ≠ some 0x21 →
    splitTermB pre (f ++ [0x3D]) = .panic
  | [], _, _, _ => by simp [splitTermB]
  | b :: f, pre, h, hl => by
    have hb : ¬ b = 0x3D := fun hb => h (by simp [hb])
    have hf : 0x3D ∉ f := fun hm => h (List.mem_cons_of_mem _ hm)
    have hh : ¬ (b = 0x21 ∧ (f ++ [0x3D]).head? = some 0x3D) := by
      rintro ⟨hb1, h2⟩
      cases f with
      | nil => exact hl (by simp [hb1])
      | cons c f =>
        have hc : c = 0x3D := by simpa using h2
        exact hf (by simp [hc])
    have hl' : f.getLast? ≠ some 0x21 := by
      cases f with
      | nil => simp
      | cons c f => simpa [List.getLast?_cons_cons] using hl
    have ih := splitTermB_panic f (pre ++ [b]) hf hl'
    simp only [List.cons_append, splitTermB, List.append_eq, hb, if_false]
    rw [if_neg hh]
    exact ih

theorem not_mem_of_splitTermB_notFound : ∀ (s pre : GoString),
    splitTermB pre s = .notFound → 0x3D ∉ s
  | [], _, _ => by simp
  | b :: rest, pre, h => by
    simp only [splitTermB] at h
    split_ifs at h with h1 h2
    · cases rest with
      | nil => simp at h
      | cons b1 rest1 =>
        simp only at h
        split_ifs at h
    · have := not_mem_of_splitTermB_notFound rest _ h
      simp only [List.mem_cons, not_or]
      exact ⟨fun e => h2 e.symm, this⟩

/-- C26. The parser is not total: in `splitTerm` a term of a field without `=`
and not ending in `!`, followed by one `=`, has its operator at the last byte,
the lookup `term[i+1]` is out of range and the call panics; so `ParseSelector`
returns neither a selector nor an error for `a=` and for `x=1,a=`. -/
theorem parser_lookahead_panics (f : GoString) (hf : 0x3D ∉ f)
    (hl : f.getLast? ≠ some 0x21) :
    splitTerm (f ++ utf8 "=") = .panic ∧
    (f ++ utf8 "=").get? (f.length + 1) = none ∧
    ParseSelector (utf8 "a=") = .panic ∧
    (∀ S, ParseSelector (utf8 "a=") ≠ .ok S) ∧
    (∀ e, ParseSelector (utf8 "a=") ≠ .err e) ∧
    ParseSelector (utf8 "x=1,a=") = .panic := by
  refine ⟨?_, ?_, rfl, ?_, ?_, rfl⟩
  · rw [splitTerm_eq]
    exact splitTermB_panic f [] hf hl
  · rw [List.get?_eq_none]
    simp [utf8, utf8Chars, encodeRune]
  · intro S h
    have h2 : ParseSelector (utf8 "a=") = .panic := rfl
    rw [h2] at h
    cases h
  · intro e h
    have h2 : ParseSelector (utf8 "a=") = .panic := rfl
    rw [h2] at h
    cases h

theorem parser_lookahead_panics_witness :
    0x3D ∉ utf8 "a" ∧ (utf8 "a").getLast? ≠ some 0x21 ∧
    splitTerm (utf8 "a" ++ utf8 "=") = .panic :=
  ⟨by decide, by decide, (parser_lookahead_panics (utf8 "a") (by decide) (by decide)).1⟩


/-! ## Escaping and unescaping are inverse on well-formed text -/

theorem unescapeValue_of_not_special (s : GoString) (h : containsSpecial s = false) :
    unescapeValue s = .ok s := by
  simp [unescapeValue, h]

/-- C27, as stated, fails. The value `FF 2C` is escaped to `FF 5C 2C`, and
unescaping that gives `EF BF BD 2C`: the ill-formed byte comes back as the
encoding of U+FFFD. -/
theorem unescape_escape_counterexample :
    escapeValue [0xFF, 0x2C] = [0xFF, 0x5C, 0x2C] ∧
    unescapeValue (escapeValue [0xFF, 0x2C]) = .ok [0xEF, 0xBF, 0xBD, 0x2C] ∧
    unescapeValue (escapeValue [0xFF, 0x2C]) ≠ .ok [0xFF, 0x2C] := by
  refine ⟨rfl, rfl, fun h => ?_⟩
  have h2 : unescapeValue (escapeValue [0xFF, 0x2C]) = .ok [0xEF, 0xBF, 0xBD, 0x2C] := rfl
  rw [h2] at h
  exact absurd (Except.ok.inj h) (by decide)

/-- C27, amended. For every value that is well-formed UTF-8 or holds no
backslash, comma or equals sign, unescaping the escaped value succeeds and gives
the value back. -/
theorem unescape_escape (v : GoString) (hv : Valid v ∨ containsSpecial v = false) :
    unescapeValue (escapeValue v) = .ok v := by
  rcases hv with ⟨cs, rfl⟩ | h
  · exact unescapeValue_escapeValue cs
  · rw [escapeValue_of_not_special v h]
    exact unescapeValue_of_not_special v h

theorem unescape_escape_witness :
    (Valid (utf8 "a\\b,c=d") ∨ containsSpecial (utf8 "a\\b,c=d") = false) ∧
    unescapeValue (escapeValue (utf8 "a\\b,c=d")) = .ok (utf8 "a\\b,c=d") :=
  ⟨Or.inl (valid_utf8 _), unescape_escape (utf8 "a\\b,c=d") (Or.inl (valid_utf8 _))⟩

/-- C28, as stated, fails. Unescaping `FF 5C 2C` succeeds with `EF BF BD 2C`,
whose escaped form is `EF BF BD 5C 2C` and not the string; unescaping
`EF BF BD 5C 2C` gives the same value, so two accepted strings share a result. -/
theorem escape_unescape_counterexample :
    unescapeValue [0xFF, 0x5C, 0x2C] = .ok [0xEF, 0xBF, 0xBD, 0x2C] ∧
    escapeValue [0xEF, 0xBF, 0xBD, 0x2C] = [0xEF, 0xBF, 0xBD, 0x5C, 0x2C] ∧
    escapeValue [0xEF, 0xBF, 0xBD, 0x2C] ≠ [0xFF, 0x5C, 0x2C] ∧
    unescapeValue [0xEF, 0xBF, 0xBD, 0x5C, 0x2C] = .ok [0xEF, 0xBF, 0xBD, 0x2C] :=
  ⟨rfl, rfl, by decide, rfl⟩

/-- C28, amended. For every string that is well-formed UTF-8 or holds no
backslash, comma or equals sign, and on which unescaping succeeds with a value,
escaping the value gives the string back; hence two such strings with the same
value are equal. -/
theorem escape_unescape (s v : GoString) (hs : Valid s ∨ containsSpecial s = false)
    (h : unescapeValue s = .ok v) :
    escapeValue v = s ∧
    ∀ s', (Valid s' ∨ containsSpecial s' = false) → unescapeValue s' = .ok v → s' = s := by
  have key : ∀ t, (Valid t ∨ containsSpecial t = false) → unescapeValue t = .ok v →
      escapeValue v = t := by
    intro t ht hu
    rcases ht with hv | hc
    · exact escapeValue_unescapeValue hv hu
    · rw [unescapeValue_of_not_special t hc] at hu
      cases hu
      exact escapeValue_of_not_special _ hc
  exact ⟨key s hs h, fun s' hs' h' => (key s' hs' h').symm.trans (key s hs h)⟩

theorem escape_unescape_witness :
    (Valid (utf8 "a\\\\b\\,c\\=d") ∨ containsSpecial (utf8 "a\\\\b\\,c\\=d") = false) ∧
    unescapeValue (utf8 "a\\\\b\\,c\\=d") = .ok (utf8 "a\\b,c=d") ∧
    escapeValue (utf8 "a\\b,c=d") = utf8 "a\\\\b\\,c\\=d" :=
  ⟨Or.inl (valid_utf8 _), rfl,
    (escape_unescape (utf8 "a\\\\b\\,c\\=d") (utf8 "a\\b,c=d") (Or.inl (valid_utf8 _)) rfl).1⟩


/-! ## What `splitTerms` and `splitTerm` keep -/

theorem scanState_before_comma (a b : GoString) (st : Bool)
    (h : noSplit st (a ++ 0x2C :: b) = true) : scanState st a = true := by
  rw [noSplit_append, Bool.and_eq_true] at h
  cases hs : scanState st a with
  | true => rfl
  | false =>
    rw [hs] at h
    simp [noSplit] at h

theorem backslash_of_scanState : ∀ (a : GoString) (st : Bool), scanState st a = true →
    (a = [] ∧ st = true) ∨ ∃ a', a = a' ++ [0x5C]
  | [], st, h => Or.inl ⟨rfl, by simpa [scanState] using h⟩
  | x :: a, true, h => by
    simp only [scanState] at h
    rcases backslash_of_scanState a false h with ⟨_, h2⟩ | ⟨a', rfl⟩
    · cases h2
    · exact Or.inr ⟨x :: a', rfl⟩
  | x :: a, false, h => by
    simp only [scanState] at h
    rcases backslash_of_scanState a _ h with ⟨rfl, h2⟩ | ⟨a', rfl⟩
    · exact Or.inr ⟨[], by simpa using h2⟩
    · exact Or.inr ⟨x :: a', rfl⟩

/-- C29. Joining the terms of a string with commas gives the string back, the
empty string having no term; and in a term every comma stands right after a
backslash, at a place where the scan of the term from its start is inside an
escape. -/
theorem split_terms_lossless (s : GoString) :
    join (utf8 ",") (splitTerms s) = s ∧ splitTerms [] = [] ∧
    ∀ p ∈ splitTerms s, ∀ a b, p = a ++ 0x2C :: b →
      scanState false a = true ∧ ∃ a', a = a' ++ [0x5C] := by
  refine ⟨?_, rfl, ?_⟩
  · rw [splitTerms_eq]
    split_ifs with h
    · subst h; rfl
    · exact join_splitB s false
  · intro p hp a b hab
    have h1 := noSplit_of_mem_splitTerms hp
    rw [hab] at h1
    have h2 := scanState_before_comma a b false h1
    refine ⟨h2, ?_⟩
    rcases backslash_of_scanState a false h2 with ⟨_, h3⟩ | h3
    · cases h3
    · exact h3

theorem split_terms_lossless_witness :
    utf8 "a=1\\,2" ∈ splitTerms (utf8 "a=1\\,2,b=3") ∧
    utf8 "a=1\\,2" = utf8 "a=1\\" ++ 0x2C :: utf8 "2" ∧
    (scanState false (utf8 "a=1\\") = true ∧ ∃ a', utf8 "a=1\\" = a' ++ [0x5C]) ∧
    splitTerms (utf8 "a=1\\,2,b=3") = [utf8 "a=1\\,2", utf8 "b=3"] :=
  ⟨by decide, rfl,
    (split_terms_lossless (utf8 "a=1\\,2,b=3")).2.2 (utf8 "a=1\\,2") (by decide)
      (utf8 "a=1\\") (utf8 "2") rfl, rfl⟩

/-- C30. When `splitTerm` finds an operator in a term, the operator is `!=`, `=`
or `==`, the left part, the operator and the right part put together are the
term, and the left part holds no `=`; when it finds none, the term holds no
`=`. -/
theorem split_term_reconstructs (term : GoString) :
    (∀ lhs op rhs, splitTerm term = .found lhs op rhs →
      (op = utf8 "!=" ∨ op = utf8 "=" ∨ op = utf8 "==") ∧ lhs ++ op ++ rhs = term ∧
      0x3D ∉ lhs) ∧
    (splitTerm term = .notFound → 0x3D ∉ term) := by
  constructor
  · intro lhs op rhs h
    rw [splitTerm_eq] at h
    obtain ⟨mid, rfl, hm, hc⟩ := splitTermB_found term [] lhs op rhs h
    rcases hc with ⟨rfl, rfl⟩ | ⟨rfl, rfl⟩ | ⟨rfl, rfl, _, _⟩
    · exact ⟨Or.inl rfl, by simp [notEqualOp_eq], by simpa using hm⟩
    · exact ⟨Or.inr (Or.inr rfl), by simp [doubleEqualOp_eq], by simpa using hm⟩
    · exact ⟨Or.inr (Or.inl rfl), by simp [equalOp_eq], by simpa using hm⟩
  · intro h
    rw [splitTerm_eq] at h
    exact not_mem_of_splitTermB_notFound term [] h

theorem split_term_reconstructs_witness :
    splitTerm (utf8 "a!=b=c") = .found (utf8 "a") (utf8 "!=") (utf8 "b=c") ∧
    ((utf8 "!=" = utf8 "!=" ∨ utf8 "!=" = utf8 "=" ∨ utf8 "!=" = utf8 "==") ∧
      utf8 "a" ++ utf8 "!=" ++ utf8 "b=c" = utf8 "a!=b=c" ∧ 0x3D ∉ utf8 "a") ∧
    splitTerm (utf8 "abc") = .notFound ∧ 0x3D ∉ utf8 "abc" :=
  ⟨rfl, (split_term_reconstructs (utf8 "a!=b=c")).1 _ _ _ rfl, rfl,
    (split_term_reconstructs (utf8 "abc")).2 rfl⟩

/-! ## The order of strings that differ at a byte -/

theorem strLess_append_left : ∀ (x a b : GoString), strLess (x ++ a) (x ++ b) = strLess a b
  | [], _, _ => rfl
  | c :: x, a, b => by
    simp only [List.cons_append, strLess, Nat.lt_irrefl, if_false]
    exact strLess_append_left x a b

theorem strLess_diverge : ∀ (z : GoString) (c d : Nat) (a b : GoString), c ≠ d →
    strLess (z ++ c :: a) (z ++ d :: b) = decide (c < d)
  | [], c, d, a, b, h => by
    simp only [List.nil_append, strLess]
    by_cases h1 : c < d
    · simp [h1]
    · have h2 : d < c := by omega
      simp [h1, h2]
  | e :: z, c, d, a, b, h => by
    simp only [List.cons_append, strLess, Nat.lt_irrefl, if_false]
    exact strLess_diverge z c d a b h

/-- Two strings that differ at a byte after a common beginning compare in the same
way whatever follows that byte. -/
theorem strLe_diverge {X Y z x y : GoString} {c d : Nat} (hc : c ≠ d)
    (hX : X = z ++ c :: x) (hY : Y = z ++ d :: y) (a b a' b' : GoString) :
    strLe (X ++ a) (Y ++ b) = strLe (X ++ a') (Y ++ b') := by
  subst hX hY
  simp only [strLe, List.append_assoc, List.cons_append]
  rw [strLess_diverge z d c _ _ (Ne.symm hc), strLess_diverge z d c _ _ (Ne.symm hc)]

/-- Two different fields followed by `=` differ at a byte. -/
theorem diverge_fields : ∀ (f g : GoString), 0x3D ∉ f → 0x3D ∉ g → f ≠ g →
    ∃ (z : GoString) (c d : Nat) (x y : GoString), c ≠ d ∧
      f ++ [0x3D] = z ++ c :: x ∧ g ++ [0x3D] = z ++ d :: y
  | [], [], _, _, h => absurd rfl h
  | [], d :: g, _, hg, _ =>
    ⟨[], 0x3D, d, [], g ++ [0x3D], fun e => hg (by simp [e]), by simp, by simp⟩
  | c :: f, [], hf, _, _ =>
    ⟨[], c, 0x3D, f ++ [0x3D], [], fun e => hf (by simp [e]), by simp, by simp⟩
  | c :: f, d :: g, hf, hg, h => by
    by_cases hcd : c = d
    · subst hcd
      obtain ⟨z, c', d', x, y, hne, h1, h2⟩ := diverge_fields f g
        (fun hm => hf (List.mem_cons_of_mem _ hm)) (fun hm => hg (List.mem_cons_of_mem _ hm))
        (fun e => h (by rw [e]))
      exact ⟨c :: z, c', d', x, y, hne, by simp [h1], by simp [h2]⟩
    · exact ⟨[], c, d, f ++ [0x3D], g ++ [0x3D], hcd, by simp, by simp⟩

/-- A field followed by `=` and a field followed by `!=` differ at a byte, when the
first field does not end in `!`. -/
theorem diverge_operators : ∀ (f g : GoString), 0x3D ∉ f → 0x3D ∉ g →
    f.getLast? ≠ some 0x21 →
    ∃ (z : GoString) (c d : Nat) (x y : GoString), c ≠ d ∧
      f ++ [0x3D] = z ++ c :: x ∧ g ++ [0x21, 0x3D] = z ++ d :: y
  | [], [], _, _, _ => ⟨[], 0x3D, 0x21, [], [0x3D], by decide, by simp, by simp⟩
  | [], d :: g, _, hg, _ =>
    ⟨[], 0x3D, d, [], g ++ [0x21, 0x3D], fun e => hg (by simp [e]), by simp, by simp⟩
  | [c], [], hf, _, hl =>
    ⟨[], c, 0x21, [0x3D], [0x3D], fun e => hl (by simp [e]), by simp, by simp⟩
  | c :: e :: f, [], hf, _, _ => by
    by_cases hc : c = 0x21
    · subst hc
      refine ⟨[0x21], e, 0x3D, f ++ [0x3D], [], fun he => hf (by simp [he]), by simp, by simp⟩
    · exact ⟨[], c, 0x21, e :: f ++ [0x3D], [0x3D], hc, by simp, by simp⟩
  | c :: f, d :: g, hf, hg, hl => by
    by_cases hcd : c = d
    · subst hcd
      have hl' : f.getLast? ≠ some 0x21 := by
        cases f with
        | nil => simp
        | cons e f => simpa [List.getLast?_cons_cons] using hl
      obtain ⟨z, c', d', x, y, hne, h1, h2⟩ := diverge_operators f g
        (fun hm => hf (List.mem_cons_of_mem _ hm)) (fun hm => hg (List.mem_cons_of_mem _ hm)) hl'
      exact ⟨c :: z, c', d', x, y, hne, by simp [h1], by simp [h2]⟩
    · exact ⟨[], c, d, f ++ [0x3D], g ++ [0x21, 0x3D], hcd, by simp, by simp⟩

/-! ## The shape of an accepted term -/

theorem getLast_of_found {mid pre rest lhs op rhs : GoString} (hm : 0x3D ∉ mid)
    (h : splitTermB pre (mid ++ 0x3D :: rest) = .found lhs op rhs) (hop : op ≠ notEqualOp) :
    mid.getLast? ≠ some 0x21 := by
  intro hl
  obtain ⟨m, rfl⟩ : ∃ m, mid = m ++ [0x21] := by
    rcases List.eq_nil_or_concat mid with hn | ⟨m, x, hx⟩
    · subst hn
      simp at hl
    · subst hx
      rw [List.concat_eq_append, List.getLast?_concat] at hl
      simp only [Option.some.injEq] at hl
      subst hl
      exact ⟨m, by simp⟩
  have hm' : 0x3D ∉ m := fun hx => hm (by simp [hx])
  have h2 := splitTermB_notEqual m pre rest hm'
  rw [List.append_assoc, List.singleton_append, h2] at h
  simp only [SplitTermResult.found.injEq] at h
  exact hop h.2.1.symm

/-- An accepted well-formed term is a field without `=`, one of the three
operators and an escaped value; a field before `=` or `==` does not end in `!`. -/
theorem termItem_cases {p : GoString} {it : Selector} (hv : Valid p)
    (h : termItem p = some it) :
    ∃ f rhs v, 0x3D ∉ f ∧ unescapeValue rhs = .ok v ∧ escapeValue v = rhs ∧
      ((p = f ++ 0x21 :: 0x3D :: rhs ∧ it = .notHasTerm f v) ∨
       (p = f ++ 0x3D :: 0x3D :: rhs ∧ it = .hasTerm f v ∧ f.getLast? ≠ some 0x21 ∧
          splitTerm p = .found f doubleEqualOp rhs) ∨
       (p = f ++ 0x3D :: rhs ∧ it = .hasTerm f v ∧ f.getLast? ≠ some 0x21 ∧ rhs ≠ [] ∧
          splitTerm p = .found f equalOp rhs)) := by
  simp only [termItem, splitTerm_eq] at h
  cases hsp : splitTermB [] p with
  | notFound => simp [hsp] at h
  | panic => simp [hsp] at h
  | found lhs op rhs =>
    simp only [hsp] at h
    obtain ⟨mid, hl, hm, hs⟩ := splitTermB_found p [] lhs op rhs hsp
    simp only [List.nil_append] at hl
    subst hl
    cases hu : unescapeValue rhs with
    | error e => simp [hu] at h
    | ok v =>
      simp only [hu] at h
      rcases hs with ⟨ho, hp⟩ | ⟨ho, hp⟩ | ⟨ho, hp, hr, _⟩
      · subst ho
        simp only [if_true, Option.some.injEq] at h
        have hvr : Valid rhs := by
          have h1 : Valid (0x3D :: rhs) := valid_tail (show 0x21 < 0x80 by decide) (hp ▸ hv)
          exact valid_tail (show 0x3D < 0x80 by decide) (a := []) h1
        exact ⟨lhs, rhs, v, hm, hu, escapeValue_unescapeValue hvr hu, Or.inl ⟨hp, h.symm⟩⟩
      · subst ho
        have h1 : (doubleEqualOp = notEqualOp) = False := by
          simp [doubleEqualOp_eq, notEqualOp_eq]
        simp only [h1, if_false, if_true, Option.some.injEq] at h
        have hvr : Valid rhs := by
          have h2 : Valid (0x3D :: rhs) := valid_tail (show 0x3D < 0x80 by decide) (hp ▸ hv)
          exact valid_tail (show 0x3D < 0x80 by decide) (a := []) h2
        have hsp' := hsp
        rw [hp] at hsp'
        have hgl := getLast_of_found hm hsp' (by simp [doubleEqualOp_eq, notEqualOp_eq])
        exact ⟨lhs, rhs, v, hm, hu, escapeValue_unescapeValue hvr hu,
          Or.inr (Or.inl ⟨hp, h.symm, hgl, by rw [splitTerm_eq]; exact hsp⟩)⟩
      · subst ho
        have h1 : (equalOp = notEqualOp) = False := by simp [equalOp_eq, notEqualOp_eq]
        have h2 : (equalOp = doubleEqualOp) = False := by simp [equalOp_eq, doubleEqualOp_eq]
        simp only [h1, h2, if_false, if_true, Option.some.injEq] at h
        have hvr : Valid rhs := valid_tail (show 0x3D < 0x80 by decide) (hp ▸ hv)
        have hsp' := hsp
        rw [hp] at hsp'
        have hgl := getLast_of_found hm hsp' (by simp [equalOp_eq, notEqualOp_eq])
        exact ⟨lhs, rhs, v, hm, hu, escapeValue_unescapeValue hvr hu,
          Or.inr (Or.inr ⟨hp, h.symm, hgl, hr, by rw [splitTerm_eq]; exact hsp⟩)⟩

/-- The rendering of the child of a well-formed term is the term itself, with `=`
in the place of `==`. -/
theorem keptRendering_cases {p a : GoString} (hv : Valid p) (h : keptRendering p = some a) :
    ∃ f rhs, 0x3D ∉ f ∧
      ((p = f ++ 0x21 :: 0x3D :: rhs ∧ a = p) ∨
       (p = f ++ 0x3D :: 0x3D :: rhs ∧ a = f ++ 0x3D :: rhs ∧ f.getLast? ≠ some 0x21 ∧
          splitTerm p = .found f doubleEqualOp rhs) ∨
       (p = f ++ 0x3D :: rhs ∧ a = p ∧ f.getLast? ≠ some 0x21 ∧
          splitTerm p = .found f equalOp rhs)) := by
  simp only [keptRendering] at h
  split_ifs at h with hp
  cases hti : termItem p with
  | none => simp [hti] at h
  | some it =>
    simp only [hti] at h
    split_ifs at h with hc
    simp only [Option.some.injEq] at h
    subst h
    have hop1 : utf8 "!=" = [0x21, 0x3D] := rfl
    have hop2 : utf8 "=" = [0x3D] := rfl
    obtain ⟨f, rhs, v, hf, _, he, hcase⟩ := termItem_cases hv hti
    refine ⟨f, rhs, hf, ?_⟩
    rcases hcase with ⟨h1, h2⟩ | ⟨h1, h2, h3, h4⟩ | ⟨h1, h2, h3, _, h4⟩
    · exact Or.inl ⟨h1, by simp [h2, Selector.String, hop1, he, h1]⟩
    · exact Or.inr (Or.inl ⟨h1, by simp [h2, Selector.String, hop2, he], h3, h4⟩)
    · exact Or.inr (Or.inr ⟨h1, by simp [h2, Selector.String, hop2, he, h1], h3, h4⟩)

theorem strLe_heads {X Y : GoString}
    (h : ∃ (z : GoString) (c d : Nat) (x y : GoString), c ≠ d ∧ X = z ++ c :: x ∧ Y = z ++ d :: y)
    (a b a' b' : GoString) :
    strLe (X ++ a) (Y ++ b) = strLe (X ++ a') (Y ++ b') ∧
    strLe (Y ++ b) (X ++ a) = strLe (Y ++ b') (X ++ a') := by
  obtain ⟨z, c, d, x, y, hne, hX, hY⟩ := h
  exact ⟨strLe_diverge hne hX hY a b a' b', strLe_diverge (Ne.symm hne) hY hX b a b' a'⟩

/-- The renderings of the children of two well-formed terms compare as the terms
do, unless one term uses `==` and the other uses `=` on the same field. -/
theorem keptRendering_strLe {p q a b : GoString} (hp : Valid p) (hq : Valid q)
    (h1 : ∀ f v w, splitTerm p = .found f doubleEqualOp v →
      splitTerm q ≠ .found f equalOp w)
    (h2 : ∀ f v w, splitTerm q = .found f doubleEqualOp v →
      splitTerm p ≠ .found f equalOp w)
    (ha : keptRendering p = some a) (hb : keptRendering q = some b) :
    strLe a b = strLe p q := by
  obtain ⟨f, rhs, hf, cp⟩ := keptRendering_cases hp ha
  obtain ⟨g, w, hg, cq⟩ := keptRendering_cases hq hb
  rcases cp with ⟨rfl, rfl⟩ | ⟨rfl, rfl, hfl, hsp⟩ | ⟨rfl, rfl, hfl, hsp⟩ <;>
    rcases cq with ⟨rfl, rfl⟩ | ⟨rfl, rfl, hgl, hsq⟩ | ⟨rfl, rfl, hgl, hsq⟩
  · rfl
  · simpa using (strLe_heads (diverge_operators g f hg hf hgl) w rhs (0x3D :: w) rhs).2
  · rfl
  · simpa using (strLe_heads (diverge_operators f g hf hg hfl) rhs w (0x3D :: rhs) w).1
  · by_cases hfg : f = g
    · subst hfg
      simp [strLe, strLess_append_left, strLess]
    · simpa using (strLe_heads (diverge_fields f g hf hg hfg) rhs w (0x3D :: rhs) (0x3D :: w)).1
  · by_cases hfg : f = g
    · subst hfg
      exact absurd hsq (h1 f rhs w hsp)
    · simpa using (strLe_heads (diverge_fields f g hf hg hfg) rhs w (0x3D :: rhs) w).1
  · rfl
  · by_cases hfg : f = g
    · subst hfg
      exact absurd hsp (h2 f w rhs hsq)
    · simpa using (strLe_heads (diverge_fields f g hf hg hfg) rhs w rhs (0x3D :: w)).1
  · rfl

/-! ## The renderings of the children of a parsed selector -/

theorem termItems_renderings : ∀ (parts : List GoString) (its : List Selector),
    termItems parts = some its →
    (its.filter (fun it => !collapsed it)).map Selector.String = parts.filterMap keptRendering
  | [], its, h => by
    simp only [termItems, Option.some.injEq] at h
    subst h
    rfl
  | p :: parts, its, h => by
    simp only [termItems] at h
    split_ifs at h with hnil
    · have hk : keptRendering p = none := by simp [keptRendering, hnil]
      rw [List.filterMap_cons_none hk]
      exact termItems_renderings parts its h
    · cases hti : termItem p with
      | none => simp [hti] at h
      | some it =>
        cases hts : termItems parts with
        | none => simp [hti, hts] at h
        | some its' =>
          simp only [hti, hts, Option.some.injEq] at h
          subst h
          have ih := termItems_renderings parts its' hts
          cases hc : collapsed it with
          | true =>
            have hk : keptRendering p = none := by simp [keptRendering, hnil, hti, hc]
            rw [List.filterMap_cons_none hk]
            simpa [List.filter_cons, hc] using ih
          | false =>
            have hk : keptRendering p = some it.String := by
              simp [keptRendering, hnil, hti, hc]
            rw [List.filterMap_cons_some hk]
            simpa [List.filter_cons, hc] using ih

/-- The children of a parsed selector are the children built for the sorted terms
of the text, without those that collapse to `Everything`. -/
theorem parse_children {t : GoString} {S : Selector} (h : ParseSelector t = .ok S) :
    ∃ its, termItems (sortStrings (splitTerms t)) = some its ∧
      (∀ it ∈ its, isTerm it = true) ∧
      S.children = its.filter (fun it => !collapsed it) := by
  cases hpi : parseItems t (sortStrings (splitTerms t)) [] with
  | err e => simp [ParseSelector, parseSelector, hpi] at h
  | panic => simp [ParseSelector, parseSelector, hpi] at h
  | ok items =>
    obtain ⟨its, hti, hits⟩ := parseItems_ok _ _ _ _ hpi
    simp only [List.nil_append] at hits
    subst hits
    have h1 := termItems_isTerm _ _ hti
    obtain ⟨S0, hS0, hch⟩ := parseSelector_of_items hpi h1
    rw [h] at hS0
    cases hS0
    exact ⟨items, hti, h1, hch⟩

/-- The renderings of the children of the selector parsed from a well-formed text
are in ascending order when no field of the text is used both with `==` and with
`=`. -/
theorem renderings_sorted (t : String) (S : Selector)
    (hmix : ∀ p ∈ splitTerms (utf8 t), ∀ q ∈ splitTerms (utf8 t), ∀ f v w,
      splitTerm p = .found f doubleEqualOp v → splitTerm q ≠ .found f equalOp w)
    (h : ParseSelector (utf8 t) = .ok S) :
    S.children.map Selector.String
      = (sortStrings (splitTerms (utf8 t))).filterMap keptRendering ∧
    ((sortStrings (splitTerms (utf8 t))).filterMap keptRendering).Sorted
      (fun a b => strLe a b = true) := by
  obtain ⟨its, hti, -, hch⟩ := parse_children h
  refine ⟨by rw [hch, termItems_renderings _ _ hti], ?_⟩
  have hs : (sortStrings (splitTerms (utf8 t))).Pairwise (fun a b => strLe a b = true) :=
    sortStrings_sorted _
  have hmem : ∀ p ∈ sortStrings (splitTerms (utf8 t)), p ∈ splitTerms (utf8 t) :=
    fun p hp => (sortStrings_perm _).mem_iff.1 hp
  refine List.Pairwise.filterMap keptRendering ?_ (List.Pairwise.and_mem.1 hs)
  rintro p q ⟨hp, hq, hpq⟩ a ha b hb
  have hp' := hmem p hp
  have hq' := hmem q hq
  rw [keptRendering_strLe (valid_of_mem_splitTerms (valid_utf8 t) hp')
    (valid_of_mem_splitTerms (valid_utf8 t) hq') (hmix p hp' q hq') (hmix q hq' p hp') ha hb]
  exact hpq

/-! ## Parsing a rendering again -/

theorem noSplit_equals (st : Bool) (rhs : GoString) :
    noSplit st (0x3D :: rhs) = noSplit false rhs ∧
    noSplit st (0x3D :: 0x3D :: rhs) = noSplit false rhs ∧
    scanState st (0x3D :: rhs) = scanState false rhs := by
  cases st <;> simp [noSplit, scanState]

/-- The rendering of the child built for a well-formed term is a term for which the
parser builds the same child, unless the term is a field, `==` and no value. -/
theorem termItem_reparse {p : GoString} {it : Selector} (hv : Valid p)
    (hns : noSplit false p = true)
    (hval : ∀ f, splitTerm p = .found f doubleEqualOp [] → f = [])
    (h : termItem p = some it) (hc : collapsed it = false) :
    termItem it.String = some it ∧ it.String ≠ [] ∧ noSplit false it.String = true ∧
      scanState false it.String = false := by
  have hop1 : utf8 "!=" = [0x21, 0x3D] := rfl
  have hop2 : utf8 "=" = [0x3D] := rfl
  have hsc := (termItem_scanState h).1
  obtain ⟨f, rhs, v, hf, hu, he, hcase⟩ := termItem_cases hv h
  rcases hcase with ⟨h1, h2⟩ | ⟨h1, h2, h3, h4⟩ | ⟨h1, h2, h3, _, h4⟩
  · have hs : it.String = p := by simp [h2, Selector.String, hop1, he, h1]
    rw [hs]
    exact ⟨h, by simp [h1], hns, hsc⟩
  · have hs : it.String = f ++ 0x3D :: rhs := by simp [h2, Selector.String, hop2, he]
    have hrne : rhs ≠ [] := by
      intro hr
      subst hr
      have hf0 : f = [] := hval f h4
      have hv0 : v = [] := by
        have h0 : unescapeValue [] = .ok ([] : GoString) := rfl
        rw [h0] at hu
        exact (Except.ok.inj hu).symm
      rw [h2, hf0, hv0] at hc
      simp [collapsed] at hc
    have hvne : v ≠ [] := by
      intro hv0
      subst hv0
      exact hrne he.symm
    have hhead : rhs.head? ≠ some 0x3D := he ▸ (escapeValue_head hvne).2
    rw [hs]
    refine ⟨?_, by simp, ?_, ?_⟩
    · have h5 := splitTermB_equal f [] rhs hf h3 hrne hhead
      have e1 : (equalOp = notEqualOp) = False := by simp [equalOp_eq, notEqualOp_eq]
      have e2 : (equalOp = doubleEqualOp) = False := by simp [equalOp_eq, doubleEqualOp_eq]
      simp only [termItem, splitTerm_eq, h5, List.nil_append, hu, e1, e2, if_false, if_true, h2]
    · rw [h1, noSplit_append, (noSplit_equals _ rhs).2.1] at hns
      rw [noSplit_append, (noSplit_equals _ rhs).1]
      exact hns
    · rw [scanState_append, (noSplit_equals _ rhs).2.2]
      exact unescapeValue_scanState hu
  · have hs : it.String = p := by simp [h2, Selector.String, hop2, he, h1]
    rw [hs]
    exact ⟨h, by simp [h1], hns, hsc⟩

theorem termItems_reparse : ∀ (parts : List GoString) (its : List Selector),
    (∀ p ∈ parts, Valid p ∧ noSplit false p = true ∧
      ∀ f, splitTerm p = .found f doubleEqualOp [] → f = []) →
    termItems parts = some its →
    termItems (parts.filterMap keptRendering) = some (its.filter (fun it => !collapsed it)) ∧
    ∀ r ∈ parts.filterMap keptRendering,
      r ≠ [] ∧ noSplit false r = true ∧ scanState false r = false
  | [], its, _, h => by
    simp only [termItems, Option.some.injEq] at h
    subst h
    exact ⟨rfl, by simp⟩
  | p :: parts, its, hp, h => by
    have hrest : ∀ q ∈ parts, Valid q ∧ noSplit false q = true ∧
        ∀ f, splitTerm q = .found f doubleEqualOp [] → f = [] :=
      fun q hq => hp q (List.mem_cons_of_mem _ hq)
    simp only [termItems] at h
    split_ifs at h with hnil
    · have hk : keptRendering p = none := by simp [keptRendering, hnil]
      rw [List.filterMap_cons_none hk]
      exact termItems_reparse parts its hrest h
    · cases hti : termItem p with
      | none => simp [hti] at h
      | some it =>
        cases hts : termItems parts with
        | none => simp [hti, hts] at h
        | some its' =>
          simp only [hti, hts, Option.some.injEq] at h
          subst h
          obtain ⟨ih1, ih2⟩ := termItems_reparse parts its' hrest hts
          cases hc : collapsed it with
          | true =>
            have hk : keptRendering p = none := by simp [keptRendering, hnil, hti, hc]
            rw [List.filterMap_cons_none hk]
            exact ⟨by simpa [List.filter_cons, hc] using ih1, ih2⟩
          | false =>
            have hk : keptRendering p = some it.String := by
              simp [keptRendering, hnil, hti, hc]
            obtain ⟨hv, hns, hval⟩ := hp p (by simp)
            obtain ⟨r1, r2, r3, r4⟩ := termItem_reparse hv hns hval hti hc
            rw [List.filterMap_cons_some hk]
            refine ⟨?_, ?_⟩
            · simp [termItems, r2, r1, ih1, List.filter_cons, hc]
            · intro r hr
              rcases List.mem_cons.1 hr with hr | hr
              · subst hr
                exact ⟨r2, r3, r4⟩
              · exact ih2 r hr

/-! ## Round trip and canonical form -/

/-- C1, as stated, fails. The text `a==1,a=2` parses to a selector rendered
`a=2,a=1`, and that rendering parses to a selector rendered `a=1,a=2`; the text
`a==` parses to a selector rendered `a=`, whose parsing panics; and the ill-formed
text `a=` `F0` `,a=` `FF` `\,` parses to a selector whose rendering parses to a
selector rendered differently. -/
theorem parse_render_round_trip_counterexample :
    (ParseSelector (utf8 "a==1,a=2")
        = .ok (.andTerm [.hasTerm (utf8 "a") (utf8 "2"), .hasTerm (utf8 "a") (utf8 "1")]) ∧
      (Selector.andTerm [.hasTerm (utf8 "a") (utf8 "2"), .hasTerm (utf8 "a") (utf8 "1")]).String
        = utf8 "a=2,a=1" ∧
      ParseSelector (utf8 "a=2,a=1")
        = .ok (.andTerm [.hasTerm (utf8 "a") (utf8 "1"), .hasTerm (utf8 "a") (utf8 "2")]) ∧
      (Selector.andTerm [.hasTerm (utf8 "a") (utf8 "1"), .hasTerm (utf8 "a") (utf8 "2")]).String
        = utf8 "a=1,a=2" ∧
      utf8 "a=1,a=2" ≠ utf8 "a=2,a=1") ∧
    (ParseSelector (utf8 "a==") = .ok (.hasTerm (utf8 "a") (utf8 "")) ∧
      (Selector.hasTerm (utf8 "a") (utf8 "")).String = utf8 "a=" ∧
      ParseSelector (utf8 "a=") = .panic) ∧
    (ParseSelector [0x61, 0x3D, 0xF0, 0x2C, 0x61, 0x3D, 0xFF, 0x5C, 0x2C]
        = .ok (.andTerm [.hasTerm [0x61] [0xF0], .hasTerm [0x61] [0xEF, 0xBF, 0xBD, 0x2C]]) ∧
      (Selector.andTerm [.hasTerm [0x61] [0xF0], .hasTerm [0x61] [0xEF, 0xBF, 0xBD, 0x2C]]).String
        = [0x61, 0x3D, 0xF0, 0x2C, 0x61, 0x3D, 0xEF, 0xBF, 0xBD, 0x5C, 0x2C] ∧
      ParseSelector [0x61, 0x3D, 0xF0, 0x2C, 0x61, 0x3D, 0xEF, 0xBF, 0xBD, 0x5C, 0x2C]
        = .ok (.andTerm [.hasTerm [0x61] [0xEF, 0xBF, 0xBD, 0x2C], .hasTerm [0x61] [0xF0]]) ∧
      (Selector.andTerm [.hasTerm [0x61] [0xEF, 0xBF, 0xBD, 0x2C], .hasTerm [0x61] [0xF0]]).String
        = [0x61, 0x3D, 0xEF, 0xBF, 0xBD, 0x5C, 0x2C, 0x2C, 0x61, 0x3D, 0xF0]) :=
  ⟨⟨rfl, rfl, rfl, rfl, by decide⟩, ⟨rfl, rfl, rfl⟩, ⟨rfl, rfl, rfl, rfl⟩⟩

/-- C1, amended. For every well-formed selector text `t` in which no field is used
both with `==` and with `=`, and in which no term is a non-empty field followed
by `==` and an empty value, for which `ParseSelector` returns a selector `S`,
parsing the rendering of `S` returns a selector with the same rendering. -/
theorem parse_render_round_trip (t : String) (S : Selector)
    (hmix : ∀ p ∈ splitTerms (utf8 t), ∀ q ∈ splitTerms (utf8 t), ∀ f v w,
      splitTerm p = .found f doubleEqualOp v → splitTerm q ≠ .found f equalOp w)
    (hval : ∀ p ∈ splitTerms (utf8 t), ∀ f, splitTerm p = .found f doubleEqualOp [] → f = [])
    (h : ParseSelector (utf8 t) = .ok S) :
    ∃ S', ParseSelector S.String = .ok S' ∧ S'.String = S.String := by
  obtain ⟨its, hti, hterm, hch⟩ := parse_children h
  obtain ⟨hmap, hsorted⟩ := renderings_sorted t S hmix h
  have hmem : ∀ p ∈ sortStrings (splitTerms (utf8 t)), p ∈ splitTerms (utf8 t) :=
    fun p hp => (sortStrings_perm _).mem_iff.1 hp
  obtain ⟨hre, hq⟩ := termItems_reparse _ its (fun p hp =>
    ⟨valid_of_mem_splitTerms (valid_utf8 t) (hmem p hp), noSplit_of_mem_splitTerms (hmem p hp),
      hval p (hmem p hp)⟩) hti
  rw [← hch] at hre
  have hstr : S.String
      = join (utf8 ",") ((sortStrings (splitTerms (utf8 t))).filterMap keptRendering) := by
    rw [string_eq_join_children, hmap]
  have hpi : parseItems S.String (sortStrings (splitTerms S.String)) [] = .ok S.children := by
    have := parseItems_of_termItems S.String _ [] S.children hre
    rw [hstr, splitTerms_join _ hq, sortStrings_of_sorted hsorted]
    rw [hstr] at this
    simpa using this
  have hkept : ∀ it ∈ S.children, isTerm it = true ∧ collapsed it = false := by
    intro it hit
    rw [hch] at hit
    obtain ⟨hm, hc⟩ := List.mem_filter.1 hit
    exact ⟨hterm it hm, by simpa using hc⟩
  obtain ⟨S', hS', hch'⟩ := parseSelector_of_items hpi (fun it hit => (hkept it hit).1)
  refine ⟨S', hS', ?_⟩
  have hf : S.children.filter (fun it => !collapsed it) = S.children :=
    List.filter_eq_self.2 (fun it hit => by simp [(hkept it hit).2])
  rw [string_eq_join_children S', hch', hf, ← string_eq_join_children]

theorem parse_render_round_trip_witness :
    (∀ p ∈ splitTerms (utf8 "b==2,,a!=x\\,y,==,a==1"),
      ∀ q ∈ splitTerms (utf8 "b==2,,a!=x\\,y,==,a==1"), ∀ f v w,
      splitTerm p = .found f doubleEqualOp v → splitTerm q ≠ .found f equalOp w) ∧
    (∀ p ∈ splitTerms (utf8 "b==2,,a!=x\\,y,==,a==1"), ∀ f,
      splitTerm p = .found f doubleEqualOp [] → f = []) ∧
    ParseSelector (utf8 "b==2,,a!=x\\,y,==,a==1")
      = .ok (.andTerm [.notHasTerm (utf8 "a") (utf8 "x,y"), .hasTerm (utf8 "a") (utf8 "1"),
          .hasTerm (utf8 "b") (utf8 "2")]) ∧
    (Selector.andTerm [.notHasTerm (utf8 "a") (utf8 "x,y"), .hasTerm (utf8 "a") (utf8 "1"),
          .hasTerm (utf8 "b") (utf8 "2")]).String = utf8 "a!=x\\,y,a=1,b=2" ∧
    ∃ S', ParseSelector
        (Selector.andTerm [.notHasTerm (utf8 "a") (utf8 "x,y"), .hasTerm (utf8 "a") (utf8 "1"),
          .hasTerm (utf8 "b") (utf8 "2")]).String = .ok S' ∧
      S'.String = (Selector.andTerm [.notHasTerm (utf8 "a") (utf8 "x,y"),
          .hasTerm (utf8 "a") (utf8 "1"), .hasTerm (utf8 "b") (utf8 "2")]).String := by
  have hs : splitTerms (utf8 "b==2,,a!=x\\,y,==,a==1")
      = [utf8 "b==2", utf8 "", utf8 "a!=x\\,y", utf8 "==", utf8 "a==1"] := rfl
  have hmix : ∀ p ∈ splitTerms (utf8 "b==2,,a!=x\\,y,==,a==1"),
      ∀ q ∈ splitTerms (utf8 "b==2,,a!=x\\,y,==,a==1"), ∀ f v w,
      splitTerm p = .found f doubleEqualOp v → splitTerm q ≠ .found f equalOp w := by
    intro p _ q hq f v w _ h2
    rw [hs] at hq
    simp only [List.mem_cons, List.mem_singleton, List.not_mem_nil, or_false] at hq
    rcases hq with rfl | rfl | rfl | rfl | rfl
    · exact absurd (SplitTermResult.found.inj h2).2.1 (by decide)
    · cases h2
    · exact absurd (SplitTermResult.found.inj h2).2.1 (by decide)
    · exact absurd (SplitTermResult.found.inj h2).2.1 (by decide)
    · exact absurd (SplitTermResult.found.inj h2).2.1 (by decide)
  have hval : ∀ p ∈ splitTerms (utf8 "b==2,,a!=x\\,y,==,a==1"), ∀ f,
      splitTerm p = .found f doubleEqualOp [] → f = [] := by
    intro p hp f h1
    rw [hs] at hp
    simp only [List.mem_cons, List.mem_singleton, List.not_mem_nil, or_false] at hp
    rcases hp with rfl | rfl | rfl | rfl | rfl
    · exact absurd (SplitTermResult.found.inj h1).2.2 (by decide)
    · cases h1
    · exact absurd (SplitTermResult.found.inj h1).2.1 (by decide)
    · exact (SplitTermResult.found.inj h1).1.symm
    · exact absurd (SplitTermResult.found.inj h1).2.2 (by decide)
  exact ⟨hmix, hval, rfl, rfl,
    parse_render_round_trip "b==2,,a!=x\\,y,==,a==1" _ hmix hval rfl⟩

/-- C4, as stated, fails. The text `a==1,a=2` parses to a conjunction whose
children are rendered `a=2` then `a=1`, the second smaller than the first; and
the children parsed from the ill-formed text `a=` `F0` `,a=` `FF` `\,` are
rendered in descending order too. -/
theorem canonical_form_sorted_counterexample :
    (ParseSelector (utf8 "a==1,a=2")
        = .ok (.andTerm [.hasTerm (utf8 "a") (utf8 "2"), .hasTerm (utf8 "a") (utf8 "1")]) ∧
      (Selector.andTerm [.hasTerm (utf8 "a") (utf8 "2"), .hasTerm (utf8 "a") (utf8 "1")]).String
        = utf8 "a=2,a=1" ∧
      Selector.stringAll [.hasTerm (utf8 "a") (utf8 "2"), .hasTerm (utf8 "a") (utf8 "1")]
        = [utf8 "a=2", utf8 "a=1"] ∧
      strLess (utf8 "a=1") (utf8 "a=2") = true) ∧
    (ParseSelector [0x61, 0x3D, 0xF0, 0x2C, 0x61, 0x3D, 0xFF, 0x5C, 0x2C]
        = .ok (.andTerm [.hasTerm [0x61] [0xF0], .hasTerm [0x61] [0xEF, 0xBF, 0xBD, 0x2C]]) ∧
      Selector.stringAll [.hasTerm [0x61] [0xF0], .hasTerm [0x61] [0xEF, 0xBF, 0xBD, 0x2C]]
        = [[0x61, 0x3D, 0xF0], [0x61, 0x3D, 0xEF, 0xBF, 0xBD, 0x5C, 0x2C]] ∧
      strLess [0x61, 0x3D, 0xEF, 0xBF, 0xBD, 0x5C, 0x2C] [0x61, 0x3D, 0xF0] = true) :=
  ⟨⟨rfl, rfl, rfl, rfl⟩, ⟨rfl, rfl, rfl⟩⟩

/-- C4, amended. For every well-formed selector text `t` in which no field is used
both with `==` and with `=` and that `ParseSelector` accepts, the rendering of
the returned selector is the renderings of its children joined by commas, and
these renderings are in ascending lexicographic order. -/
theorem canonical_form_sorted (t : String) (S : Selector)
    (hmix : ∀ p ∈ splitTerms (utf8 t), ∀ q ∈ splitTerms (utf8 t), ∀ f v w,
      splitTerm p = .found f doubleEqualOp v → splitTerm q ≠ .found f equalOp w)
    (h : ParseSelector (utf8 t) = .ok S) :
    S.String = join (utf8 ",") (S.children.map Selector.String) ∧
    (S.children.map Selector.String).Sorted (fun a b => strLe a b = true) := by
  obtain ⟨hmap, hsorted⟩ := renderings_sorted t S hmix h
  exact ⟨string_eq_join_children S, hmap ▸ hsorted⟩

theorem canonical_form_sorted_witness :
    (∀ p ∈ splitTerms (utf8 "b==2,a==1,a==0,c=3"),
      ∀ q ∈ splitTerms (utf8 "b==2,a==1,a==0,c=3"), ∀ f v w,
      splitTerm p = .found f doubleEqualOp v → splitTerm q ≠ .found f equalOp w) ∧
    ParseSelector (utf8 "b==2,a==1,a==0,c=3")
      = .ok (.andTerm [.hasTerm (utf8 "a") (utf8 "0"), .hasTerm (utf8 "a") (utf8 "1"),
          .hasTerm (utf8 "b") (utf8 "2"), .hasTerm (utf8 "c") (utf8 "3")]) ∧
    (Selector.andTerm [.hasTerm (utf8 "a") (utf8 "0"), .hasTerm (utf8 "a") (utf8 "1"),
        .hasTerm (utf8 "b") (utf8 "2"), .hasTerm (utf8 "c") (utf8 "3")]).String
      = utf8 "a=0,a=1,b=2,c=3" ∧
    ((Selector.andTerm [.hasTerm (utf8 "a") (utf8 "0"), .hasTerm (utf8 "a") (utf8 "1"),
        .hasTerm (utf8 "b") (utf8 "2"), .hasTerm (utf8 "c") (utf8 "3")]).children.map
      Selector.String).Sorted (fun a b => strLe a b = true) := by
  have hs : splitTerms (utf8 "b==2,a==1,a==0,c=3")
      = [utf8 "b==2", utf8 "a==1", utf8 "a==0", utf8 "c=3"] := rfl
  have hmix : ∀ p ∈ splitTerms (utf8 "b==2,a==1,a==0,c=3"),
      ∀ q ∈ splitTerms (utf8 "b==2,a==1,a==0,c=3"), ∀ f v w,
      splitTerm p = .found f doubleEqualOp v → splitTerm q ≠ .found f equalOp w := by
    intro p hp q hq f v w h1 h2
    rw [hs] at hp hq
    simp only [List.mem_cons, List.mem_singleton, List.not_mem_nil, or_false] at hp hq
    rcases hq with rfl | rfl | rfl | rfl
    · exact absurd (SplitTermResult.found.inj h2).2.1 (by decide)
    · exact absurd (SplitTermResult.found.inj h2).2.1 (by decide)
    · exact absurd (SplitTermResult.found.inj h2).2.1 (by decide)
    · have hf : utf8 "c" = f := (SplitTermResult.found.inj h2).1
      subst hf
      rcases hp with rfl | rfl | rfl | rfl
      · exact absurd (SplitTermResult.found.inj h1).1 (by decide)
      · exact absurd (SplitTermResult.found.inj h1).1 (by decide)
      · exact absurd (SplitTermResult.found.inj h1).1 (by decide)
      · exact absurd (SplitTermResult.found.inj h1).2.1 (by decide)
  exact ⟨hmix, rfl, rfl, (canonical_form_sorted "b==2,a==1,a==0,c=3" _ hmix rfl).2⟩

end FieldSelector

namespace Log

/-! ## Logging an info message -/

/-- C25, as stated, fails. A message of 1025 bytes `a` is recorded as its first
1024 bytes: one entry is produced, but its message is not the message given. -/
theorem info_records_message_counterexample :
    ((⟨⟨InfoLevel, []⟩, InfoLevel⟩ : zapLogger Unit).Info (List.replicate 1025 0x61) []).l.logs
      = [⟨InfoLevel, List.replicate 1024 0x61, []⟩] ∧
    List.replicate 1024 0x61 ≠ List.replicate 1025 0x61 := by
  refine ⟨?_, fun h => absurd (congrArg List.length h) ?_⟩
  · have hlen : (List.replicate 1025 0x61).length > 1024 := by
      rw [List.length_replicate]
      decide
    have ht : (List.replicate 1025 0x61).take 1024 = List.replicate 1024 0x61 := by
      rw [List.take_replicate]
      rfl
    simp only [zapLogger.Info, zapLogger.check, Logger.Info, AtomicLevel.Enabled]
    rw [if_pos hlen, ht]
    rfl
  · rw [List.length_replicate, List.length_replicate]
    decide

/-- C25, amended. On a logger whose core records at the level `Info`, whatever
the level of the logger itself, a call of `Info` adds exactly one entry to the
recorded ones: its level is `Info`, its fields are the fields given and its
message is the message given when that has at most 1024 bytes, and the first
1024 bytes of it otherwise. -/
theorem info_records_message {F : Type} (l : zapLogger F) (msg : FieldSelector.GoString)
    (fields : List F) (hcore : l.l.enab = InfoLevel) :
    (l.Info msg fields).l.logs
      = l.l.logs ++ [⟨InfoLevel, if msg.length > 1024 then msg.take 1024 else msg, fields⟩] ∧
    (msg.length ≤ 1024 →
      (l.Info msg fields).l.logs = l.l.logs ++ [⟨InfoLevel, msg, fields⟩]) ∧
    (l.Info msg fields).al = l.al := by
  have key : (l.Info msg fields).l.logs
      = l.l.logs ++ [⟨InfoLevel, if msg.length > 1024 then msg.take 1024 else msg, fields⟩] := by
    simp [zapLogger.Info, zapLogger.check, Logger.Info, AtomicLevel.Enabled, hcore]
  refine ⟨key, fun h => ?_, ?_⟩
  · rw [key, if_neg (by omega)]
  · simp only [zapLogger.Info, zapLogger.check, AtomicLevel.Enabled]
    split_ifs <;> rfl

theorem info_records_message_witness :
    (⟨⟨InfoLevel, []⟩, InfoLevel⟩ : zapLogger (FieldSelector.GoString × FieldSelector.GoString)).l.enab
      = InfoLevel ∧
    ((⟨⟨InfoLevel, []⟩, InfoLevel⟩ :
        zapLogger (FieldSelector.GoString × FieldSelector.GoString)).Info
      (FieldSelector.utf8 "test with fields")
      [(FieldSelector.utf8 "key", FieldSelector.utf8 "value")]).l.logs
      = [] ++ [⟨InfoLevel, FieldSelector.utf8 "test with fields",
          [(FieldSelector.utf8 "key", FieldSelector.utf8 "value")]⟩] :=
  ⟨rfl, (info_records_message ⟨⟨InfoLevel, []⟩, InfoLevel⟩
    (FieldSelector.utf8 "test with fields")
    [(FieldSelector.utf8 "key", FieldSelector.utf8 "value")] rfl).2.1 (by decide)⟩

end Log
